import Mathlib

/-!
Verification of the 7-layer encryption core of Crypt-Talk
(`server/7_layer_encryption/`), as a shallow embedding in Lean 4.

Byte strings are modelled as `List Nat` (each entry a byte value).
External cryptographic primitives that the Python code takes from
`hashlib` / `hmac` / the `cryptography` package (SHA-256, HMAC-SHA256,
PBKDF2, the Fernet token construction, the AES-CTR keystream and the
floating-point logistic-map keystream of Layer 4) are not code of this
repository; they are modelled as parameters collected in a `Crypto`
structure, together with the well-formedness facts those libraries
guarantee (`Crypto.Wf`).  Every algorithm of the repository itself
(key schedule, framing, substitution table, Fisher-Yates block
permutation, noise embedding, integrity tag, orchestrator) is
translated directly from the Python source.
-/

namespace CryptTalk

/-- Byte strings: a list of byte values. -/
abbrev Bytes := List Nat

/-- Exceptions raised by the encryption stack, following the error
taxonomy of the design (`ValueError` messages in the source are grouped
by their role). -/
inductive Err : Type where
  /-- empty/undersized plaintext, key or nonce (`ValidationError`) -/
  | validation : Err
  /-- malformed framing, truncated data, bad magic (`FormatError`) -/
  | format : Err
  /-- HMAC/tag verification failed (`IntegrityError`) -/
  | integrity : Err
  /-- Layer 5: `Permutation data too large (max 64KB)` -/
  | permTooLarge : Err
  /-- Layer 6: `Noise map too large (max 64KB)` -/
  | noiseMapTooLarge : Err
  /-- `struct.pack` raises `struct.error` when a value exceeds the format range -/
  | structRange : Err
  /-- orchestrator: version mismatch on decrypt -/
  | versionMismatch : Err
  /-- orchestrator: `KeyError` on an unknown profile name during auto-reconfigure -/
  | unknownProfile : Err
  /-- Layer 6: `next()` on an exhausted position generator (`StopIteration`) -/
  | stopIteration : Err
  deriving DecidableEq, Repr

/-- Python slice `b[i:j]` (for natural `i`, `j`). -/
def slice {α : Type} (b : List α) (i j : Nat) : List α := (b.take j).drop i

/-- `struct.pack('<H', n)`: two little-endian bytes.  (`struct.error`
for out-of-range values is raised by explicit guards at call sites.) -/
def pack16 (n : Nat) : Bytes := [n % 256, n / 256 % 256]

/-- `struct.unpack('<H', b)[0]`. -/
def unpack16 (b : Bytes) : Nat := b.getD 0 0 + 256 * b.getD 1 0

/-- `struct.pack('<I', n)`: four little-endian bytes. -/
def pack32 (n : Nat) : Bytes :=
  [n % 256, n / 256 % 256, n / 65536 % 256, n / 16777216 % 256]

/-- `struct.unpack('<I', b)[0]`. -/
def unpack32 (b : Bytes) : Nat :=
  b.getD 0 0 + 256 * (b.getD 1 0 + 256 * (b.getD 2 0 + 256 * b.getD 3 0))

/-- `struct.pack('<Q', n)`: eight little-endian bytes. -/
def pack64 (n : Nat) : Bytes :=
  pack32 (n % 4294967296) ++ pack32 (n / 4294967296 % 4294967296)

/-- `struct.unpack('<Q', b)[0]`. -/
def unpack64 (b : Bytes) : Nat :=
  unpack32 (b.take 4) + 4294967296 * unpack32 (slice b 4 8)

/-- The Python parallel assignment `l[i], l[j] = l[j], l[i]`
(right-hand side evaluated first). -/
def listSwap {α : Type} [Inhabited α] (l : List α) (i j : Nat) : List α :=
  (l.set i (l.getD j default)).set j (l.getD i default)

theorem pack16_length (n : Nat) : (pack16 n).length = 2 := rfl

theorem pack32_length (n : Nat) : (pack32 n).length = 4 := rfl

theorem pack64_length (n : Nat) : (pack64 n).length = 8 := rfl

theorem unpack16_pack16 (n : Nat) (h : n < 65536) : unpack16 (pack16 n) = n := by
  simp [pack16, unpack16]
  omega

theorem unpack32_pack32 (n : Nat) (h : n < 4294967296) : unpack32 (pack32 n) = n := by
  simp [pack32, unpack32]
  omega

theorem unpack64_pack64 (n : Nat) (h : n < 18446744073709551616) :
    unpack64 (pack64 n) = n := by
  have h1 : n % 4294967296 < 4294967296 := Nat.mod_lt _ (by norm_num)
  have h2 : n / 4294967296 % 4294967296 < 4294967296 := Nat.mod_lt _ (by norm_num)
  have e1 : (pack64 n).take 4 = pack32 (n % 4294967296) := by
    simp [pack64, pack32]
  have e2 : slice (pack64 n) 4 8 = pack32 (n / 4294967296 % 4294967296) := by
    simp [pack64, pack32, slice]
  rw [unpack64, e1, e2, unpack32_pack32 _ h1, unpack32_pack32 _ h2]
  omega

theorem pack32_lt (n : Nat) : ∀ x ∈ pack32 n, x < 256 := by
  simp only [pack32, List.mem_cons, List.not_mem_nil, or_false]
  rintro x (rfl | rfl | rfl | rfl) <;> exact Nat.mod_lt _ (by norm_num)

theorem pack64_lt (n : Nat) : ∀ x ∈ pack64 n, x < 256 := by
  simp only [pack64, List.mem_append]
  rintro x (hx | hx) <;> exact pack32_lt _ x hx

theorem pack16_lt (n : Nat) : ∀ x ∈ pack16 n, x < 256 := by
  simp only [pack16, List.mem_cons, List.not_mem_nil, or_false]
  rintro x (rfl | rfl) <;> exact Nat.mod_lt _ (by norm_num)

theorem listSwap_length {α : Type} [Inhabited α] (l : List α) (i j : Nat) :
    (listSwap l i j).length = l.length := by
  simp [listSwap]

theorem getD_listSwap {α : Type} [Inhabited α] (l : List α) (i j k : Nat) (d : α)
    (hi : i < l.length) (hj : j < l.length) :
    (listSwap l i j).getD k d =
      if k = j then l.getD i d
      else if k = i then l.getD j d
      else l.getD k d := by
  have hgi : l.getD i default = l.getD i d := by
    rw [List.getD_eq_getElem l default hi, List.getD_eq_getElem l d hi]
  have hgj : l.getD j default = l.getD j d := by
    rw [List.getD_eq_getElem l default hj, List.getD_eq_getElem l d hj]
  simp only [listSwap, List.getD, List.getElem?_set, List.length_set]
  rcases eq_or_ne k j with rfl | hkj
  · simp [hj]
    rw [List.getElem?_eq_getElem hi]
    rfl
  · rcases eq_or_ne k i with rfl | hki
    · simp [Ne.symm hkj, hkj, hi]
      rw [List.getElem?_eq_getElem hj]
      rfl
    · simp [Ne.symm hkj, Ne.symm hki, hkj, hki]

theorem set_getD_self {α : Type} [Inhabited α] (l : List α) (i : Nat) :
    l.set i (l.getD i default) = l := by
  by_cases h : i < l.length
  · rw [List.getD_eq_getElem l default h]
    apply List.ext_getElem?
    intro n
    rw [List.getElem?_set]
    split
    · rename_i hn
      subst hn
      simp [List.getElem?_eq_getElem h]
    · rfl
  · rw [List.set_eq_of_length_le (Nat.le_of_not_lt h)]

theorem listSwap_perm_aux {α : Type} [Inhabited α] (l : List α) (p q : Nat)
    (hpq : p < q) (hq : q < l.length) : List.Perm (listSwap l p q) l := by
  have hp : p < l.length := hpq.trans hq
  have hdrop : l.drop (p + 1) =
      slice l (p + 1) q ++ l.getD q default :: l.drop (q + 1) := by
    conv_lhs => rw [← List.take_append_drop q l]
    rw [List.drop_append_eq_append_drop]
    have h2 : (l.take q).length = q := List.length_take_of_le (Nat.le_of_lt hq)
    rw [h2]
    have h3 : p + 1 - q = 0 := by omega
    rw [h3, List.drop_zero]
    congr 1
    rw [List.getD_eq_getElem l default hq]
    exact List.drop_eq_getElem_cons hq
  have hxy : l = l.take p ++ l.getD p default ::
      (slice l (p + 1) q ++ l.getD q default :: l.drop (q + 1)) := by
    conv_lhs => rw [← set_getD_self l p, List.set_eq_take_cons_drop _ hp]
    rw [hdrop]
  have hswap : listSwap l p q = l.take p ++ l.getD q default ::
      (slice l (p + 1) q ++ l.getD p default :: l.drop (q + 1)) := by
    unfold listSwap
    rw [List.set_eq_take_cons_drop _ hp]
    have hlen : (l.take p).length = p := List.length_take_of_le (Nat.le_of_lt hp)
    rw [List.set_append_right _ _ (by omega)]
    congr 1
    rw [hlen]
    have h5 : q - p = (q - p - 1) + 1 := by omega
    rw [h5, List.set_cons_succ]
    congr 1
    rw [List.set_eq_take_cons_drop]
    · rw [List.take_drop, List.drop_drop]
      have h6 : p + 1 + (q - p - 1) = q := by omega
      have h7 : p + 1 + (q - p - 1 + 1) = q + 1 := by omega
      rw [h6, h7]
      rfl
    · rw [List.length_drop]
      omega
  rw [hswap]
  conv_rhs => rw [hxy]
  apply List.Perm.append_left
  exact List.Perm.trans (List.Perm.cons _ List.perm_middle)
    (List.Perm.trans (List.Perm.swap _ _ _) (List.Perm.cons _ List.perm_middle.symm))

theorem listSwap_perm {α : Type} [Inhabited α] (l : List α) (i j : Nat)
    (hi : i < l.length) (hj : j < l.length) : List.Perm (listSwap l i j) l := by
  rcases Nat.lt_trichotomy i j with h | h | h
  · exact listSwap_perm_aux l i j h hj
  · subst h
    unfold listSwap
    rw [set_getD_self, set_getD_self]
  · have hcomm : listSwap l i j = listSwap l j i := by
      unfold listSwap
      exact List.set_comm _ _ _ (by omega)
    rw [hcomm]
    exact listSwap_perm_aux l j i h hi

/-- UTF-8 bytes of the source literal `7LAYER`. -/
def MAGIC_HEADER : Bytes := [55, 76, 65, 89, 69, 82]

/-- UTF-8 bytes of the source literal `1.0`. -/
def VERSION_BYTES : Bytes := [49, 46, 48]

/-- UTF-8 bytes of the source literal `MAXIMUM`. -/
def profileMAXIMUM : Bytes := [77, 65, 88, 73, 77, 85, 77]

/-- UTF-8 bytes of the source literal `BALANCED`. -/
def profileBALANCED : Bytes := [66, 65, 76, 65, 78, 67, 69, 68]

/-- UTF-8 bytes of the source literal `PERFORMANCE`. -/
def profilePERFORMANCE : Bytes := [80, 69, 82, 70, 79, 82, 77, 65, 78, 67, 69]

/-- UTF-8 bytes of the source literal `7LAYER_KEY_L`. -/
def KEY_LABEL_L : Bytes := [55, 76, 65, 89, 69, 82, 95, 75, 69, 89, 95, 76]

/-- UTF-8 bytes of the source literal `BYTE_MASK_LAYER1`. -/
def BYTE_MASK_LAYER1 : Bytes := [66, 89, 84, 69, 95, 77, 65, 83, 75, 95, 76, 65, 89, 69, 82, 49]

/-- UTF-8 bytes of the source literal `LAYER2_FERNET`. -/
def LAYER2_FERNET : Bytes := [76, 65, 89, 69, 82, 50, 95, 70, 69, 82, 78, 69, 84]

/-- UTF-8 bytes of the source literal `SALT`. -/
def SALT_TAG : Bytes := [83, 65, 76, 84]

/-- UTF-8 bytes of the source literal `LAYER3_AESCTR`. -/
def LAYER3_AESCTR : Bytes := [76, 65, 89, 69, 82, 51, 95, 65, 69, 83, 67, 84, 82]

/-- UTF-8 bytes of the source literal `AES256_CTR_KEY`. -/
def AES256_CTR_KEY : Bytes := [65, 69, 83, 50, 53, 54, 95, 67, 84, 82, 95, 75, 69, 89]

/-- UTF-8 bytes of the source literal `CTR_IV_GENERATION`. -/
def CTR_IV_GENERATION : Bytes := [67, 84, 82, 95, 73, 86, 95, 71, 69, 78, 69, 82, 65, 84, 73, 79, 78]

/-- UTF-8 bytes of the source literal `LAYER4_CHAOS`. -/
def LAYER4_CHAOS : Bytes := [76, 65, 89, 69, 82, 52, 95, 67, 72, 65, 79, 83]

/-- UTF-8 bytes of the source literal `LOGISTIC_MAP_SEED`. -/
def LOGISTIC_MAP_SEED : Bytes := [76, 79, 71, 73, 83, 84, 73, 67, 95, 77, 65, 80, 95, 83, 69, 69, 68]

/-- UTF-8 bytes of the source literal `LAYER5_SWAPPER`. -/
def LAYER5_SWAPPER : Bytes := [76, 65, 89, 69, 82, 53, 95, 83, 87, 65, 80, 80, 69, 82]

/-- UTF-8 bytes of the source literal `BLOCK_PERMUTATION`. -/
def BLOCK_PERMUTATION : Bytes := [66, 76, 79, 67, 75, 95, 80, 69, 82, 77, 85, 84, 65, 84, 73, 79, 78]

/-- UTF-8 bytes of the source literal `LAYER6_NOISE`. -/
def LAYER6_NOISE : Bytes := [76, 65, 89, 69, 82, 54, 95, 78, 79, 73, 83, 69]

/-- UTF-8 bytes of the source literal `NOISE_PATTERN_GEN`. -/
def NOISE_PATTERN_GEN : Bytes := [78, 79, 73, 83, 69, 95, 80, 65, 84, 84, 69, 82, 78, 95, 71, 69, 78]

/-- UTF-8 bytes of the source literal `PATTERN_SEED`. -/
def PATTERN_SEED_TAG : Bytes := [80, 65, 84, 84, 69, 82, 78, 95, 83, 69, 69, 68]

/-- UTF-8 bytes of the source literal `NOISE_DATA_GEN`. -/
def NOISE_DATA_GEN : Bytes := [78, 79, 73, 83, 69, 95, 68, 65, 84, 65, 95, 71, 69, 78]

/-- UTF-8 bytes of the source literal `LAYER7_INTEGRITY`. -/
def LAYER7_INTEGRITY : Bytes := [76, 65, 89, 69, 82, 55, 95, 73, 78, 84, 69, 71, 82, 73, 84, 89]

/-- UTF-8 bytes of the source literal `HMAC_INTEGRITY_KEY`. -/
def HMAC_INTEGRITY_KEY : Bytes := [72, 77, 65, 67, 95, 73, 78, 84, 69, 71, 82, 73, 84, 89, 95, 75, 69, 89]

/-- UTF-8 bytes of the source literal `FINAL_ROUND`. -/
def FINAL_ROUND : Bytes := [70, 73, 78, 65, 76, 95, 82, 79, 85, 78, 68]


/-- External cryptographic primitives used by the 7-layer stack.  These
come from `hashlib`, `hmac` and the `cryptography` package, not from the
repository, so they are parameters of the embedding.  `fernetEnc` takes
the current timestamp and the random IV that the Fernet implementation
draws per call; `chaosStream` models the whole floating-point
logistic-map keystream of Layer 4 as a function of the HMAC-derived
seed digest and the requested length. -/
structure Crypto : Type where
  /-- `hashlib.sha256(msg).digest()` -/
  sha256 : Bytes → Bytes
  /-- `hmac.new(key, msg, hashlib.sha256).digest()` -/
  hmacSha256 : Bytes → Bytes → Bytes
  /-- `PBKDF2HMAC(SHA256, length=32, salt, iterations=100000).derive(password)` -/
  pbkdf2Sha256 : Bytes → Bytes → Bytes
  /-- `Fernet(key).encrypt(data)` at timestamp `ts` with CBC IV `iv` -/
  fernetEnc : Bytes → Bytes → Nat → Bytes → Bytes
  /-- `Fernet(key).decrypt(token)`; `none` models `InvalidToken` -/
  fernetDec : Bytes → Bytes → Option Bytes
  /-- AES-256-CTR keystream application: `key iv data` -/
  aesCtr : Bytes → Bytes → Bytes → Bytes
  /-- Layer 4 logistic-map keystream: seed digest and length to bytes -/
  chaosStream : Bytes → Nat → Bytes
  /-- Layer 6 `int(data_length * noise_ratio)` where
  `noise_ratio = (unpack('<I', param_hash[:4]) / 0xFFFFFFFF) * 0.4 + 0.1`
  is computed in binary64 floating point from the parameter hash; the
  float arithmetic is abstracted as a function of `param_hash` and
  `data_length`. -/
  noiseTotal : Bytes → Nat → Nat

namespace Crypto

/-- Facts the external libraries guarantee about the primitives. -/
structure Wf (C : Crypto) : Prop where
  sha256_length : ∀ b, (C.sha256 b).length = 32
  sha256_lt : ∀ b, ∀ x ∈ C.sha256 b, x < 256
  hmac_length : ∀ k m, (C.hmacSha256 k m).length = 32
  hmac_lt : ∀ k m, ∀ x ∈ C.hmacSha256 k m, x < 256
  fernet_roundtrip : ∀ k d ts iv, C.fernetDec k (C.fernetEnc k d ts iv) = some d
  aesCtr_length : ∀ k iv d, (C.aesCtr k iv d).length = d.length
  aesCtr_involutive : ∀ k iv d, C.aesCtr k iv (C.aesCtr k iv d) = d
  chaos_length : ∀ s n, (C.chaosStream s n).length = n

end Crypto

variable (C : Crypto)

/-! ## Layer 1: `ByteFrequencyMasker` (`layer1_byte_mask.py`) -/

/-- `ByteFrequencyMasker._generate_prng_sequence`: SHA-256 in counter
mode.  Each `hashlib.sha256` digest is 32 bytes, so the `while` loop
appends exactly `⌈length/32⌉` blocks before truncating. -/
def generatePrngSequence (seed : Bytes) (length : Nat) : Except Err Bytes :=
  if seed.length < 16 then .error .validation
  else .ok ((((List.range ((length + 31) / 32)).map
    (fun counter => C.sha256 (seed ++ pack64 counter))).flatten).take length)

/-- The Fisher-Yates loop of
`ByteFrequencyMasker._create_substitution_table`:
`for i in range(255, 0, -1): j = unpack32(random_bytes[i*4:(i+1)*4]) % (i+1); swap`. -/
def fisherYatesTable (randomBytes : Bytes) : List Nat :=
  (List.range 255).foldl
    (fun t k =>
      let i := 255 - k
      let j := unpack32 (slice randomBytes (i * 4) ((i + 1) * 4)) % (i + 1)
      listSwap t i j)
    (List.range 256)

/-- The inverse-table loop:
`for i in range(256): inv_table[sub_table[i]] = i` over `[0]*256`. -/
def invertTable (sub : List Nat) : List Nat :=
  (List.range 256).foldl (fun inv i => inv.set (sub.getD i 0) i)
    (List.replicate 256 0)

/-- `ByteFrequencyMasker._create_substitution_table`. -/
def createSubstitutionTable (masterKey nonce : Bytes) :
    Except Err (List Nat × List Nat) :=
  let seedMaterial := C.sha256 (masterKey ++ nonce ++ BYTE_MASK_LAYER1)
  match generatePrngSequence C seedMaterial (256 * 4) with
  | .error e => .error e
  | .ok randomBytes =>
    let subTable := fisherYatesTable randomBytes
    .ok (subTable, invertTable subTable)

/-- `ByteFrequencyMasker.encrypt`. -/
def byteMaskEncrypt (plaintext masterKey nonce : Bytes) : Except Err Bytes :=
  if masterKey.length < 32 then .error .validation
  else if nonce.length < 16 then .error .validation
  else if plaintext = [] then .error .validation
  else match createSubstitutionTable C masterKey nonce with
    | .error e => .error e
    | .ok (subTable, _invTable) =>
      .ok (plaintext.map (fun b => subTable.getD b 0))

/-- `ByteFrequencyMasker.decrypt`. -/
def byteMaskDecrypt (ciphertext masterKey nonce : Bytes) : Except Err Bytes :=
  if masterKey.length < 32 then .error .validation
  else if nonce.length < 16 then .error .validation
  else if ciphertext = [] then .error .validation
  else match createSubstitutionTable C masterKey nonce with
    | .error e => .error e
    | .ok (_subTable, invTable) =>
      .ok (ciphertext.map (fun b => invTable.getD b 0))


/-! ### Layer 1 lemmas -/

theorem foldl_swap_perm (rb : Bytes) (ks : List Nat) :
    ∀ (t : List Nat), t.Perm (List.range 256) →
      (ks.foldl
        (fun t k =>
          let i := 255 - k
          let j := unpack32 (slice rb (i * 4) ((i + 1) * 4)) % (i + 1)
          listSwap t i j)
        t).Perm (List.range 256) := by
  induction ks with
  | nil => intro t ht; exact ht
  | cons k rest ih =>
    intro t ht
    simp only [List.foldl_cons]
    apply ih
    have hlen : t.length = 256 := by
      rw [ht.length_eq, List.length_range]
    refine List.Perm.trans (listSwap_perm _ _ _ ?_ ?_) ht
    · omega
    · rw [hlen]
      have h9 : unpack32 (slice rb ((255 - k) * 4) ((255 - k + 1) * 4)) % (255 - k + 1)
          < 255 - k + 1 := Nat.mod_lt _ (by omega)
      omega

theorem fisherYatesTable_perm (rb : Bytes) :
    (fisherYatesTable rb).Perm (List.range 256) :=
  foldl_swap_perm rb (List.range 255) (List.range 256) (List.Perm.refl _)

theorem foldl_set_length (t : List Nat) :
    ∀ (is : List Nat) (acc : List Nat),
      (is.foldl (fun inv i => inv.set (t.getD i 0) i) acc).length = acc.length := by
  intro is
  induction is with
  | nil => intro acc; rfl
  | cons i rest ih =>
    intro acc
    simp only [List.foldl_cons]
    rw [ih]
    exact List.length_set ..

theorem foldl_set_preserve (t : List Nat) :
    ∀ (is : List Nat) (acc : List Nat) (p : Nat),
      (∀ i ∈ is, t.getD i 0 ≠ p) →
      (is.foldl (fun inv i => inv.set (t.getD i 0) i) acc).getD p 0 = acc.getD p 0 := by
  intro is
  induction is with
  | nil => intro acc p _; rfl
  | cons i rest ih =>
    intro acc p hne
    simp only [List.foldl_cons]
    rw [ih _ _ (fun j hj => hne j (List.mem_cons_of_mem _ hj))]
    have hni : t[i]?.getD 0 ≠ p := by
      rw [← List.getD_eq_getElem?_getD]
      exact hne i (List.mem_cons_self ..)
    simp only [List.getD, List.get?_eq_getElem?, List.getElem?_set]
    simp [hni]

theorem foldl_set_spec (t : List Nat) :
    ∀ (is : List Nat) (acc : List Nat),
      is.Pairwise (fun a b => t.getD a 0 ≠ t.getD b 0) →
      ∀ i ∈ is, t.getD i 0 < acc.length →
      (is.foldl (fun inv i => inv.set (t.getD i 0) i) acc).getD (t.getD i 0) 0 = i := by
  intro is
  induction is with
  | nil => intro acc _ i hi; exact absurd hi (List.not_mem_nil i)
  | cons j rest ih =>
    intro acc hpw i hi hlt
    rcases List.pairwise_cons.mp hpw with ⟨hhead, htail⟩
    simp only [List.foldl_cons]
    rcases List.mem_cons.mp hi with rfl | hi
    · rw [foldl_set_preserve t rest _ _ (fun a ha => (hhead a ha).symm)]
      have hlt2 : t[i]?.getD 0 < acc.length := by
        rw [← List.getD_eq_getElem?_getD]
        exact hlt
      simp only [List.getD, List.get?_eq_getElem?, List.getElem?_set]
      simp [hlt2]
    · exact ih _ htail i hi (by rw [List.length_set]; exact hlt)

theorem perm_getD_lt {t : List Nat} {n : Nat} (hperm : t.Perm (List.range n))
    {i : Nat} (hi : i < n) : t.getD i 0 < n := by
  have hlen : t.length = n := by rw [hperm.length_eq, List.length_range]
  rw [List.getD_eq_getElem t 0 (by omega)]
  have hmem : t[i] ∈ t := List.getElem_mem _
  have := hperm.mem_iff.mp hmem
  simpa using this

theorem perm_pairwise_ne {t : List Nat} {n : Nat} (hperm : t.Perm (List.range n)) :
    (List.range n).Pairwise (fun a b => t.getD a 0 ≠ t.getD b 0) := by
  have hlen : t.length = n := by rw [hperm.length_eq, List.length_range]
  have hnd : t.Nodup := hperm.nodup_iff.mpr (List.nodup_range n)
  rw [List.pairwise_iff_getElem]
  intro i j hi hj hij
  simp only [List.length_range] at hi hj
  rw [List.getElem_range, List.getElem_range]
  rw [List.getD_eq_getElem t 0 (by omega), List.getD_eq_getElem t 0 (by omega)]
  intro heq
  exact absurd (hnd.getElem_inj_iff.mp heq) (by omega)

theorem perm_inv_fold_getD {t : List Nat} {n : Nat} (hperm : t.Perm (List.range n))
    {i : Nat} (hi : i < n) :
    ((List.range n).foldl (fun inv i => inv.set (t.getD i 0) i)
      (List.replicate n 0)).getD (t.getD i 0) 0 = i :=
  foldl_set_spec t (List.range n) _ (perm_pairwise_ne hperm)
    i (List.mem_range.mpr hi)
    (by rw [List.length_replicate]; exact perm_getD_lt hperm hi)

theorem perm_inv_fold_getD_right {t : List Nat} {n : Nat} (hperm : t.Perm (List.range n))
    {b : Nat} (hb : b < n) :
    t.getD (((List.range n).foldl (fun inv i => inv.set (t.getD i 0) i)
      (List.replicate n 0)).getD b 0) 0 = b := by
  have hlen : t.length = n := by rw [hperm.length_eq, List.length_range]
  have hmem : b ∈ t := hperm.mem_iff.mpr (by simpa using hb)
  rcases List.getElem_of_mem hmem with ⟨i, hilen, hval⟩
  have hgetD : t.getD i 0 = b := by rw [List.getD_eq_getElem t 0 hilen, hval]
  rw [← hgetD, perm_inv_fold_getD hperm (by omega), hgetD]

theorem invertTable_getD {t : List Nat} (hperm : t.Perm (List.range 256))
    {i : Nat} (hi : i < 256) : (invertTable t).getD (t.getD i 0) 0 = i := by
  unfold invertTable
  exact perm_inv_fold_getD hperm hi

theorem invertTable_getD_right {t : List Nat} (hperm : t.Perm (List.range 256))
    {b : Nat} (hb : b < 256) : t.getD ((invertTable t).getD b 0) 0 = b := by
  unfold invertTable
  exact perm_inv_fold_getD_right hperm hb


theorem createSubstitutionTable_spec (hC : C.Wf) (mk n : Bytes) :
    ∃ sub, createSubstitutionTable C mk n = .ok (sub, invertTable sub) ∧
      sub.Perm (List.range 256) := by
  have hlen : ¬ (C.sha256 (mk ++ n ++ BYTE_MASK_LAYER1)).length < 16 := by
    rw [hC.sha256_length]
    omega
  refine ⟨fisherYatesTable ((((List.range ((256 * 4 + 31) / 32)).map
      (fun counter => C.sha256 (C.sha256 (mk ++ n ++ BYTE_MASK_LAYER1)
        ++ pack64 counter))).flatten).take (256 * 4)),
    ?_, fisherYatesTable_perm _⟩
  simp only [createSubstitutionTable, generatePrngSequence]
  rw [if_neg hlen]

set_option maxRecDepth 4000 in
theorem byteMask_roundtrip (hC : C.Wf) (pt mk n ct : Bytes)
    (hbytes : ∀ b ∈ pt, b < 256)
    (henc : byteMaskEncrypt C pt mk n = .ok ct) :
    byteMaskDecrypt C ct mk n = .ok pt := by
  rcases createSubstitutionTable_spec C hC mk n with ⟨sub, hcst, hperm⟩
  unfold byteMaskEncrypt at henc
  split_ifs at henc with h1 h2 h3
  rw [hcst] at henc
  have henc' : (Except.ok (pt.map fun b => sub.getD b 0) : Except Err Bytes) = .ok ct := henc
  simp only [Except.ok.injEq] at henc'
  subst henc'
  unfold byteMaskDecrypt
  rw [hcst, if_neg h1, if_neg h2,
    if_neg (by simp only [List.map_eq_nil_iff]; exact h3)]
  simp only [List.map_map, Except.ok.injEq]
  conv_rhs => rw [← List.map_id pt]
  apply List.map_congr_left
  intro b hb
  simp only [Function.comp_apply, id_eq]
  exact invertTable_getD hperm (hbytes b hb)

/-! ### Byte-framing toolkit -/

theorem slice_cons {α : Type} (x : α) (rest : List α) (i j : Nat) :
    slice (x :: rest) (i + 1) (j + 1) = slice rest i j := by
  simp [slice, List.take_succ_cons, List.drop_succ_cons]

theorem slice_zero {α : Type} (l : List α) (j : Nat) : slice l 0 j = l.take j := by
  simp [slice]

theorem slice_append_ge {α : Type} (a b : List α) (i j : Nat) (hi : a.length ≤ i) :
    slice (a ++ b) i j = slice b (i - a.length) (j - a.length) := by
  rcases Nat.le_total j a.length with hj | hj
  · have hij : b.take (j - a.length) = [] := by
      have : j - a.length = 0 := by omega
      rw [this, List.take_zero]
    rw [slice, List.take_append_of_le_length hj]
    rw [slice, hij, List.drop_nil]
    apply List.drop_eq_nil_of_le
    rw [List.length_take]
    omega
  · have hj2 : j = a.length + (j - a.length) := by omega
    rw [slice, hj2, List.take_append]
    have hi2 : i = a.length + (i - a.length) := by omega
    rw [hi2, List.drop_append]
    simp [slice]

theorem slice_append_exact {α : Type} (a b : List α) (k : Nat) :
    slice (a ++ b) a.length (a.length + k) = b.take k := by
  rw [slice_append_ge a b _ _ (Nat.le_refl _), Nat.sub_self, Nat.add_sub_cancel_left,
    slice_zero]

theorem slice_append_lt {α : Type} (a b : List α) (i j : Nat) (hj : j ≤ a.length) :
    slice (a ++ b) i j = slice a i j := by
  rw [slice, List.take_append_of_le_length hj, slice]

theorem slice_len_exact {α : Type} (a b : List α) :
    slice (a ++ b) 0 a.length = a := by
  rw [slice_zero, List.take_left]

theorem slice_all {α : Type} (a : List α) : slice a 0 a.length = a := by
  rw [slice_zero, List.take_of_length_le (Nat.le_refl _)]

theorem drop_append_exact {α : Type} (a b : List α) : (a ++ b).drop a.length = b := by
  have h0 : (a ++ b).drop (a.length + 0) = b.drop 0 := List.drop_append 0
  simp only [Nat.add_zero, List.drop_zero] at h0
  exact h0

/-! ### Length-prefixed frame lemmas (`[k] ++ A ++ pack32 |B| ++ B`) -/

theorem slice_mid {α : Type} (a m b : List α) :
    slice ((a ++ m) ++ b) a.length (a.length + m.length) = m := by
  rw [slice_append_lt _ _ _ _ (by simp), slice_append_exact,
    List.take_of_length_le (Nat.le_refl _)]

theorem lp_frame_length (k : Nat) (A B : Bytes) :
    (([k] ++ A ++ pack32 B.length ++ B : Bytes)).length = 1 + A.length + 4 + B.length := by
  simp [pack32]
  omega

theorem lp_frame_getD0 (k : Nat) (A B : Bytes) :
    (([k] ++ A ++ pack32 B.length ++ B : Bytes)).getD 0 0 = k := by
  rw [List.getD_append _ _ _ 0 (by simp), List.getD_append _ _ _ 0 (by simp),
    List.getD_append _ _ _ 0 (by simp)]
  rfl

theorem lp_frame_sliceA (k : Nat) (A B : Bytes) :
    slice ([k] ++ A ++ pack32 B.length ++ B : Bytes) 1 (1 + A.length) = A := by
  rw [slice_append_lt _ _ _ _ (by simp [pack32]; omega)]
  rw [slice_append_lt _ _ _ _ (by simp; omega)]
  have h := slice_mid [k] A ([] : Bytes)
  simp only [List.append_nil, List.length_cons, List.length_nil] at h
  simpa using h

theorem lp_frame_len (k : Nat) (A B : Bytes) (hB : B.length < 4294967296) :
    unpack32 (slice ([k] ++ A ++ pack32 B.length ++ B : Bytes)
      (1 + A.length) (1 + A.length + 4)) = B.length := by
  rw [slice_append_lt _ _ _ _ (by simp [pack32]; omega)]
  have h := slice_mid ([k] ++ A) (pack32 B.length) B
  rw [show ([k] ++ A : Bytes).length = 1 + A.length by simp; omega] at h
  rw [show (pack32 B.length).length = 4 from rfl] at h
  rw [slice_append_lt _ _ _ _ (by simp [pack32]; omega)] at h
  rw [h, unpack32_pack32 _ hB]

theorem lp_frame_sliceB (k : Nat) (A B : Bytes) :
    slice ([k] ++ A ++ pack32 B.length ++ B : Bytes)
      (1 + A.length + 4) (1 + A.length + 4 + B.length) = B := by
  have h := slice_append_exact (([k] ++ A) ++ pack32 B.length) B B.length
  rw [show (([k] ++ A) ++ pack32 B.length : Bytes).length = 1 + A.length + 4
    by simp [pack32]; omega] at h
  rw [List.take_of_length_le (Nat.le_refl _)] at h
  calc slice (([k] ++ A ++ pack32 B.length ++ B : Bytes))
        (1 + A.length + 4) (1 + A.length + 4 + B.length)
      = slice ((([k] ++ A) ++ pack32 B.length) ++ B)
        (1 + A.length + 4) (1 + A.length + 4 + B.length) := by
        simp only [List.append_assoc]
    _ = B := h

/-! ## Layer 2: `AESFernetLayer` (`layer2_aes_fernet.py`) -/

/-- One base64url output character (the alphabet of
`base64.urlsafe_b64encode`). -/
def b64Char (n : Nat) : Nat :=
  if n < 26 then 65 + n
  else if n < 52 then 97 + (n - 26)
  else if n < 62 then 48 + (n - 52)
  else if n = 62 then 45
  else 95

/-- `base64.urlsafe_b64encode` (`=` is byte 61). -/
def b64urlEncode : Bytes → Bytes
  | [] => []
  | [a] => [b64Char (a / 4), b64Char (a % 4 * 16), 61, 61]
  | [a, b] => [b64Char (a / 4), b64Char (a % 4 * 16 + b / 16), b64Char (b % 16 * 4), 61]
  | a :: b :: c :: rest =>
    [b64Char (a / 4), b64Char (a % 4 * 16 + b / 16), b64Char (b % 16 * 4 + c / 64),
      b64Char (c % 64)] ++ b64urlEncode rest

/-- `AESFernetLayer._derive_fernet_key`: PBKDF2 (100 000 iterations,
modelled by the `pbkdf2Sha256` oracle) salted with
`sha256(nonce + layer_id + "SALT")[:16]`, base64url-encoded for Fernet. -/
def deriveFernetKey (masterKey nonce : Bytes) : Bytes :=
  let salt := (C.sha256 (nonce ++ LAYER2_FERNET ++ SALT_TAG)).take 16
  b64urlEncode (C.pbkdf2Sha256 masterKey salt)

/-- `AESFernetLayer._create_enhanced_token`:
`[nonce_len:1][nonce][token_len:4][fernet_token]`.  The `structRange`
guard models `struct.error` from `struct.pack('<I', token_len)`. -/
def createEnhancedToken (fernetToken nonce : Bytes) : Except Err Bytes :=
  if nonce.length > 255 then .error .validation
  else if fernetToken.length ≥ 4294967296 then .error .structRange
  else .ok ([nonce.length] ++ nonce ++ pack32 fernetToken.length ++ fernetToken)

/-- `AESFernetLayer._parse_enhanced_token`. -/
def parseEnhancedToken (enhancedToken : Bytes) : Except Err (Bytes × Bytes) :=
  if enhancedToken.length < 6 then .error .format
  else
    let nonceLen := enhancedToken.getD 0 0
    if enhancedToken.length < 1 + nonceLen + 4 then .error .format
    else
      let nonce := slice enhancedToken 1 (1 + nonceLen)
      let tokenLenStart := 1 + nonceLen
      let tokenLen := unpack32 (slice enhancedToken tokenLenStart (tokenLenStart + 4))
      let fernetStart := tokenLenStart + 4
      if enhancedToken.length < fernetStart + tokenLen then .error .format
      else .ok (nonce, slice enhancedToken fernetStart (fernetStart + tokenLen))

/-- `AESFernetLayer.encrypt`.  `ts` and `iv` are the timestamp and the
random IV that `Fernet.encrypt` draws internally on this call. -/
def fernetLayerEncrypt (plaintext masterKey nonce : Bytes) (ts : Nat) (iv : Bytes) :
    Except Err Bytes :=
  if masterKey.length < 32 then .error .validation
  else if nonce.length < 16 then .error .validation
  else if plaintext = [] then .error .validation
  else
    let fernetKey := deriveFernetKey C masterKey nonce
    let fernetToken := C.fernetEnc fernetKey plaintext ts iv
    createEnhancedToken fernetToken nonce

/-- `AESFernetLayer.decrypt` with `ttl=None` (the orchestrator never
passes a ttl).  A `Fernet.decrypt` failure (`InvalidToken`) is the
integrity error. -/
def fernetLayerDecrypt (ciphertext masterKey : Bytes) : Except Err Bytes :=
  if masterKey.length < 32 then .error .validation
  else if ciphertext = [] then .error .validation
  else match parseEnhancedToken ciphertext with
    | .error e => .error e
    | .ok (nonce, fernetToken) =>
      let fernetKey := deriveFernetKey C masterKey nonce
      match C.fernetDec fernetKey fernetToken with
      | none => .error .integrity
      | some plaintext => .ok plaintext

/-! ## Layer 3: `AESCTRLayer` (`layer3_aes_ctr.py`) -/

/-- `AESCTRLayer._derive_ctr_key`. -/
def deriveCtrKey (masterKey nonce : Bytes) : Bytes :=
  let context := LAYER3_AESCTR ++ nonce ++ AES256_CTR_KEY
  let keyMaterial := C.sha256 (masterKey ++ context)
  C.sha256 (keyMaterial ++ context.take 16)

/-- `AESCTRLayer._generate_ctr_iv`: 12-byte CTR nonce plus a 4-byte
derived counter (`pack('<I', unpack('<I', iv_material[12:16]))`). -/
def generateCtrIV (masterKey nonce : Bytes) : Bytes :=
  let ivContext := LAYER3_AESCTR ++ nonce ++ CTR_IV_GENERATION
  let ivMaterial := C.sha256 (masterKey ++ ivContext)
  let ctrNonce := ivMaterial.take 12
  let counterInit := unpack32 (slice ivMaterial 12 16)
  ctrNonce ++ pack32 counterInit

/-- `AESCTRLayer._create_ctr_cipher` followed by `update`/`finalize`:
the CTR keystream is applied with the cipher rebuilt from
`iv[:12] + pack('<I', unpack('<I', iv[12:16]))`. -/
def applyCtrCipher (key iv data : Bytes) : Bytes :=
  C.aesCtr key (iv.take 12 ++ pack32 (unpack32 (slice iv 12 16))) data

/-- `AESCTRLayer._pack_ctr_data`:
`[iv_length:1][iv][ciphertext_length:4][ciphertext]`. -/
def packCtrData (iv ciphertext : Bytes) : Except Err Bytes :=
  if iv.length ≠ 16 then .error .format
  else if ciphertext.length > 4294967295 then .error .structRange
  else .ok ([iv.length] ++ iv ++ pack32 ciphertext.length ++ ciphertext)

/-- `AESCTRLayer._unpack_ctr_data`. -/
def unpackCtrData (packedData : Bytes) : Except Err (Bytes × Bytes) :=
  if packedData.length < 21 then .error .format
  else
    let ivLen := packedData.getD 0 0
    if ivLen ≠ 16 then .error .format
    else
      let iv := slice packedData 1 17
      let ctLen := unpack32 (slice packedData 17 21)
      if packedData.length < 21 + ctLen then .error .format
      else .ok (iv, slice packedData 21 (21 + ctLen))

/-- `AESCTRLayer.encrypt`. -/
def ctrLayerEncrypt (plaintext masterKey nonce : Bytes) : Except Err Bytes :=
  if masterKey.length < 32 then .error .validation
  else if nonce.length < 16 then .error .validation
  else if plaintext = [] then .error .validation
  else
    let ctrKey := deriveCtrKey C masterKey nonce
    let iv := generateCtrIV C masterKey nonce
    let ciphertext := applyCtrCipher C ctrKey iv plaintext
    packCtrData iv ciphertext

/-- `AESCTRLayer.decrypt`. -/
def ctrLayerDecrypt (ciphertext masterKey nonce : Bytes) : Except Err Bytes :=
  if masterKey.length < 32 then .error .validation
  else if nonce.length < 16 then .error .validation
  else if ciphertext = [] then .error .validation
  else match unpackCtrData ciphertext with
    | .error e => .error e
    | .ok (iv, encryptedData) =>
      let ctrKey := deriveCtrKey C masterKey nonce
      .ok (applyCtrCipher C ctrKey iv encryptedData)

/-! ## Layer 4: `ChaosXORLayer` (`layer4_chaos_xor.py`) -/

/-- The seed digest handed to the logistic-map generator:
`hmac.new(master_key, layer_id + nonce + "LOGISTIC_MAP_SEED", sha256)`.
The float pipeline `_derive_chaos_seed` / `_generate_chaos_stream`
downstream of this digest is the `chaosStream` oracle. -/
def chaosSeedDigest (masterKey nonce : Bytes) : Bytes :=
  C.hmacSha256 masterKey (LAYER4_CHAOS ++ nonce ++ LOGISTIC_MAP_SEED)

/-- `ChaosXORLayer._xor_with_chaos` (raises on length mismatch). -/
def xorWithChaos (data chaosStream : Bytes) : Except Err Bytes :=
  if data.length ≠ chaosStream.length then .error .format
  else .ok (List.zipWith (fun d c => d ^^^ c) data chaosStream)

/-- `ChaosXORLayer._pack_chaos_data`:
`[seed_len:1][seed_info][data_len:4][xor_data]`. -/
def packChaosData (seedInfo xorResult : Bytes) : Except Err Bytes :=
  if seedInfo.length > 255 then .error .validation
  else if xorResult.length ≥ 4294967296 then .error .structRange
  else .ok ([seedInfo.length] ++ seedInfo ++ pack32 xorResult.length ++ xorResult)

/-- `ChaosXORLayer._unpack_chaos_data`. -/
def unpackChaosData (packedData : Bytes) : Except Err (Bytes × Bytes) :=
  if packedData.length < 6 then .error .format
  else
    let seedLen := packedData.getD 0 0
    if packedData.length < 1 + seedLen + 4 then .error .format
    else
      let seedInfo := slice packedData 1 (1 + seedLen)
      let dataLenStart := 1 + seedLen
      let dataLen := unpack32 (slice packedData dataLenStart (dataLenStart + 4))
      let xorStart := dataLenStart + 4
      if packedData.length < xorStart + dataLen then .error .format
      else .ok (seedInfo, slice packedData xorStart (xorStart + dataLen))

/-- `ChaosXORLayer.encrypt`. -/
def chaosLayerEncrypt (plaintext masterKey nonce : Bytes) : Except Err Bytes :=
  if masterKey.length < 32 then .error .validation
  else if nonce.length < 16 then .error .validation
  else if plaintext = [] then .error .validation
  else
    let chaosStream := C.chaosStream (chaosSeedDigest C masterKey nonce) plaintext.length
    match xorWithChaos plaintext chaosStream with
    | .error e => .error e
    | .ok xorResult =>
      let seedInfo := nonce.take 16
      packChaosData seedInfo xorResult

/-- `ChaosXORLayer.decrypt` (no nonce argument: the seed info travels
in the framing). -/
def chaosLayerDecrypt (ciphertext masterKey : Bytes) : Except Err Bytes :=
  if masterKey.length < 32 then .error .validation
  else if ciphertext = [] then .error .validation
  else match unpackChaosData ciphertext with
    | .error e => .error e
    | .ok (seedInfo, xorData) =>
      let nonce := seedInfo
      let chaosStream := C.chaosStream (chaosSeedDigest C masterKey nonce) xorData.length
      xorWithChaos xorData chaosStream

/-! ### Layer 2/3/4 round-trip lemmas -/

theorem parseEnhancedToken_roundtrip (tok n : Bytes) (hn : 1 ≤ n.length)
    (hn255 : ¬ n.length > 255) (htok : ¬ tok.length ≥ 4294967296) :
    parseEnhancedToken ([n.length] ++ n ++ pack32 tok.length ++ tok) = .ok (n, tok) := by
  simp only [parseEnhancedToken]
  rw [lp_frame_length, lp_frame_getD0]
  rw [lp_frame_len _ _ _ (by omega)]
  rw [if_neg (by omega), if_neg (by omega), if_neg (by omega)]
  rw [lp_frame_sliceA, lp_frame_sliceB]

theorem fernetLayer_roundtrip (hC : C.Wf) (pt mk n : Bytes) (ts : Nat) (iv ct : Bytes)
    (henc : fernetLayerEncrypt C pt mk n ts iv = .ok ct) :
    fernetLayerDecrypt C ct mk = .ok pt := by
  simp only [fernetLayerEncrypt, createEnhancedToken] at henc
  split_ifs at henc with h1 h2 h3 h4 h5
  simp only [Except.ok.injEq] at henc
  subst henc
  simp only [fernetLayerDecrypt]
  rw [if_neg h1, if_neg (by simp)]
  rw [parseEnhancedToken_roundtrip _ _ (by omega) h4 h5]
  simp [hC.fernet_roundtrip]

theorem generateCtrIV_length (hC : C.Wf) (mk n : Bytes) :
    (generateCtrIV C mk n).length = 16 := by
  simp only [generateCtrIV]
  simp [pack32, List.length_take, hC.sha256_length]

theorem unpackCtrData_roundtrip (iv ctx : Bytes) (hiv : iv.length = 16)
    (hct : ¬ ctx.length > 4294967295) :
    unpackCtrData ([iv.length] ++ iv ++ pack32 ctx.length ++ ctx) = .ok (iv, ctx) := by
  have hA := lp_frame_sliceA iv.length iv ctx
  have hL := lp_frame_len iv.length iv ctx (by omega)
  have hB := lp_frame_sliceB iv.length iv ctx
  simp only [unpackCtrData]
  rw [lp_frame_length, lp_frame_getD0]
  rw [show (17 : Nat) = 1 + iv.length from by omega,
    show (21 : Nat) = 1 + iv.length + 4 from by omega]
  rw [if_neg (by omega), if_neg (by omega)]
  rw [hL, if_neg (by omega), hA, hB]

theorem ctrLayer_roundtrip (hC : C.Wf) (pt mk n ct : Bytes)
    (henc : ctrLayerEncrypt C pt mk n = .ok ct) :
    ctrLayerDecrypt C ct mk n = .ok pt := by
  simp only [ctrLayerEncrypt, packCtrData] at henc
  split_ifs at henc with h1 h2 h3 h4 h5
  simp only [Except.ok.injEq] at henc
  subst henc
  simp only [ctrLayerDecrypt]
  rw [if_neg h1, if_neg h2, if_neg (by simp)]
  rw [unpackCtrData_roundtrip _ _ (generateCtrIV_length C hC mk n) h5]
  simp only [applyCtrCipher]
  simp [hC.aesCtr_involutive]

theorem zipWith_xor_invol (l s : Bytes) (h : l.length = s.length) :
    List.zipWith (fun d c => d ^^^ c)
      (List.zipWith (fun d c => d ^^^ c) l s) s = l := by
  induction l generalizing s with
  | nil => rfl
  | cons a l ih =>
    cases s with
    | nil => simp at h
    | cons b s2 =>
      simp only [List.zipWith_cons_cons, Nat.xor_cancel_right, List.cons.injEq, true_and]
      exact ih s2 (by simpa using h)

theorem unpackChaosData_roundtrip (si xr : Bytes) (hsi : 1 ≤ si.length)
    (h255 : ¬ si.length > 255) (hxr : ¬ xr.length ≥ 4294967296) :
    unpackChaosData ([si.length] ++ si ++ pack32 xr.length ++ xr) = .ok (si, xr) := by
  simp only [unpackChaosData]
  rw [lp_frame_length, lp_frame_getD0]
  rw [lp_frame_len _ _ _ (by omega)]
  rw [if_neg (by omega), if_neg (by omega), if_neg (by omega)]
  rw [lp_frame_sliceA, lp_frame_sliceB]

theorem chaosLayer_roundtrip (hC : C.Wf) (pt mk n ct : Bytes) (hn16 : n.length = 16)
    (henc : chaosLayerEncrypt C pt mk n = .ok ct) :
    chaosLayerDecrypt C ct mk = .ok pt := by
  have hstream : (C.chaosStream (chaosSeedDigest C mk n) pt.length).length = pt.length :=
    hC.chaos_length _ _
  simp only [chaosLayerEncrypt, xorWithChaos, packChaosData] at henc
  split_ifs at henc with h1 h2 h3 h4 h5
  dsimp only at henc
  split_ifs at henc with h6
  simp only [Except.ok.injEq] at henc
  subst henc
  have htake : n.take 16 = n := List.take_of_length_le (by omega)
  have hzlen : (List.zipWith (fun d c => d ^^^ c) pt
      (C.chaosStream (chaosSeedDigest C mk n) pt.length)).length = pt.length := by
    rw [List.length_zipWith, hstream, Nat.min_self]
  simp only [chaosLayerDecrypt]
  rw [if_neg h1, if_neg (by simp)]
  rw [htake]
  have hparse := unpackChaosData_roundtrip n
    (List.zipWith (fun d c => d ^^^ c) pt (C.chaosStream (chaosSeedDigest C mk n) pt.length))
    (by omega) (by omega) h6
  rw [hparse]
  simp only [xorWithChaos]
  rw [hzlen]
  rw [if_neg (by rw [hC.chaos_length]; omega)]
  simp only [Except.ok.injEq]
  exact zipWith_xor_invol pt _ (by rw [hC.chaos_length])

/-! ## Layer 7: `IntegrityTagger` (`layer7_integrity_tag.py`) -/

/-- `IntegrityTagger._derive_integrity_key`: two HMAC rounds. -/
def deriveIntegrityKey (masterKey nonce : Bytes) : Bytes :=
  let integrityContext := LAYER7_INTEGRITY ++ nonce ++ HMAC_INTEGRITY_KEY
  let intermediateKey := C.hmacSha256 masterKey integrityContext
  let finalContext := integrityContext ++ intermediateKey.take 16 ++ FINAL_ROUND
  C.hmacSha256 intermediateKey finalContext

/-- `IntegrityTagger._create_header`:
`[version:1][nonce_len:1][nonce][timestamp:8][tag_size:1]`. -/
def createIntegrityHeader (nonce : Bytes) (timestamp tagSize : Nat) :
    Except Err Bytes :=
  if nonce.length > 255 then .error .validation
  else if timestamp ≥ 18446744073709551616 then .error .structRange
  else .ok ([1] ++ [nonce.length] ++ nonce ++ pack64 timestamp ++ [tagSize])

/-- `IntegrityTagger._parse_header`. -/
def parseIntegrityHeader (data : Bytes) : Except Err (Bytes × Nat × Nat × Nat) :=
  if data.length < 11 then .error .format
  else if data.getD 0 0 ≠ 1 then .error .format
  else
    let nonceLen := data.getD 1 0
    if data.length < 2 + nonceLen + 8 + 1 then .error .format
    else
      let nonce := slice data 2 (2 + nonceLen)
      let timestampStart := 2 + nonceLen
      let timestamp := unpack64 (slice data timestampStart (timestampStart + 8))
      let tagSizePos := timestampStart + 8
      let tagSize := data.getD tagSizePos 0
      .ok (nonce, timestamp, tagSize, tagSizePos + 1)

/-- `IntegrityTagger._compute_integrity_tag`: HMAC-SHA256 truncated to
the configured tag size. -/
def computeIntegrityTag (data integrityKey : Bytes) (tagSize : Nat) : Bytes :=
  (C.hmacSha256 integrityKey data).take tagSize

/-- `IntegrityTagger._verify_integrity_tag` (`hmac.compare_digest` is
byte-string equality). -/
def verifyIntegrityTag (data tag integrityKey : Bytes) (tagSize : Nat) : Bool :=
  if tag.length ≠ tagSize then false
  else tag == computeIntegrityTag C data integrityKey tagSize

/-- `IntegrityTagger._unpack_authenticated_data` for an instance with
tag size `selfTagSize`. -/
def unpackAuthenticatedData (authenticatedData : Bytes) (selfTagSize : Nat) :
    Except Err (Bytes × Bytes × Bytes) :=
  match parseIntegrityHeader authenticatedData with
  | .error e => .error e
  | .ok (_nonce, _timestamp, tagSize, headerLength) =>
    if tagSize ≠ selfTagSize then .error .format
    else
      let tagStart := authenticatedData.length - tagSize
      if tagStart ≤ headerLength then .error .format
      else
        let tag := authenticatedData.drop tagStart
        if tag.length ≠ tagSize then .error .format
        else .ok (authenticatedData.take headerLength,
          slice authenticatedData headerLength tagStart, tag)

/-- `IntegrityTagger.encrypt` with tag size `tagSize`; `timestamp` is
the `int(time.time())` of the call. -/
def integrityLayerEncrypt (plaintext masterKey nonce : Bytes)
    (tagSize timestamp : Nat) : Except Err Bytes :=
  if masterKey.length < 32 then .error .validation
  else if nonce.length < 16 then .error .validation
  else if plaintext = [] then .error .validation
  else match createIntegrityHeader nonce timestamp tagSize with
    | .error e => .error e
    | .ok header =>
      let integrityKey := deriveIntegrityKey C masterKey nonce
      let integrityTag := computeIntegrityTag C (header ++ plaintext) integrityKey tagSize
      .ok (header ++ plaintext ++ integrityTag)

/-- `IntegrityTagger.decrypt` with tag size `selfTagSize`. -/
def integrityLayerDecrypt (ciphertext masterKey : Bytes) (selfTagSize : Nat) :
    Except Err Bytes :=
  if masterKey.length < 32 then .error .validation
  else if ciphertext = [] then .error .validation
  else match unpackAuthenticatedData ciphertext selfTagSize with
    | .error e => .error e
    | .ok (header, layer6Output, providedTag) =>
      match parseIntegrityHeader header with
      | .error e => .error e
      | .ok (nonce, _timestamp, _tagSize, _headerLength) =>
        let integrityKey := deriveIntegrityKey C masterKey nonce
        if verifyIntegrityTag C (header ++ layer6Output) providedTag
            integrityKey selfTagSize
        then .ok layer6Output
        else .error .integrity

/-! ### Layer 7 lemmas -/

theorem slice_cons2 {α : Type} (x y : α) (l : List α) (k : Nat) :
    slice (x :: y :: l) 2 (k + 2) = l.take k := rfl

theorem slice_cons_cons {α : Type} (x y : α) (l : List α) (i j : Nat) :
    slice (x :: y :: l) (i + 2) (j + 2) = slice l i j := rfl

theorem getD_cons_cons {α : Type} (x y : α) (l : List α) (i : Nat) (d : α) :
    (x :: y :: l).getD (i + 2) d = l.getD i d := rfl

theorem integrityHeader_cons (n : Bytes) (ts tagSize : Nat) (rest : Bytes) :
    (([1] ++ [n.length] ++ n ++ pack64 ts ++ [tagSize]) ++ rest : Bytes)
      = 1 :: n.length :: (n ++ (pack64 ts ++ (tagSize :: rest))) := by
  simp

theorem parseIntegrityHeader_spec (n : Bytes) (ts tagSize : Nat) (rest : Bytes)
    (hn : 1 ≤ n.length) (hts : ts < 18446744073709551616) :
    parseIntegrityHeader (([1] ++ [n.length] ++ n ++ pack64 ts ++ [tagSize]) ++ rest)
      = .ok (n, ts, tagSize, 2 + n.length + 8 + 1) := by
  have hlen : ((1 :: n.length :: (n ++ (pack64 ts ++ (tagSize :: rest)))) : Bytes).length
      = 11 + n.length + rest.length := by
    simp [pack64, pack32]
    omega
  have hsn : slice ((1 :: n.length :: (n ++ (pack64 ts ++ (tagSize :: rest)))) : Bytes)
      2 (2 + n.length) = n := by
    rw [show 2 + n.length = n.length + 2 from by omega, slice_cons2, List.take_left]
  have hst : unpack64 (slice ((1 :: n.length :: (n ++ (pack64 ts ++ (tagSize :: rest)))) : Bytes)
      (2 + n.length) (2 + n.length + 8)) = ts := by
    rw [show 2 + n.length = n.length + 2 from by omega,
      show n.length + 2 + 8 = n.length + 8 + 2 from by omega, slice_cons_cons]
    rw [slice_append_exact n (pack64 ts ++ (tagSize :: rest)) 8]
    rw [List.take_left' (pack64_length ts), unpack64_pack64 ts hts]
  have hgt : ((1 :: n.length :: (n ++ (pack64 ts ++ (tagSize :: rest)))) : Bytes).getD
      (2 + n.length + 8) 0 = tagSize := by
    rw [show 2 + n.length + 8 = n.length + 8 + 2 from by omega, getD_cons_cons]
    rw [List.getD_append_right _ _ _ _ (by omega)]
    rw [show n.length + 8 - n.length = 8 from by omega]
    rw [List.getD_append_right _ _ _ _ (by rw [pack64_length])]
    rw [show 8 - (pack64 ts).length = 0 from by rw [pack64_length]]
    rfl
  simp only [parseIntegrityHeader, integrityHeader_cons]
  rw [hlen]
  rw [show ((1 :: n.length :: (n ++ (pack64 ts ++ (tagSize :: rest)))) : Bytes).getD 0 0
    = 1 from rfl]
  rw [show ((1 :: n.length :: (n ++ (pack64 ts ++ (tagSize :: rest)))) : Bytes).getD 1 0
    = n.length from rfl]
  rw [hsn, hst, hgt]
  rw [if_neg (by omega), if_neg (by omega), if_neg (by omega)]

theorem unpackAuthenticatedData_roundtrip (n pt tag : Bytes) (ts tagSize : Nat)
    (hn : 1 ≤ n.length) (hts : ts < 18446744073709551616)
    (hpt : pt ≠ []) (htag : tag.length = tagSize) :
    unpackAuthenticatedData
      (([1] ++ [n.length] ++ n ++ pack64 ts ++ [tagSize]) ++ (pt ++ tag)) tagSize
      = .ok ([1] ++ [n.length] ++ n ++ pack64 ts ++ [tagSize], pt, tag) := by
  have hptlen : 1 ≤ pt.length := List.length_pos.mpr hpt
  have hHlen : (([1] ++ [n.length] ++ n ++ pack64 ts ++ [tagSize] : Bytes)).length
      = 2 + n.length + 8 + 1 := by
    simp [pack64, pack32]
    omega
  have hlen : ((([1] ++ [n.length] ++ n ++ pack64 ts ++ [tagSize]) ++ (pt ++ tag) : Bytes)).length
      = 11 + n.length + pt.length + tag.length := by
    simp [pack64, pack32]
    omega
  simp only [unpackAuthenticatedData]
  rw [parseIntegrityHeader_spec n ts tagSize (pt ++ tag) hn hts]
  dsimp only
  rw [if_neg (by simp)]
  rw [hlen]
  rw [show 11 + n.length + pt.length + tag.length - tagSize
    = 2 + n.length + 8 + 1 + pt.length from by omega]
  rw [if_neg (by omega)]
  have hdrop : ((([1] ++ [n.length] ++ n ++ pack64 ts ++ [tagSize]) ++ (pt ++ tag) : Bytes)).drop
      (2 + n.length + 8 + 1 + pt.length) = tag := by
    rw [← List.append_assoc]
    have h := drop_append_exact (([1] ++ [n.length] ++ n ++ pack64 ts ++ [tagSize]) ++ pt : Bytes) tag
    rw [show ((([1] ++ [n.length] ++ n ++ pack64 ts ++ [tagSize]) ++ pt : Bytes)).length
      = 2 + n.length + 8 + 1 + pt.length from by simp [pack64, pack32]; omega] at h
    exact h
  rw [hdrop, htag]
  rw [if_neg (by omega)]
  have htake : ((([1] ++ [n.length] ++ n ++ pack64 ts ++ [tagSize]) ++ (pt ++ tag) : Bytes)).take
      (2 + n.length + 8 + 1) = [1] ++ [n.length] ++ n ++ pack64 ts ++ [tagSize] :=
    List.take_left' hHlen
  have hmid : slice ((([1] ++ [n.length] ++ n ++ pack64 ts ++ [tagSize]) ++ (pt ++ tag)) : Bytes)
      (2 + n.length + 8 + 1) (2 + n.length + 8 + 1 + pt.length) = pt := by
    have h := slice_append_ge ([1] ++ [n.length] ++ n ++ pack64 ts ++ [tagSize] : Bytes)
      (pt ++ tag) (2 + n.length + 8 + 1) (2 + n.length + 8 + 1 + pt.length) (by omega)
    rw [hHlen] at h
    rw [show 2 + n.length + 8 + 1 - (2 + n.length + 8 + 1) = 0 from by omega] at h
    rw [show 2 + n.length + 8 + 1 + pt.length - (2 + n.length + 8 + 1)
      = pt.length from by omega] at h
    rw [slice_zero, List.take_append_of_le_length (Nat.le_refl _),
      List.take_of_length_le (Nat.le_refl _)] at h
    exact h
  rw [htake, hmid]

theorem integrityLayer_roundtrip (hC : C.Wf) (pt mk n ct : Bytes)
    (tagSize ts : Nat) (hts32 : tagSize ≤ 32)
    (henc : integrityLayerEncrypt C pt mk n tagSize ts = .ok ct) :
    integrityLayerDecrypt C ct mk tagSize = .ok pt := by
  simp only [integrityLayerEncrypt, createIntegrityHeader] at henc
  split_ifs at henc with h1 h2 h3 h4 h5
  simp only [Except.ok.injEq] at henc
  subst henc
  have htaglen : ∀ d : Bytes,
      (computeIntegrityTag C d (deriveIntegrityKey C mk n) tagSize).length = tagSize := by
    intro d
    simp only [computeIntegrityTag]
    rw [List.length_take, hC.hmac_length]
    omega
  simp only [integrityLayerDecrypt]
  rw [if_neg h1, if_neg (by simp)]
  rw [show (([1] ++ [n.length] ++ n ++ pack64 ts ++ [tagSize]) ++ pt ++
        computeIntegrityTag C (([1] ++ [n.length] ++ n ++ pack64 ts ++ [tagSize]) ++ pt)
          (deriveIntegrityKey C mk n) tagSize : Bytes)
      = ([1] ++ [n.length] ++ n ++ pack64 ts ++ [tagSize]) ++
        (pt ++ computeIntegrityTag C (([1] ++ [n.length] ++ n ++ pack64 ts ++ [tagSize]) ++ pt)
          (deriveIntegrityKey C mk n) tagSize) from by simp]
  rw [unpackAuthenticatedData_roundtrip n pt _ ts tagSize (by omega) (by omega) h3 (htaglen _)]
  dsimp only
  have hparseH := parseIntegrityHeader_spec n ts tagSize [] (by omega) (by omega)
  rw [List.append_nil] at hparseH
  simp only [hparseH]
  simp [verifyIntegrityTag, htaglen]

/-! ## Layer 5: `RandomSwapper` (`layer5_random_swapper.py`) -/

/-- `RandomSwapper._derive_swap_parameters`: round count in
`[MIN_ROUNDS, MAX_ROUNDS] = [3, 16]` plus the HMAC output extended by
eight more HMAC blocks of swap material. -/
def deriveSwapParameters (masterKey nonce : Bytes) : Nat × Bytes :=
  let swapContext := LAYER5_SWAPPER ++ nonce ++ BLOCK_PERMUTATION
  let paramHash := C.hmacSha256 masterKey swapContext
  let roundsRaw := unpack32 (paramHash.take 4)
  let numRounds := roundsRaw % (16 - 3 + 1) + 3
  let swapMaterial := paramHash ++
    ((List.range 8).map (fun i => C.hmacSha256 masterKey (swapContext ++ pack32 i))).flatten
  (numRounds, swapMaterial)

/-- `RandomSwapper._pad_to_blocks` (16-byte blocks; the
`padding_length == 0` branch of the source is unreachable because
`16 - len % 16 ∈ [1, 16]`, and is kept as dead code here too). -/
def padToBlocks (data : Bytes) : Bytes × Nat :=
  let originalLength := data.length
  if originalLength = 0 then
    (List.replicate 16 16, 0)
  else
    let paddingLength0 := 16 - originalLength % 16
    let paddingLength := if paddingLength0 = 0 then 16 else paddingLength0
    (data ++ List.replicate paddingLength paddingLength, originalLength)

/-- `RandomSwapper._unpad_blocks`. -/
def unpadBlocks (paddedData : Bytes) (originalLength : Nat) : Except Err Bytes :=
  if originalLength = 0 then .ok []
  else if originalLength > paddedData.length then .error .format
  else .ok (paddedData.take originalLength)

/-- The chunking loop of `RandomSwapper._split_into_blocks`, with the
iteration count `len(data)` made explicit so the recursion is
structural (`for i in range(0, len(data), 16)` runs at most `len(data)`
times). -/
def splitBlocksF : Nat → Bytes → List Bytes
  | 0, _ => []
  | fuel + 1, data =>
    if data = [] then [] else data.take 16 :: splitBlocksF fuel (data.drop 16)

/-- The chunking loop of `RandomSwapper._split_into_blocks`:
`for i in range(0, len(data), 16): blocks.append(data[i:i+16])`. -/
def splitBlocks (data : Bytes) : List Bytes := splitBlocksF data.length data

theorem splitBlocksF_norm : ∀ (fuel : Nat), ∀ (data : Bytes), data.length ≤ fuel →
    splitBlocksF fuel data = splitBlocksF data.length data := by
  intro fuel
  induction fuel using Nat.strong_induction_on with
  | _ fuel ih =>
    intro data hlen
    cases data with
    | nil =>
      cases fuel with
      | zero => rfl
      | succ f => rfl
    | cons a rest =>
      cases fuel with
      | zero => simp at hlen
      | succ f =>
        have hr : rest.length ≤ f := by
          simp only [List.length_cons] at hlen
          omega
        simp only [splitBlocksF, List.length_cons]
        rw [if_neg (List.cons_ne_nil a rest)]
        congr 1
        rw [ih f (by omega) _
          (by simp only [List.length_drop, List.length_cons]; omega)]
        rw [ih rest.length (by omega) _
          (by simp only [List.length_drop, List.length_cons]; omega)]

/-- The defining equation of the chunking loop. -/
theorem splitBlocks_eq (data : Bytes) :
    splitBlocks data
      = if data = [] then [] else data.take 16 :: splitBlocks (data.drop 16) := by
  cases data with
  | nil => rfl
  | cons a rest =>
    rw [if_neg (List.cons_ne_nil a rest)]
    simp only [splitBlocks, List.length_cons, splitBlocksF]
    rw [if_neg (List.cons_ne_nil a rest)]
    congr 1
    exact splitBlocksF_norm rest.length _
      (by simp only [List.length_drop, List.length_cons]; omega)

/-- `RandomSwapper._split_into_blocks` (rejects lengths that are not a
multiple of the block size). -/
def splitIntoBlocks (data : Bytes) : Except Err (List Bytes) :=
  if data.length % 16 ≠ 0 then .error .format
  else .ok (splitBlocks data)

/-- `RandomSwapper._join_blocks` (`b''.join(blocks)`). -/
def joinBlocks (blocks : List Bytes) : Bytes := blocks.flatten

/-- One iteration of the `_fisher_yates_shuffle` loop, threading
`(blocks, indices, material_offset)`; `k` counts iterations so that
`i = num_blocks - 1 - k` runs from `num_blocks - 1` down to `1`. -/
def fyStep (swapMaterial : Bytes) (numBlocks : Nat)
    (st : List Bytes × List Nat × Nat) (k : Nat) : List Bytes × List Nat × Nat :=
  let i := numBlocks - 1 - k
  let off := if st.2.2 + 4 > swapMaterial.length then 0 else st.2.2
  let randomInt := unpack32 (slice swapMaterial off (off + 4))
  let j := randomInt % (i + 1)
  (listSwap st.1 i j, listSwap st.2.1 i j, off + 4)

/-- `RandomSwapper._fisher_yates_shuffle`: shuffles the blocks in place
while tracking the permutation indices, drawing 4-byte integers from
the swap material with wrap-around. -/
def fisherYatesShuffle (blocks : List Bytes) (swapMaterial : Bytes) (roundNum : Nat) :
    List Bytes × List Nat :=
  let numBlocks := blocks.length
  if numBlocks ≤ 1 then (blocks, List.range numBlocks)
  else
    let materialOffset := (roundNum * numBlocks * 4) % swapMaterial.length
    let result := (List.range (numBlocks - 1)).foldl (fyStep swapMaterial numBlocks)
      (blocks, List.range numBlocks, materialOffset)
    (result.1, result.2.1)

/-- `RandomSwapper._inverse_fisher_yates`. -/
def inverseFisherYates (blocks : List Bytes) (permutationIndices : List Nat) :
    List Bytes :=
  let numBlocks := blocks.length
  if numBlocks ≤ 1 then blocks
  else
    let inverseIndices := (List.range permutationIndices.length).foldl
      (fun inv i => inv.set (permutationIndices.getD i 0) i)
      (List.replicate numBlocks 0)
    (List.range numBlocks).map (fun i => blocks.getD (inverseIndices.getD i 0) [])

/-- The serialization loop of `RandomSwapper.encrypt`:
`pack('<H', num_rounds)` followed by `pack('<H', idx)` for every index
of every round (with the `struct.error` range guards). -/
def packPermutationInfo (numRounds : Nat) (allPermutations : List (List Nat)) :
    Except Err Bytes :=
  if numRounds ≥ 65536 then .error .structRange
  else if allPermutations.any (fun p => p.any (fun idx => idx ≥ 65536)) then
    .error .structRange
  else .ok (pack16 numRounds ++
    (allPermutations.map (fun p => (p.map pack16).flatten)).flatten)

/-- `RandomSwapper._pack_swapped_data`:
`[orig_len:4][perm_len:2][perm_data][swapped_blocks]`. -/
def packSwappedData (swappedBlocks : Bytes) (originalLength : Nat)
    (permutationData : Bytes) : Except Err Bytes :=
  if permutationData.length > 65535 then .error .permTooLarge
  else if originalLength ≥ 4294967296 then .error .structRange
  else .ok (pack32 originalLength ++ pack16 permutationData.length ++
    permutationData ++ swappedBlocks)

/-- `RandomSwapper._unpack_swapped_data`. -/
def unpackSwappedData (packedData : Bytes) : Except Err (Bytes × Nat × Bytes) :=
  if packedData.length < 6 then .error .format
  else
    let originalLength := unpack32 (packedData.take 4)
    let permLen := unpack16 (slice packedData 4 6)
    if packedData.length < 6 + permLen then .error .format
    else .ok (packedData.drop (6 + permLen), originalLength,
      slice packedData 6 (6 + permLen))

/-- The permutation-parsing loop of `RandomSwapper.decrypt`: reads
`numRounds` rounds of `numBlocks` 2-byte indices starting at offset 2,
checking for truncation before each round. -/
def parsePermutations (permutationInfo : Bytes) (numRounds numBlocks : Nat) :
    Except Err (List (List Nat)) :=
  if (List.range numRounds).any
      (fun r => 2 + r * (numBlocks * 2) + numBlocks * 2 > permutationInfo.length) then
    .error .format
  else .ok ((List.range numRounds).map (fun r =>
    (List.range numBlocks).map (fun b =>
      unpack16 (slice permutationInfo (2 + r * (numBlocks * 2) + b * 2)
        (2 + r * (numBlocks * 2) + b * 2 + 2)))))

/-- `RandomSwapper.encrypt`. -/
def swapperEncrypt (plaintext masterKey nonce : Bytes) : Except Err Bytes :=
  if masterKey.length < 32 then .error .validation
  else if nonce.length < 16 then .error .validation
  else if plaintext = [] then .error .validation
  else
    let params := deriveSwapParameters C masterKey nonce
    let numRounds := params.1
    let swapMaterial := params.2
    let padded := padToBlocks plaintext
    match splitIntoBlocks padded.1 with
    | .error e => .error e
    | .ok blocks0 =>
      let shuffled := (List.range numRounds).foldl
        (fun (st : List Bytes × List (List Nat)) roundNum =>
          let round := fisherYatesShuffle st.1 swapMaterial roundNum
          (round.1, st.2 ++ [round.2]))
        (blocks0, [])
      let swappedData := joinBlocks shuffled.1
      match packPermutationInfo numRounds shuffled.2 with
      | .error e => .error e
      | .ok permutationInfo => packSwappedData swappedData padded.2 permutationInfo

/-- `RandomSwapper.decrypt`. -/
def swapperDecrypt (ciphertext masterKey nonce : Bytes) : Except Err Bytes :=
  if masterKey.length < 32 then .error .validation
  else if nonce.length < 16 then .error .validation
  else if ciphertext = [] then .error .validation
  else match unpackSwappedData ciphertext with
    | .error e => .error e
    | .ok (swappedData, originalLength, permutationInfo) =>
      if permutationInfo.length < 2 then .error .format
      else
        let numRounds := unpack16 (permutationInfo.take 2)
        if numRounds < 3 ∨ numRounds > 16 then .error .format
        else match splitIntoBlocks swappedData with
          | .error e => .error e
          | .ok blocks =>
            match parsePermutations permutationInfo numRounds blocks.length with
            | .error e => .error e
            | .ok allPermutations =>
              let restored := allPermutations.foldr
                (fun perm bs => inverseFisherYates bs perm) blocks
              unpadBlocks (joinBlocks restored) originalLength

/-! ### Layer 5 lemmas: blocks and padding -/

theorem splitBlocks_flatten (d : Bytes) : (splitBlocks d).flatten = d := by
  generalize hl : d.length = L
  induction L using Nat.strong_induction_on generalizing d with
  | _ L ih =>
    rw [splitBlocks_eq]
    split
    · rename_i h
      subst h
      rfl
    · rename_i h
      simp only [List.flatten_cons]
      rw [ih (d.drop 16).length (by
        simp only [List.length_drop]
        have := List.length_pos.mpr h
        omega) (d.drop 16) rfl]
      exact List.take_append_drop 16 d

theorem splitBlocks_of_blocks (blocks : List Bytes)
    (h : ∀ b ∈ blocks, b.length = 16) : splitBlocks blocks.flatten = blocks := by
  induction blocks with
  | nil => simp [splitBlocks, splitBlocksF]
  | cons b rest ih =>
    have hb : b.length = 16 := h b (List.mem_cons_self ..)
    rw [List.flatten_cons, splitBlocks_eq]
    split
    · rename_i hcon
      have hbnil : b = [] := (List.append_eq_nil.mp hcon).1
      rw [hbnil] at hb
      simp at hb
    · rw [List.take_left' hb, List.drop_left' hb]
      rw [ih (fun x hx => h x (List.mem_cons_of_mem _ hx))]

theorem splitBlocks_lengths (d : Bytes) (hd : d.length % 16 = 0) :
    ∀ b ∈ splitBlocks d, b.length = 16 := by
  generalize hl : d.length = L
  induction L using Nat.strong_induction_on generalizing d with
  | _ L ih =>
    rw [splitBlocks_eq]
    split
    · intro b hb
      exact absurd hb (List.not_mem_nil b)
    · rename_i h
      have hpos : 0 < d.length := List.length_pos.mpr h
      have h16 : 16 ≤ d.length := by omega
      intro b hb
      rcases List.mem_cons.mp hb with rfl | hbmem
      · rw [List.length_take]
        omega
      · exact ih (d.drop 16).length (by simp only [List.length_drop]; omega)
          (d.drop 16) (by simp only [List.length_drop]; omega) rfl b hbmem

theorem splitBlocks_count (d : Bytes) (hd : d.length % 16 = 0) :
    (splitBlocks d).length = d.length / 16 := by
  generalize hl : d.length = L
  induction L using Nat.strong_induction_on generalizing d with
  | _ L ih =>
    rw [splitBlocks_eq]
    split
    · rename_i h
      subst h
      simp only [List.length_nil] at hl
      simp [← hl]
    · rename_i h
      have hpos : 0 < d.length := List.length_pos.mpr h
      have h16 : 16 ≤ d.length := by omega
      simp only [List.length_cons]
      rw [ih (d.drop 16).length (by simp only [List.length_drop]; omega)
        (d.drop 16) (by simp only [List.length_drop]; omega) rfl]
      simp only [List.length_drop]
      omega

theorem flatten_length_of_blocks (blocks : List Bytes) (L : Nat)
    (h : ∀ b ∈ blocks, b.length = L) : blocks.flatten.length = blocks.length * L := by
  induction blocks with
  | nil => simp
  | cons b rest ih =>
    simp only [List.flatten_cons, List.length_append, List.length_cons]
    rw [h b (List.mem_cons_self ..), ih (fun x hx => h x (List.mem_cons_of_mem _ hx))]
    ring

theorem padToBlocks_snd (d : Bytes) :
    (padToBlocks d).2 = if d.length = 0 then 0 else d.length := by
  simp only [padToBlocks]
  split_ifs <;> rfl

theorem padToBlocks_spec (d : Bytes) (hd : d ≠ []) :
    (padToBlocks d).2 = d.length ∧
    (padToBlocks d).1 = d ++ List.replicate (16 - d.length % 16) (16 - d.length % 16) := by
  have hlen : d.length ≠ 0 := fun h => hd (List.eq_nil_of_length_eq_zero h)
  simp only [padToBlocks]
  rw [if_neg hlen, if_neg (by omega)]
  exact ⟨rfl, rfl⟩

theorem padToBlocks_length (d : Bytes) (hd : d ≠ []) :
    (padToBlocks d).1.length = d.length + (16 - d.length % 16) := by
  rw [(padToBlocks_spec d hd).2]
  simp

theorem padToBlocks_mod (d : Bytes) (hd : d ≠ []) :
    (padToBlocks d).1.length % 16 = 0 := by
  rw [padToBlocks_length d hd]
  omega

theorem padToBlocks_take (d : Bytes) (hd : d ≠ []) :
    (padToBlocks d).1.take d.length = d := by
  rw [(padToBlocks_spec d hd).2, List.take_left]

/-! ### Layer 5 lemmas: the keyed shuffle and its inverse -/

theorem getD_range (n i : Nat) (hi : i < n) : (List.range n).getD i 0 = i := by
  rw [List.getD_eq_getElem _ 0 (by simpa), List.getElem_range]

theorem fy_fold_invariant (material : Bytes) (n : Nat) (hn : 1 ≤ n) (bs0 : List Bytes) :
    ∀ (ks : List Nat) (bs : List Bytes) (idx : List Nat) (off : Nat),
      bs.length = n → idx.Perm (List.range n) →
      (∀ i, i < n → bs.getD i [] = bs0.getD (idx.getD i 0) []) →
      ((ks.foldl (fyStep material n) (bs, idx, off)).1.length = n ∧
       (ks.foldl (fyStep material n) (bs, idx, off)).2.1.Perm (List.range n) ∧
       ∀ i, i < n →
        (ks.foldl (fyStep material n) (bs, idx, off)).1.getD i []
          = bs0.getD ((ks.foldl (fyStep material n) (bs, idx, off)).2.1.getD i 0) []) := by
  intro ks
  induction ks with
  | nil =>
    intro bs idx off hlen hperm hpt
    exact ⟨hlen, hperm, hpt⟩
  | cons k ks ih =>
    intro bs idx off hlen hperm hpt
    simp only [List.foldl_cons, fyStep]
    have hidxlen : idx.length = n := by rw [hperm.length_eq, List.length_range]
    set off2 := if off + 4 > material.length then 0 else off with hoff2
    set j := unpack32 (slice material off2 (off2 + 4)) % (n - 1 - k + 1) with hjdef
    have hi : n - 1 - k < n := by omega
    have hj : j < n := by
      rw [hjdef]
      have hmod : unpack32 (slice material off2 (off2 + 4)) % (n - 1 - k + 1)
          < n - 1 - k + 1 := Nat.mod_lt _ (by omega)
      omega
    apply ih
    · rw [listSwap_length, hlen]
    · exact List.Perm.trans (listSwap_perm idx _ _ (by omega) (by omega)) hperm
    · intro i hi2
      rw [getD_listSwap _ _ _ _ _ (by omega) (by omega),
        getD_listSwap _ _ _ _ _ (by omega) (by omega)]
      split_ifs with hc1 hc2
      · exact hpt _ hi
      · exact hpt _ hj
      · exact hpt _ hi2

theorem fisherYatesShuffle_spec (bs : List Bytes) (material : Bytes) (round : Nat) :
    (fisherYatesShuffle bs material round).1.length = bs.length ∧
    (fisherYatesShuffle bs material round).2.Perm (List.range bs.length) ∧
    (∀ i, i < bs.length → (fisherYatesShuffle bs material round).1.getD i []
      = bs.getD ((fisherYatesShuffle bs material round).2.getD i 0) []) := by
  simp only [fisherYatesShuffle]
  split_ifs with h
  · refine ⟨rfl, List.Perm.refl _, ?_⟩
    intro i hi
    rw [getD_range _ _ hi]
  · have hn : 1 ≤ bs.length := by omega
    have hinv := fy_fold_invariant material bs.length hn bs
      (List.range (bs.length - 1)) bs (List.range bs.length)
      ((round * bs.length * 4) % material.length) rfl (List.Perm.refl _)
      (fun i hi => by rw [getD_range _ _ hi])
    exact ⟨hinv.1, hinv.2.1, hinv.2.2⟩

theorem getD_set_lt (acc : List Nat) (a v q n : Nat) (hv : v < n)
    (hacc : ∀ q2, acc.getD q2 0 < n) : (acc.set a v).getD q 0 < n := by
  by_cases hq : a = q
  · subst hq
    by_cases hlen : a < acc.length
    · rw [List.getD_eq_getElem _ 0 (by simpa using hlen), List.getElem_set]
      simp [hv]
    · rw [List.set_eq_of_length_le (by omega)]
      exact hacc a
  · have : (acc.set a v).getD q 0 = acc.getD q 0 := by
      simp [List.getD, List.getElem?_set, hq]
    rw [this]
    exact hacc q

theorem foldl_set_getD_lt (t : List Nat) (n : Nat) :
    ∀ (is : List Nat) (acc : List Nat) (p : Nat),
      (∀ q, acc.getD q 0 < n) → (∀ i ∈ is, i < n) →
      ((is.foldl (fun inv i => inv.set (t.getD i 0) i) acc)).getD p 0 < n := by
  intro is
  induction is with
  | nil => intro acc p hacc _; exact hacc p
  | cons i rest ih =>
    intro acc p hacc hmem
    simp only [List.foldl_cons]
    apply ih
    · intro q2
      exact getD_set_lt acc _ _ q2 n (hmem i (List.mem_cons_self ..)) hacc
    · intro a ha
      exact hmem a (List.mem_cons_of_mem _ ha)

theorem getD_replicate_lt (n q v : Nat) (hv : v < n) :
    (List.replicate n v).getD q v < n := by
  by_cases hq : q < n
  · rw [List.getD_eq_getElem _ v (by simpa using hq), List.getElem_replicate]
    exact hv
  · rw [List.getD_eq_default _ _ (by simpa using hq)]
    exact hv

theorem inverseFisherYates_spec (bs0 bs2 : List Bytes) (perm : List Nat) (n : Nat)
    (h0 : bs0.length = n) (h2 : bs2.length = n) (hperm : perm.Perm (List.range n))
    (hpt : ∀ i, i < n → bs2.getD i [] = bs0.getD (perm.getD i 0) []) :
    inverseFisherYates bs2 perm = bs0 := by
  have hpl : perm.length = n := by rw [hperm.length_eq, List.length_range]
  simp only [inverseFisherYates]
  rw [h2, hpl]
  split_ifs with hle
  · -- at most one block: the permutation is the identity on `range n`
    apply List.ext_getElem (by omega)
    intro k hk1 hk2
    have hkn : k < n := by omega
    have hjlt : perm.getD k 0 < n := perm_getD_lt hperm hkn
    have hjk : perm.getD k 0 = k := by omega
    have h2' : bs2[k] = bs2.getD k [] := (List.getD_eq_getElem bs2 [] (by omega)).symm
    have h0' : bs0[k] = bs0.getD k [] := (List.getD_eq_getElem bs0 [] (by omega)).symm
    rw [h2', h0', hpt k hkn, hjk]
  · have hn : 1 ≤ n := by omega
    apply List.ext_getElem (by simp [h0])
    intro k hk1 hk2
    simp only [List.getElem_map, List.getElem_range]
    have hkn : k < n := by simpa using hk1
    have hinvlt : (((List.range n).foldl
        (fun inv i => inv.set (perm.getD i 0) i) (List.replicate n 0))).getD k 0 < n :=
      foldl_set_getD_lt perm n (List.range n) _ k
        (fun q => getD_replicate_lt n q 0 (by omega))
        (fun i hi => List.mem_range.mp hi)
    rw [hpt _ hinvlt, perm_inv_fold_getD_right hperm hkn]
    rw [List.getD_eq_getElem bs0 [] (by omega)]

theorem pointwise_mem (a b : List Bytes) (g : Nat → Nat) (n : Nat)
    (ha : a.length = n) (hb : b.length = n)
    (hg : ∀ i, i < n → g i < n)
    (hpt : ∀ i, i < n → a.getD i [] = b.getD (g i) []) :
    ∀ x ∈ a, x ∈ b := by
  intro x hx
  rcases List.getElem_of_mem hx with ⟨i, hi, hval⟩
  have hin : i < n := by omega
  have hgi := hg i hin
  have h1 : a.getD i [] = x := by rw [List.getD_eq_getElem a [] hi, hval]
  have h2 : b.getD (g i) [] = x := by rw [← hpt i hin, h1]
  rw [List.getD_eq_getElem b [] (by omega)] at h2
  rw [← h2]
  exact List.getElem_mem _

theorem swapFold_spec (material : Bytes) (blocks0 : List Bytes) (n : Nat)
    (rounds : List Nat) :
    ∀ (bs : List Bytes) (ps : List (List Nat)),
      bs.length = n →
      (∀ x ∈ bs, x ∈ blocks0) →
      ps.foldr (fun perm b2 => inverseFisherYates b2 perm) bs = blocks0 →
      ((rounds.foldl
          (fun (st : List Bytes × List (List Nat)) roundNum =>
            let round := fisherYatesShuffle st.1 material roundNum
            (round.1, st.2 ++ [round.2])) (bs, ps)).1.length = n ∧
       (∀ x ∈ (rounds.foldl
          (fun (st : List Bytes × List (List Nat)) roundNum =>
            let round := fisherYatesShuffle st.1 material roundNum
            (round.1, st.2 ++ [round.2])) (bs, ps)).1, x ∈ blocks0) ∧
       (rounds.foldl
          (fun (st : List Bytes × List (List Nat)) roundNum =>
            let round := fisherYatesShuffle st.1 material roundNum
            (round.1, st.2 ++ [round.2])) (bs, ps)).2.foldr
          (fun perm b2 => inverseFisherYates b2 perm)
          (rounds.foldl
            (fun (st : List Bytes × List (List Nat)) roundNum =>
              let round := fisherYatesShuffle st.1 material roundNum
              (round.1, st.2 ++ [round.2])) (bs, ps)).1 = blocks0 ∧
       (rounds.foldl
          (fun (st : List Bytes × List (List Nat)) roundNum =>
            let round := fisherYatesShuffle st.1 material roundNum
            (round.1, st.2 ++ [round.2])) (bs, ps)).2.length
          = ps.length + rounds.length) := by
  induction rounds with
  | nil =>
    intro bs ps hlen hmem hinv
    exact ⟨hlen, hmem, hinv, by simp⟩
  | cons r rest ih =>
    intro bs ps hlen hmem hinv
    simp only [List.foldl_cons]
    obtain ⟨hslen, hsperm, hspt⟩ := fisherYatesShuffle_spec bs material r
    have hnewlen : (fisherYatesShuffle bs material r).1.length = n := by
      rw [hslen, hlen]
    have hperm2 : (fisherYatesShuffle bs material r).2.Perm (List.range n) := by
      rw [← hlen]; exact hsperm
    have hpt2 : ∀ i, i < n → (fisherYatesShuffle bs material r).1.getD i []
        = bs.getD ((fisherYatesShuffle bs material r).2.getD i 0) [] := by
      intro i hi
      exact hspt i (by omega)
    have hmem2 : ∀ x ∈ (fisherYatesShuffle bs material r).1, x ∈ blocks0 := by
      intro x hx
      exact hmem x (pointwise_mem _ bs _ n hnewlen hlen
        (fun i hi => perm_getD_lt hperm2 hi) hpt2 x hx)
    have hinv2 : (ps ++ [(fisherYatesShuffle bs material r).2]).foldr
        (fun perm b2 => inverseFisherYates b2 perm)
        (fisherYatesShuffle bs material r).1 = blocks0 := by
      rw [List.foldr_append]
      simp only [List.foldr_cons, List.foldr_nil]
      rw [inverseFisherYates_spec bs (fisherYatesShuffle bs material r).1
        (fisherYatesShuffle bs material r).2 n hlen hnewlen hperm2 hpt2]
      exact hinv
    have hfull := ih (fisherYatesShuffle bs material r).1
      (ps ++ [(fisherYatesShuffle bs material r).2]) hnewlen hmem2 hinv2
    refine ⟨hfull.1, hfull.2.1, hfull.2.2.1, ?_⟩
    rw [hfull.2.2.2]
    simp only [List.length_append, List.length_cons, List.length_nil]
    omega

theorem slice_flatten_chunk {α : Type} (L : Nat) :
    ∀ (rows : List (List α)) (r o k : Nat),
      (∀ row ∈ rows, row.length = L) → r < rows.length → o + k ≤ L →
      slice rows.flatten (r * L + o) (r * L + o + k) = slice (rows.getD r []) o (o + k) := by
  intro rows
  induction rows with
  | nil =>
    intro r o k _ hr _
    simp at hr
  | cons row rest ih =>
    intro r o k hlen hr hok
    have hrow : row.length = L := hlen row (List.mem_cons_self ..)
    cases r with
    | zero =>
      simp only [List.flatten_cons, Nat.zero_mul, Nat.zero_add]
      rw [slice_append_lt _ _ _ _ (by omega)]
      rfl
    | succ r2 =>
      simp only [List.flatten_cons]
      have hm : (r2 + 1) * L = r2 * L + L := Nat.succ_mul r2 L
      rw [slice_append_ge _ _ _ _ (by omega)]
      have h1 : (r2 + 1) * L + o - row.length = r2 * L + o := by omega
      have h2 : (r2 + 1) * L + o + k - row.length = r2 * L + o + k := by omega
      rw [h1, h2, List.getD_cons_succ]
      exact ih r2 o k (fun row2 hr2 => hlen row2 (List.mem_cons_of_mem _ hr2))
        (by simpa using Nat.lt_of_succ_lt_succ (by simpa using hr)) hok

theorem slice_pack16_flatten (q : List Nat) (b : Nat) (hb : b < q.length) :
    slice ((q.map pack16).flatten) (b * 2) (b * 2 + 2) = pack16 (q.getD b 0) := by
  have h := slice_flatten_chunk 2 (q.map pack16) b 0 2
    (fun row hrow => by
      rcases List.mem_map.mp hrow with ⟨x, _, hx⟩
      rw [← hx, pack16_length])
    (by simpa using hb) (by omega)
  simp only [Nat.add_zero] at h
  rw [h]
  have hq : (q.map pack16).getD b [] = pack16 (q.getD b 0) := by
    rw [List.getD_eq_getElem _ [] (by simpa using hb), List.getElem_map,
      List.getD_eq_getElem q 0 hb]
  rw [hq]
  have := slice_all (pack16 (q.getD b 0))
  rw [pack16_length] at this
  exact this

theorem parsePermutations_pack (numBlocks : Nat) (perms : List (List Nat))
    (hlen : ∀ p ∈ perms, p.length = numBlocks)
    (hentries : ∀ p ∈ perms, ∀ x ∈ p, x < 65536) :
    parsePermutations
      (pack16 perms.length ++ (perms.map (fun p => (p.map pack16).flatten)).flatten)
      perms.length numBlocks = .ok perms := by
  have hrowlen : ∀ row ∈ perms.map (fun p => (p.map pack16).flatten),
      row.length = numBlocks * 2 := by
    intro row hrow
    rcases List.mem_map.mp hrow with ⟨p, hp, hpx⟩
    rw [← hpx]
    rw [flatten_length_of_blocks (p.map pack16) 2
      (fun x hx => by
        rcases List.mem_map.mp hx with ⟨y, _, hy⟩
        rw [← hy, pack16_length])]
    rw [List.length_map, hlen p hp]
  have hflatlen : ((perms.map (fun p => (p.map pack16).flatten)).flatten).length
      = perms.length * (numBlocks * 2) := by
    rw [flatten_length_of_blocks _ (numBlocks * 2) hrowlen, List.length_map]
  have hinfolen : (pack16 perms.length ++
      (perms.map (fun p => (p.map pack16).flatten)).flatten).length
      = 2 + perms.length * (numBlocks * 2) := by
    rw [List.length_append, pack16_length, hflatlen]
  simp only [parsePermutations]
  rw [if_neg]
  · congr 1
    apply List.ext_getElem (by simp)
    intro r hr1 hr2
    simp only [List.getElem_map, List.getElem_range]
    have hrp : r < perms.length := by simpa using hr2
    apply List.ext_getElem (by rw [List.length_map, List.length_range, hlen _ (List.getElem_mem hr2)])
    intro b hb1 hb2
    simp only [List.getElem_map, List.getElem_range]
    have hbn : b < numBlocks := by simpa using hb1
    have hslice : slice (pack16 perms.length ++
        (perms.map (fun p => (p.map pack16).flatten)).flatten)
        (2 + r * (numBlocks * 2) + b * 2) (2 + r * (numBlocks * 2) + b * 2 + 2)
        = slice ((perms.map (fun p => (p.map pack16).flatten)).flatten)
          (r * (numBlocks * 2) + b * 2) (r * (numBlocks * 2) + b * 2 + 2) := by
      rw [slice_append_ge _ _ _ _ (by rw [pack16_length]; omega)]
      rw [pack16_length]
      have e1 : 2 + r * (numBlocks * 2) + b * 2 - 2 = r * (numBlocks * 2) + b * 2 := by omega
      have e2 : 2 + r * (numBlocks * 2) + b * 2 + 2 - 2
          = r * (numBlocks * 2) + b * 2 + 2 := by omega
      rw [e1, e2]
    rw [hslice]
    have hchunk := slice_flatten_chunk (numBlocks * 2)
      (perms.map (fun p => (p.map pack16).flatten)) r (b * 2) 2 hrowlen
      (by simpa using hrp) (by omega)
    rw [hchunk]
    have hgd : (perms.map (fun p => (p.map pack16).flatten)).getD r []
        = ((perms[r]).map pack16).flatten := by
      rw [List.getD_eq_getElem _ [] (by simpa using hrp), List.getElem_map]
    rw [hgd]
    have hblen : b < (perms[r]).length := by
      rw [hlen _ (List.getElem_mem hrp)]
      exact hbn
    rw [slice_pack16_flatten (perms[r]) b hblen]
    rw [unpack16_pack16 _ (hentries _ (List.getElem_mem hrp) _
      (by rw [List.getD_eq_getElem _ 0 hblen]; exact List.getElem_mem hblen))]
    rw [List.getD_eq_getElem _ 0 hblen]
  · simp only [List.any_eq_true, List.mem_range, not_exists]
    intro r
    simp only [not_and, decide_eq_true_eq, Nat.not_lt]
    intro hr
    rw [hinfolen]
    have hm : (r + 1) * (numBlocks * 2) ≤ perms.length * (numBlocks * 2) :=
      Nat.mul_le_mul_right _ hr
    have hm2 : (r + 1) * (numBlocks * 2) = r * (numBlocks * 2) + numBlocks * 2 :=
      Nat.succ_mul r (numBlocks * 2)
    omega

theorem unpackSwappedData_pack (ol : Nat) (permInfo swapped : Bytes)
    (hol : ol < 4294967296) (hpl : permInfo.length ≤ 65535) :
    unpackSwappedData (pack32 ol ++ pack16 permInfo.length ++ permInfo ++ swapped)
      = .ok (swapped, ol, permInfo) := by
  set D := pack32 ol ++ pack16 permInfo.length ++ permInfo ++ swapped with hD
  have hDlen : D.length = 6 + permInfo.length + swapped.length := by
    simp only [hD, List.length_append, pack32_length, pack16_length]
  have htake : D.take 4 = pack32 ol := by
    rw [hD]
    rw [List.take_append_of_le_length
      (by simp only [List.length_append, pack32_length, pack16_length]; omega)]
    rw [List.take_append_of_le_length
      (by simp only [List.length_append, pack32_length, pack16_length]; omega)]
    rw [List.take_append_of_le_length (by rw [pack32_length])]
    exact List.take_of_length_le (by rw [pack32_length])
  have hslice46 : slice D 4 6 = pack16 permInfo.length := by
    rw [hD]
    rw [slice_append_lt _ _ _ _
      (by simp only [List.length_append, pack32_length, pack16_length]; omega)]
    rw [slice_append_lt _ _ _ _
      (by simp only [List.length_append, pack32_length, pack16_length]; omega)]
    rw [slice_append_ge _ _ _ _ (by rw [pack32_length])]
    rw [pack32_length]
    have e1 : (4 : Nat) - 4 = 0 := rfl
    have e2 : (6 : Nat) - 4 = 2 := rfl
    rw [e1, e2, slice_zero]
    exact List.take_of_length_le (by rw [pack16_length])
  have hlenA : (((pack32 ol ++ pack16 permInfo.length) ++ permInfo) : Bytes).length
      = 6 + permInfo.length := by
    simp only [List.length_append, pack32_length, pack16_length]
  have hdrop : D.drop (6 + permInfo.length) = swapped := by
    rw [hD, ← hlenA]
    exact List.drop_left _ _
  have hsliceP : slice D 6 (6 + permInfo.length) = permInfo := by
    rw [hD]
    have hP6 : ((pack32 ol ++ pack16 permInfo.length) : Bytes).length = 6 := by
      simp only [List.length_append, pack32_length, pack16_length]
    have h := slice_mid (pack32 ol ++ pack16 permInfo.length) permInfo swapped
    rw [hP6] at h
    exact h
  simp only [unpackSwappedData]
  rw [if_neg (by omega)]
  rw [htake, hslice46, unpack32_pack32 _ hol, unpack16_pack16 _ (by omega)]
  rw [if_neg (by omega)]
  rw [hdrop, hsliceP]

theorem swapFold_perms (material : Bytes) (n : Nat) (rounds : List Nat) :
    ∀ (bs : List Bytes) (ps : List (List Nat)),
      bs.length = n →
      (∀ p ∈ ps, p.Perm (List.range n)) →
      (∀ p ∈ (rounds.foldl
          (fun (st : List Bytes × List (List Nat)) roundNum =>
            let round := fisherYatesShuffle st.1 material roundNum
            (round.1, st.2 ++ [round.2])) (bs, ps)).2, p.Perm (List.range n)) := by
  induction rounds with
  | nil =>
    intro bs ps _ hps
    exact hps
  | cons r rest ih =>
    intro bs ps hlen hps
    simp only [List.foldl_cons]
    obtain ⟨hslen, hsperm, _⟩ := fisherYatesShuffle_spec bs material r
    apply ih
    · rw [hslen, hlen]
    · intro p hp
      rcases List.mem_append.mp hp with hp1 | hp1
      · exact hps p hp1
      · have hpe : p = (fisherYatesShuffle bs material r).2 := by
          simpa using hp1
        rw [hpe, ← hlen]
        exact hsperm

theorem swapper_roundtrip (pt mk n mk2 n2 ct : Bytes)
    (hmk2 : 32 ≤ mk2.length) (hn2 : 16 ≤ n2.length)
    (henc : swapperEncrypt C pt mk n = .ok ct) :
    swapperDecrypt ct mk2 n2 = .ok pt := by
  simp only [swapperEncrypt] at henc
  split_ifs at henc with h1 h2 h3
  have hmod := padToBlocks_mod pt h3
  have hsplit : splitIntoBlocks (padToBlocks pt).1
      = .ok (splitBlocks (padToBlocks pt).1) := by
    simp only [splitIntoBlocks]
    rw [if_neg (by omega)]
  rw [hsplit] at henc
  dsimp only at henc
  simp only [packPermutationInfo] at henc
  split_ifs at henc with h4 h5
  dsimp only at henc
  simp only [packSwappedData] at henc
  split_ifs at henc with h6 h7
  simp only [Except.ok.injEq] at henc
  subst henc
  -- names for the derived parameters and the shuffle fold
  have hspec := swapFold_spec (deriveSwapParameters C mk n).2
    (splitBlocks (padToBlocks pt).1) (splitBlocks (padToBlocks pt).1).length
    (List.range (deriveSwapParameters C mk n).1)
    (splitBlocks (padToBlocks pt).1) [] rfl (fun x hx => hx) rfl
  have hperms := swapFold_perms (deriveSwapParameters C mk n).2
    (splitBlocks (padToBlocks pt).1).length
    (List.range (deriveSwapParameters C mk n).1)
    (splitBlocks (padToBlocks pt).1) [] rfl (by intro p hp; simp at hp)
  set shf := (List.range (deriveSwapParameters C mk n).1).foldl
    (fun (st : List Bytes × List (List Nat)) roundNum =>
      let round := fisherYatesShuffle st.1 (deriveSwapParameters C mk n).2 roundNum
      (round.1, st.2 ++ [round.2]))
    ((splitBlocks (padToBlocks pt).1), ([] : List (List Nat))) with hshf
  obtain ⟨hslen, hsmem, hsinv, hscnt⟩ := hspec
  rw [List.length_nil, List.length_range, Nat.zero_add] at hscnt
  have hb16 : ∀ b ∈ splitBlocks (padToBlocks pt).1, b.length = 16 :=
    splitBlocks_lengths _ hmod
  have hshf16 : ∀ b ∈ shf.1, b.length = 16 := fun b hb => hb16 _ (hsmem b hb)
  have hflatlen : (joinBlocks shf.1).length = shf.1.length * 16 := by
    simp only [joinBlocks]
    exact flatten_length_of_blocks _ 16 hshf16
  have hflatmod : (joinBlocks shf.1).length % 16 = 0 := by
    rw [hflatlen]
    exact Nat.mul_mod_left _ _
  have hsplitflat : splitBlocks (joinBlocks shf.1) = shf.1 := by
    simp only [joinBlocks]
    exact splitBlocks_of_blocks shf.1 hshf16
  have hnrlo : 3 ≤ (deriveSwapParameters C mk n).1 ∧
      (deriveSwapParameters C mk n).1 ≤ 16 := by
    simp only [deriveSwapParameters]
    have := Nat.mod_lt (unpack32
      ((C.hmacSha256 mk (LAYER5_SWAPPER ++ n ++ BLOCK_PERMUTATION)).take 4))
      (show 0 < 16 - 3 + 1 by omega)
    omega
  -- the packed ciphertext
  have hol : (padToBlocks pt).2 = pt.length := (padToBlocks_spec pt h3).1
  have hpt0 : pt.length ≠ 0 := fun h => h3 (List.eq_nil_of_length_eq_zero h)
  simp only [swapperDecrypt]
  rw [if_neg (by omega), if_neg (by omega)]
  rw [if_neg (by
    intro hnil
    have := congrArg List.length hnil
    simp only [List.length_append, List.length_nil, pack32_length, pack16_length]
      at this
    omega)]
  rw [unpackSwappedData_pack _ _ _ (by omega) (by omega)]
  dsimp only
  rw [if_neg (by
    simp only [List.length_append, pack16_length]
    omega)]
  have hPItake : ((pack16 (deriveSwapParameters C mk n).1 ++
      (shf.2.map (fun p => (p.map pack16).flatten)).flatten : Bytes)).take 2
      = pack16 (deriveSwapParameters C mk n).1 := by
    rw [List.take_append_of_le_length (by rw [pack16_length])]
    exact List.take_of_length_le (by rw [pack16_length])
  rw [hPItake, unpack16_pack16 _ (by omega)]
  rw [if_neg (by omega)]
  have hsplit2 : splitIntoBlocks (joinBlocks shf.1) = .ok shf.1 := by
    simp only [splitIntoBlocks]
    rw [if_neg (by omega), hsplitflat]
  rw [hsplit2]
  dsimp only
  have hparse : parsePermutations
      (pack16 (deriveSwapParameters C mk n).1 ++
        (shf.2.map (fun p => (p.map pack16).flatten)).flatten)
      (deriveSwapParameters C mk n).1 shf.1.length = .ok shf.2 := by
    rw [← hscnt]
    apply parsePermutations_pack
    · intro p hp
      have := (hperms p hp).length_eq
      rw [List.length_range] at this
      rw [this, hslen]
    · intro p hp x hx
      by_contra hge
      have : shf.2.any (fun p => p.any (fun idx => idx ≥ 65536)) = true := by
        simp only [List.any_eq_true, decide_eq_true_eq]
        exact ⟨p, hp, x, hx, by omega⟩
      exact h5 this
  rw [hparse]
  dsimp only
  rw [hsinv]
  simp only [joinBlocks, splitBlocks_flatten]
  simp only [unpadBlocks, hol]
  rw [if_neg hpt0]
  rw [if_neg (by
    have := padToBlocks_length pt h3
    omega)]
  rw [padToBlocks_take pt h3]

theorem swapperEncrypt_permTooLarge (pt mk n : Bytes)
    (hmk : 32 ≤ mk.length) (hn : 16 ≤ n.length) (hpt : pt ≠ [])
    (hnb : (padToBlocks pt).1.length / 16 ≤ 65536)
    (hbig : 65535 < 2 + (deriveSwapParameters C mk n).1
      * ((padToBlocks pt).1.length / 16 * 2)) :
    swapperEncrypt C pt mk n = .error .permTooLarge := by
  have hmod := padToBlocks_mod pt hpt
  have hsplit : splitIntoBlocks (padToBlocks pt).1
      = .ok (splitBlocks (padToBlocks pt).1) := by
    simp only [splitIntoBlocks]
    rw [if_neg (by omega)]
  have hcount : (splitBlocks (padToBlocks pt).1).length
      = (padToBlocks pt).1.length / 16 := splitBlocks_count _ hmod
  have hspec := swapFold_spec (deriveSwapParameters C mk n).2
    (splitBlocks (padToBlocks pt).1) (splitBlocks (padToBlocks pt).1).length
    (List.range (deriveSwapParameters C mk n).1)
    (splitBlocks (padToBlocks pt).1) [] rfl (fun x hx => hx) rfl
  have hperms := swapFold_perms (deriveSwapParameters C mk n).2
    (splitBlocks (padToBlocks pt).1).length
    (List.range (deriveSwapParameters C mk n).1)
    (splitBlocks (padToBlocks pt).1) [] rfl (by intro p hp; simp at hp)
  simp only [swapperEncrypt]
  rw [if_neg (by omega), if_neg (by omega), if_neg (by simpa using hpt), hsplit]
  dsimp only
  set shf := (List.range (deriveSwapParameters C mk n).1).foldl
    (fun (st : List Bytes × List (List Nat)) roundNum =>
      let round := fisherYatesShuffle st.1 (deriveSwapParameters C mk n).2 roundNum
      (round.1, st.2 ++ [round.2]))
    ((splitBlocks (padToBlocks pt).1), ([] : List (List Nat))) with hshf
  obtain ⟨hslen, hsmem, hsinv, hscnt⟩ := hspec
  rw [List.length_nil, List.length_range, Nat.zero_add] at hscnt
  have hnrhi : (deriveSwapParameters C mk n).1 ≤ 16 := by
    simp only [deriveSwapParameters]
    have := Nat.mod_lt (unpack32
      ((C.hmacSha256 mk (LAYER5_SWAPPER ++ n ++ BLOCK_PERMUTATION)).take 4))
      (show 0 < 16 - 3 + 1 by omega)
    omega
  have hplen : ∀ p ∈ shf.2, p.length = (padToBlocks pt).1.length / 16 := by
    intro p hp
    have := (hperms p hp).length_eq
    rw [List.length_range] at this
    rw [this, hcount]
  have hrowlen : ∀ row ∈ shf.2.map (fun p => (p.map pack16).flatten),
      row.length = (padToBlocks pt).1.length / 16 * 2 := by
    intro row hrow
    rcases List.mem_map.mp hrow with ⟨p, hp, hpx⟩
    rw [← hpx]
    rw [flatten_length_of_blocks (p.map pack16) 2
      (fun x hx => by
        rcases List.mem_map.mp hx with ⟨y, _, hy⟩
        rw [← hy, pack16_length])]
    rw [List.length_map, hplen p hp]
  simp only [packPermutationInfo]
  rw [if_neg (by omega)]
  rw [if_neg (by
    simp only [List.any_eq_true, decide_eq_true_eq, not_exists]
    intro p
    simp only [not_and, not_exists]
    intro hp x hx
    have hpp := hperms p hp
    have hxr : x ∈ List.range ((splitBlocks (padToBlocks pt).1).length) :=
      hpp.mem_iff.mp hx
    have := List.mem_range.mp hxr
    rw [hcount] at this
    omega)]
  dsimp only
  simp only [packSwappedData]
  rw [if_pos (by
    simp only [List.length_append, pack16_length]
    rw [flatten_length_of_blocks _ ((padToBlocks pt).1.length / 16 * 2) hrowlen,
      List.length_map, hscnt]
    omega)]

/-! ## Layer 6: `NoiseEmbedder` (`layer6_noise_embedding.py`)

Constants of the source: `MIN_NOISE_RATIO = 0.1`, `MAX_NOISE_RATIO = 0.5`,
`NOISE_BLOCK_SIZE = 8`, `PATTERN_BLOCK_SIZE = 64`.  The floating-point
noise ratio only enters through `int(data_length * noise_ratio)`, which
is the oracle `C.noiseTotal param_hash data_length`. -/

/-- `NoiseEmbedder._derive_noise_parameters`, returning
`(param_hash, pattern_seed)`; the float `noise_ratio` is recovered from
`param_hash` through `C.noiseTotal`. -/
def deriveNoiseParameters (masterKey nonce : Bytes) : Bytes × Bytes :=
  let noiseContext := LAYER6_NOISE ++ nonce ++ NOISE_PATTERN_GEN
  let paramHash := C.hmacSha256 masterKey noiseContext
  let patternContext := noiseContext ++ PATTERN_SEED_TAG ++ slice paramHash 4 8
  let patternSeed := C.hmacSha256 masterKey patternContext
  (paramHash, patternSeed)

/-- The inner `for j in range(0, 32, 4)` loop of
`NoiseEmbedder._create_position_generator`: extract up to 8 positions
from one digest (each digest is 32 bytes, so the `j + 4 <= len` guard
always passes there). -/
def positionChunk (posData : Bytes) (dataLength : Nat) : List Nat :=
  (List.range 8).filterMap (fun jq =>
    if jq * 4 + 4 ≤ posData.length then
      some (unpack32 (slice posData (jq * 4) (jq * 4 + 4)) % dataLength)
    else none)

/-- The hash-chained position generation loop of
`NoiseEmbedder._create_position_generator` (before sorting). -/
def positionsRaw (patternSeed : Bytes) (dataLength : Nat) : List Nat :=
  ((List.range (dataLength / 64 + 1)).foldl
    (fun (st : List Nat × Bytes) i =>
      let digest := C.sha256 (st.2 ++ pack32 i)
      (st.1 ++ positionChunk digest dataLength, digest))
    ([], patternSeed)).1

/-- `positions.sort()` followed by `yield`: the generator of
`_create_position_generator` yields this list front to back. -/
def positionsSorted (patternSeed : Bytes) (dataLength : Nat) : List Nat :=
  List.insertionSort (fun a b => a ≤ b) (positionsRaw C patternSeed dataLength)

/-- The `while remaining_noise > 0 and current_pos < data_length` loop of
`NoiseEmbedder._generate_noise_pattern`, consuming the sorted position
list; an exhausted generator raises `StopIteration` in the source. -/
def noisePatternLoop (dataLength : Nat) (patternSeed : Bytes) :
    List Nat → Nat → Nat → List (Nat × Nat) →
    Except Err (List (Nat × Nat) × Nat)
  | positions, remaining, currentPos, acc =>
    if remaining = 0 ∨ dataLength ≤ currentPos then .ok (acc, remaining)
    else match positions with
      | [] => .error .stopIteration
      | p :: rest =>
        if dataLength ≤ p then .ok (acc, remaining)
        else
          let maxChunk := min remaining 16
          let minChunk := min 8 remaining
          let s0 := p % patternSeed.length
          let chunkSeed0 := slice patternSeed s0 (s0 + 4)
          let chunkSeed := if chunkSeed0.length < 4 then
              chunkSeed0 ++ patternSeed.take (4 - chunkSeed0.length)
            else chunkSeed0
          let chunkSize := unpack32 chunkSeed % (maxChunk - minChunk + 1) + minChunk
          noisePatternLoop dataLength patternSeed rest (remaining - chunkSize)
            (p + 1) (acc ++ [(p, chunkSize)])

/-- `NoiseEmbedder._generate_noise_pattern`. -/
def generateNoisePattern (dataLength : Nat) (paramHash patternSeed : Bytes) :
    Except Err (List (Nat × Nat)) :=
  if dataLength = 0 then .ok []
  else
    let totalNoise0 := C.noiseTotal paramHash dataLength
    let totalNoise := if totalNoise0 < 8 then 8 else totalNoise0
    match noisePatternLoop dataLength patternSeed
        (positionsSorted C patternSeed dataLength) totalNoise 0 [] with
    | .error e => .error e
    | .ok (ins, rem) =>
      match ins.getLast? with
      | none => .ok ins
      | some last =>
        if 0 < rem then .ok (ins.dropLast ++ [(last.1, last.2 + rem)])
        else .ok ins

/-- `NoiseEmbedder._generate_noise_data`: hash-chained noise bytes,
truncated to the requested length. -/
def generateNoiseData (totalLength : Nat) (patternSeed : Bytes) : Bytes :=
  if totalLength = 0 then []
  else
    (((List.range ((totalLength + 31) / 32)).foldl
      (fun (st : Bytes × Bytes) i =>
        let block := C.sha256 (st.2 ++ pack32 i)
        (st.1 ++ block, block))
      ([], patternSeed ++ NOISE_DATA_GEN)).1).take totalLength

/-- `sorted(noise_pattern, key=lambda x: x[0])` (Python sort is a stable
merge sort keyed on the insertion position). -/
def sortPattern (pat : List (Nat × Nat)) : List (Nat × Nat) :=
  List.insertionSort (fun a b => a.1 ≤ b.1) pat

/-- Total noise of a pattern: `sum(noise_len for _, noise_len in pattern)`. -/
def sumLens (pat : List (Nat × Nat)) : Nat :=
  (pat.map (fun pr => pr.2)).sum

/-- One iteration of the `_embed_noise` loop, threading
`(result, data_pos, noise_pos)`; the three branches are
`insert_pos > data_pos`, `insert_pos == data_pos` and the
`continue` case. -/
def embStep (data allNoise : Bytes) (st : Bytes × Nat × Nat) (pr : Nat × Nat) :
    Bytes × Nat × Nat :=
  if st.2.1 < pr.1 then
    (st.1 ++ slice data st.2.1 pr.1 ++ slice allNoise st.2.2 (st.2.2 + pr.2),
      pr.1, st.2.2 + pr.2)
  else if pr.1 = st.2.1 then
    (st.1 ++ slice allNoise st.2.2 (st.2.2 + pr.2), st.2.1, st.2.2 + pr.2)
  else st

/-- `NoiseEmbedder._embed_noise`: interleave noise chunks into the data
at the sorted insertion positions. -/
def embedNoise (data : Bytes) (noisePattern : List (Nat × Nat))
    (patternSeed : Bytes) : Bytes :=
  if noisePattern = [] then data
  else
    let allNoise := generateNoiseData C (sumLens noisePattern) patternSeed
    let st := (sortPattern noisePattern).foldl (embStep data allNoise) ([], 0, 0)
    if st.2.1 < data.length then st.1 ++ data.drop st.2.1 else st.1

/-- `NoiseEmbedder._create_noise_map`:
`[original_length:4][num_insertions:2]` followed by
`[position:4][noise_length:2]` per sorted insertion (with the
`struct.pack` range guards). -/
def createNoiseMap (noisePattern : List (Nat × Nat)) (originalLength : Nat) :
    Except Err Bytes :=
  if originalLength ≥ 4294967296 then .error .structRange
  else if noisePattern.length ≥ 65536 then .error .structRange
  else if (sortPattern noisePattern).any
      (fun pr => pr.1 ≥ 4294967296 ∨ pr.2 ≥ 65536) then .error .structRange
  else .ok (pack32 originalLength ++ pack16 noisePattern.length ++
    ((sortPattern noisePattern).map (fun pr => pack32 pr.1 ++ pack16 pr.2)).flatten)

/-- `NoiseEmbedder._parse_noise_map`. -/
def parseNoiseMap (noiseMap : Bytes) : Except Err (Nat × List (Nat × Nat)) :=
  if noiseMap.length < 6 then .error .format
  else
    let originalLength := unpack32 (noiseMap.take 4)
    let numInsertions := unpack16 (slice noiseMap 4 6)
    if (List.range numInsertions).any
        (fun i => 6 + i * 6 + 6 > noiseMap.length) then .error .format
    else .ok (originalLength, (List.range numInsertions).map (fun i =>
      (unpack32 (slice noiseMap (6 + i * 6) (6 + i * 6 + 4)),
       unpack16 (slice noiseMap (6 + i * 6 + 4) (6 + i * 6 + 6)))))

/-- One iteration of the region-computation loop of `_remove_noise`:
`actual_pos = insert_pos + cumulative_noise`. -/
def regionStep (st : List (Nat × Nat) × Nat) (pr : Nat × Nat) :
    List (Nat × Nat) × Nat :=
  (st.1 ++ [(pr.1 + st.2, pr.1 + st.2 + pr.2)], st.2 + pr.2)

/-- One iteration of the extraction loop of `_remove_noise`, threading
`(result, data_pos)`. -/
def extractStep (noisyData : Bytes) (st : Bytes × Nat) (reg : Nat × Nat) :
    Bytes × Nat :=
  if st.2 < reg.1 then (st.1 ++ slice noisyData st.2 reg.1, reg.2)
  else (st.1, reg.2)

/-- `NoiseEmbedder._remove_noise`: compute the noise regions in the
noisy stream from the sorted pattern and cut them out. -/
def removeNoise (noisyData : Bytes) (noisePattern : List (Nat × Nat)) : Bytes :=
  if noisePattern = [] then noisyData
  else
    let noiseRegions := ((sortPattern noisePattern).foldl regionStep ([], 0)).1
    let st := noiseRegions.foldl (extractStep noisyData) ([], 0)
    if st.2 < noisyData.length then st.1 ++ noisyData.drop st.2 else st.1

/-- `NoiseEmbedder._pack_noisy_data`: `[map_len:2][noise_map][noisy_data]`. -/
def packNoisyData (noisyData noiseMap : Bytes) : Except Err Bytes :=
  if noiseMap.length > 65535 then .error .noiseMapTooLarge
  else .ok (pack16 noiseMap.length ++ noiseMap ++ noisyData)

/-- `NoiseEmbedder._unpack_noisy_data`. -/
def unpackNoisyData (packedData : Bytes) : Except Err (Bytes × Bytes) :=
  if packedData.length < 2 then .error .format
  else
    let mapLen := unpack16 (packedData.take 2)
    if packedData.length < 2 + mapLen then .error .format
    else .ok (packedData.drop (2 + mapLen), slice packedData 2 (2 + mapLen))

/-- `NoiseEmbedder.encrypt`. -/
def noiseEncrypt (plaintext masterKey nonce : Bytes) : Except Err Bytes :=
  if masterKey.length < 32 then .error .validation
  else if nonce.length < 16 then .error .validation
  else if plaintext = [] then .error .validation
  else
    let params := deriveNoiseParameters C masterKey nonce
    match generateNoisePattern C plaintext.length params.1 params.2 with
    | .error e => .error e
    | .ok noisePattern =>
      let noisyData := embedNoise C plaintext noisePattern params.2
      match createNoiseMap noisePattern plaintext.length with
      | .error e => .error e
      | .ok noiseMap => packNoisyData noisyData noiseMap

/-- `NoiseEmbedder.decrypt`. -/
def noiseDecrypt (ciphertext masterKey nonce : Bytes) : Except Err Bytes :=
  if masterKey.length < 32 then .error .validation
  else if nonce.length < 16 then .error .validation
  else if ciphertext = [] then .error .validation
  else match unpackNoisyData ciphertext with
    | .error e => .error e
    | .ok (noisyData, noiseMap) =>
      match parseNoiseMap noiseMap with
      | .error e => .error e
      | .ok (originalLength, noisePattern) =>
        let restored := removeNoise noisyData noisePattern
        if restored.length ≠ originalLength then .error .format
        else .ok restored

/-! ### Layer 6 lemmas: slices, embedding and removal -/

theorem slice_eq_drop_take {α : Type} (l : List α) (i j : Nat) :
    slice l i j = (l.drop i).take (j - i) := by
  rw [slice]
  exact List.drop_take j i l

theorem slice_length {α : Type} (l : List α) (i j : Nat) (hij : i ≤ j)
    (hj : j ≤ l.length) : (slice l i j).length = j - i := by
  rw [slice_eq_drop_take, List.length_take, List.length_drop]
  omega

theorem slice_empty {α : Type} (l : List α) (i j : Nat) (h : j ≤ i) :
    slice l i j = [] := by
  rw [slice_eq_drop_take]
  have hji : j - i = 0 := by omega
  rw [hji, List.take_zero]

theorem slice_append_drop {α : Type} (l : List α) (i j : Nat) (hij : i ≤ j) :
    slice l i j ++ l.drop j = l.drop i := by
  rw [slice_eq_drop_take]
  have hjj : l.drop j = (l.drop i).drop (j - i) := by
    rw [List.drop_drop]
    congr 1
    omega
  rw [hjj]
  exact List.take_append_drop _ _

/-- Recursive characterization of the `_embed_noise` loop on a sorted
pattern: data up to the position, then the noise chunk, then the rest. -/
def embAux (data allNoise : Bytes) : List (Nat × Nat) → Nat → Nat → Bytes
  | [], dp, _ => data.drop dp
  | pr :: rest, dp, np =>
    slice data dp pr.1 ++ slice allNoise np (np + pr.2) ++
      embAux data allNoise rest pr.1 (np + pr.2)

/-- Recursive characterization of the noise-region computation of
`_remove_noise`. -/
def regionsAux : List (Nat × Nat) → Nat → List (Nat × Nat)
  | [], _ => []
  | pr :: rest, cum =>
    (pr.1 + cum, pr.1 + cum + pr.2) :: regionsAux rest (cum + pr.2)

/-- Recursive characterization of the extraction loop of
`_remove_noise`. -/
def exAux (noisy : Bytes) : List (Nat × Nat) → Nat → Bytes
  | [], dpn => noisy.drop dpn
  | reg :: rest, dpn => slice noisy dpn reg.1 ++ exAux noisy rest reg.2

theorem embed_fold_eq (data allNoise : Bytes) :
    ∀ (pat : List (Nat × Nat)) (res : Bytes) (dp np : Nat),
      List.Pairwise (fun (a b : Nat × Nat) => a.1 ≤ b.1) pat →
      (∀ pr ∈ pat, dp ≤ pr.1) →
      (if (pat.foldl (embStep data allNoise) (res, dp, np)).2.1 < data.length then
        (pat.foldl (embStep data allNoise) (res, dp, np)).1 ++
          data.drop (pat.foldl (embStep data allNoise) (res, dp, np)).2.1
      else (pat.foldl (embStep data allNoise) (res, dp, np)).1)
      = res ++ embAux data allNoise pat dp np := by
  intro pat
  induction pat with
  | nil =>
    intro res dp np _ _
    simp only [List.foldl_nil, embAux]
    split_ifs with h
    · rfl
    · rw [List.drop_eq_nil_of_le (by omega), List.append_nil]
  | cons pr rest ih =>
    intro res dp np hpw hdp
    have hdpr : dp ≤ pr.1 := hdp pr (List.mem_cons_self ..)
    have hhead := (List.pairwise_cons.mp hpw).1
    have hpw2 := (List.pairwise_cons.mp hpw).2
    simp only [List.foldl_cons]
    rcases Nat.lt_or_ge dp pr.1 with hlt | hge
    · have hstep : embStep data allNoise (res, dp, np) pr
          = (res ++ slice data dp pr.1 ++ slice allNoise np (np + pr.2),
              pr.1, np + pr.2) := by
        simp only [embStep]
        rw [if_pos hlt]
      rw [hstep, ih _ _ _ hpw2 (fun q hq => hhead q hq)]
      simp [embAux, List.append_assoc]
    · have heq : pr.1 = dp := by omega
      have hstep : embStep data allNoise (res, dp, np) pr
          = (res ++ slice allNoise np (np + pr.2), dp, np + pr.2) := by
        simp only [embStep]
        rw [if_neg (by omega), if_pos heq]
      rw [hstep, ih _ _ _ hpw2 (fun q hq => by have := hhead q hq; omega)]
      simp only [embAux, heq]
      rw [slice_empty data dp dp (Nat.le_refl _)]
      simp [List.append_assoc]

theorem regions_fold_eq :
    ∀ (pat : List (Nat × Nat)) (acc : List (Nat × Nat)) (cum : Nat),
      (pat.foldl regionStep (acc, cum)).1 = acc ++ regionsAux pat cum := by
  intro pat
  induction pat with
  | nil =>
    intro acc cum
    simp [regionsAux]
  | cons pr rest ih =>
    intro acc cum
    simp only [List.foldl_cons]
    have hstep : regionStep (acc, cum) pr
        = (acc ++ [(pr.1 + cum, pr.1 + cum + pr.2)], cum + pr.2) := by
      simp only [regionStep]
    rw [hstep, ih]
    simp [regionsAux, List.append_assoc]

theorem extract_fold_eq (noisy : Bytes) :
    ∀ (R : List (Nat × Nat)) (res : Bytes) (dpn : Nat),
      (if (R.foldl (extractStep noisy) (res, dpn)).2 < noisy.length then
        (R.foldl (extractStep noisy) (res, dpn)).1 ++
          noisy.drop (R.foldl (extractStep noisy) (res, dpn)).2
      else (R.foldl (extractStep noisy) (res, dpn)).1)
      = res ++ exAux noisy R dpn := by
  intro R
  induction R with
  | nil =>
    intro res dpn
    simp only [List.foldl_nil, exAux]
    split_ifs with h
    · rfl
    · rw [List.drop_eq_nil_of_le (by omega), List.append_nil]
  | cons reg rest ih =>
    intro res dpn
    simp only [List.foldl_cons]
    rcases Nat.lt_or_ge dpn reg.1 with hlt | hge
    · have hstep : extractStep noisy (res, dpn) reg
          = (res ++ slice noisy dpn reg.1, reg.2) := by
        simp only [extractStep]
        rw [if_pos hlt]
      rw [hstep, ih]
      simp [exAux, List.append_assoc]
    · have hstep : extractStep noisy (res, dpn) reg = (res, reg.2) := by
        simp only [extractStep]
        rw [if_neg (by omega)]
      rw [hstep, ih]
      simp only [exAux]
      rw [slice_empty noisy dpn reg.1 (by omega)]
      simp

theorem removeNoise_eq_exAux (noisy : Bytes) (pat : List (Nat × Nat))
    (h : pat ≠ []) :
    removeNoise noisy pat = exAux noisy (regionsAux (sortPattern pat) 0) 0 := by
  simp only [removeNoise, if_neg h]
  rw [regions_fold_eq]
  have hx := extract_fold_eq noisy
    (([] : List (Nat × Nat)) ++ regionsAux (sortPattern pat) 0) [] 0
  simpa using hx

theorem embedNoise_eq_embAux (data seed : Bytes) (pat : List (Nat × Nat))
    (h : pat ≠ [])
    (hpw : List.Pairwise (fun (a b : Nat × Nat) => a.1 ≤ b.1) (sortPattern pat)) :
    embedNoise C data pat seed
      = embAux data (generateNoiseData C (sumLens pat) seed) (sortPattern pat) 0 0 := by
  simp only [embedNoise, if_neg h]
  have hx := embed_fold_eq data (generateNoiseData C (sumLens pat) seed)
    (sortPattern pat) [] 0 0 hpw (fun pr hp => Nat.zero_le _)
  simpa using hx

theorem rm_emb (data allNoise : Bytes) :
    ∀ (pat : List (Nat × Nat)) (dp np c : Nat) (A : Bytes),
      A.length = dp + c →
      List.Pairwise (fun (a b : Nat × Nat) => a.1 ≤ b.1) pat →
      (∀ pr ∈ pat, dp ≤ pr.1 ∧ pr.1 ≤ data.length) →
      np + sumLens pat ≤ allNoise.length →
      exAux (A ++ embAux data allNoise pat dp np) (regionsAux pat c) (dp + c)
        = data.drop dp := by
  intro pat
  induction pat with
  | nil =>
    intro dp np c A hA _ _ _
    simp only [regionsAux, exAux, embAux]
    rw [← hA]
    exact List.drop_left _ _
  | cons pr rest ih =>
    intro dp np c A hA hpw hmem hnoise
    have hdpr : dp ≤ pr.1 := (hmem pr (List.mem_cons_self ..)).1
    have hprd : pr.1 ≤ data.length := (hmem pr (List.mem_cons_self ..)).2
    have hhead := (List.pairwise_cons.mp hpw).1
    have hpw2 := (List.pairwise_cons.mp hpw).2
    have hsum : np + pr.2 + sumLens rest ≤ allNoise.length := by
      simp only [sumLens, List.map_cons, List.sum_cons] at hnoise
      simp only [sumLens]
      omega
    have hsliceD_len : (slice data dp pr.1).length = pr.1 - dp :=
      slice_length data dp pr.1 hdpr hprd
    have hsliceN_len : (slice allNoise np (np + pr.2)).length = pr.2 := by
      rw [slice_length allNoise np (np + pr.2) (by omega) (by
        simp only [sumLens, List.map_cons, List.sum_cons] at hnoise
        omega)]
      omega
    have hassoc : A ++ (slice data dp pr.1 ++ slice allNoise np (np + pr.2) ++
        embAux data allNoise rest pr.1 (np + pr.2))
        = (A ++ (slice data dp pr.1 ++ slice allNoise np (np + pr.2))) ++
          embAux data allNoise rest pr.1 (np + pr.2) :=
      (List.append_assoc _ _ _).symm
    have hA2 : (A ++ (slice data dp pr.1 ++
        slice allNoise np (np + pr.2))).length = pr.1 + (c + pr.2) := by
      rw [List.length_append, List.length_append, hsliceD_len, hsliceN_len]
      omega
    have hfirst : slice ((A ++ (slice data dp pr.1 ++
        slice allNoise np (np + pr.2))) ++ embAux data allNoise rest pr.1 (np + pr.2))
        (dp + c) (pr.1 + c) = slice data dp pr.1 := by
      rw [slice_append_lt _ _ _ _ (by omega)]
      rw [slice_append_ge _ _ _ _ (by omega)]
      have e1 : dp + c - A.length = 0 := by omega
      have e2 : pr.1 + c - A.length = pr.1 - dp := by omega
      rw [e1, e2, slice_zero]
      rw [List.take_append_of_le_length (by rw [hsliceD_len])]
      exact List.take_of_length_le (by rw [hsliceD_len])
    have hrec := ih pr.1 (np + pr.2) (c + pr.2)
      (A ++ (slice data dp pr.1 ++ slice allNoise np (np + pr.2))) hA2 hpw2
      (fun q hq => ⟨hhead q hq, (hmem q (List.mem_cons_of_mem _ hq)).2⟩) hsum
    rw [← Nat.add_assoc] at hrec
    simp only [regionsAux, exAux, embAux]
    rw [hassoc, hfirst, hrec]
    exact slice_append_drop data dp pr.1 hdpr

theorem generateNoiseData_fold_length (hC : C.Wf) :
    ∀ (ks : List Nat) (acc seed0 : Bytes),
      ((ks.foldl (fun (st : Bytes × Bytes) i =>
        (st.1 ++ C.sha256 (st.2 ++ pack32 i), C.sha256 (st.2 ++ pack32 i)))
        (acc, seed0)).1).length = acc.length + 32 * ks.length := by
  intro ks
  induction ks with
  | nil =>
    intro acc seed0
    simp
  | cons k rest ih =>
    intro acc seed0
    simp only [List.foldl_cons]
    rw [ih]
    simp only [List.length_append, List.length_cons, hC.sha256_length]
    omega

theorem generateNoiseData_length (hC : C.Wf) (n : Nat) (seed : Bytes) :
    (generateNoiseData C n seed).length = n := by
  simp only [generateNoiseData]
  split_ifs with h
  · rw [h]
    rfl
  · rw [List.length_take, generateNoiseData_fold_length C hC]
    simp only [List.length_nil, List.length_range, Nat.zero_add]
    omega

theorem noisePatternLoop_spec (dl : Nat) (seed : Bytes) :
    ∀ (positions : List Nat) (remaining currentPos : Nat)
      (acc : List (Nat × Nat)) (out : List (Nat × Nat) × Nat),
      List.Pairwise (fun (a b : Nat) => a ≤ b) positions →
      (∀ a ∈ acc, a.1 < dl) →
      List.Pairwise (fun (a b : Nat × Nat) => a.1 ≤ b.1) acc →
      (∀ a ∈ acc, ∀ q ∈ positions, a.1 ≤ q) →
      noisePatternLoop dl seed positions remaining currentPos acc = .ok out →
      (∀ a ∈ out.1, a.1 < dl) ∧
        List.Pairwise (fun (a b : Nat × Nat) => a.1 ≤ b.1) out.1 := by
  intro positions
  induction positions with
  | nil =>
    intro remaining currentPos acc out _ hlt hpw _ hloop
    rw [noisePatternLoop] at hloop
    split_ifs at hloop with hquit
    · simp only [Except.ok.injEq] at hloop
      rw [← hloop]
      exact ⟨hlt, hpw⟩
  | cons p rest ih =>
    intro remaining currentPos acc out hppw hlt hpw hle hloop
    rw [noisePatternLoop] at hloop
    split_ifs at hloop with hquit hbreak
    · simp only [Except.ok.injEq] at hloop
      rw [← hloop]
      exact ⟨hlt, hpw⟩
    · simp only [Except.ok.injEq] at hloop
      rw [← hloop]
      exact ⟨hlt, hpw⟩
    · have hphead := (List.pairwise_cons.mp hppw).1
      have hppw2 := (List.pairwise_cons.mp hppw).2
      refine ih _ _ _ out hppw2 ?_ ?_ ?_ hloop
      · intro a ha
        rcases List.mem_append.mp ha with ha1 | ha1
        · exact hlt a ha1
        · have : a = (p, unpack32 (if (slice seed (p % seed.length)
              (p % seed.length + 4)).length < 4 then
                slice seed (p % seed.length) (p % seed.length + 4) ++
                  seed.take (4 - (slice seed (p % seed.length)
                    (p % seed.length + 4)).length)
              else slice seed (p % seed.length) (p % seed.length + 4))
              % (min remaining 16 - min 8 remaining + 1) + min 8 remaining) := by
            simpa using ha1
          rw [this]
          omega
      · rw [List.pairwise_append]
        refine ⟨hpw, List.pairwise_singleton _ _, ?_⟩
        intro a ha b hb
        have hb2 : b.1 = p := by
          have : b = (p, unpack32 (if (slice seed (p % seed.length)
              (p % seed.length + 4)).length < 4 then
                slice seed (p % seed.length) (p % seed.length + 4) ++
                  seed.take (4 - (slice seed (p % seed.length)
                    (p % seed.length + 4)).length)
              else slice seed (p % seed.length) (p % seed.length + 4))
              % (min remaining 16 - min 8 remaining + 1) + min 8 remaining) := by
            simpa using hb
          rw [this]
        rw [hb2]
        exact hle a ha p (List.mem_cons_self ..)
      · intro a ha q hq
        rcases List.mem_append.mp ha with ha1 | ha1
        · exact hle a ha1 q (List.mem_cons_of_mem _ hq)
        · have ha2 : a.1 = p := by
            have : a = (p, unpack32 (if (slice seed (p % seed.length)
                (p % seed.length + 4)).length < 4 then
                  slice seed (p % seed.length) (p % seed.length + 4) ++
                    seed.take (4 - (slice seed (p % seed.length)
                      (p % seed.length + 4)).length)
                else slice seed (p % seed.length) (p % seed.length + 4))
                % (min remaining 16 - min 8 remaining + 1) + min 8 remaining) := by
              simpa using ha1
            rw [this]
          rw [ha2]
          exact hphead q hq

theorem positionsSorted_pairwise (seed : Bytes) (dl : Nat) :
    List.Pairwise (fun (a b : Nat) => a ≤ b) (positionsSorted C seed dl) := by
  haveI ht : IsTotal Nat (fun a b => a ≤ b) := ⟨fun a b => Nat.le_total a b⟩
  haveI htr : IsTrans Nat (fun a b => a ≤ b) := ⟨fun a b c => Nat.le_trans⟩
  simp only [positionsSorted]
  exact List.sorted_insertionSort _ (positionsRaw C seed dl)

theorem generateNoisePattern_spec (dl : Nat) (ph seed : Bytes)
    (pat : List (Nat × Nat))
    (h : generateNoisePattern C dl ph seed = .ok pat) :
    (∀ pr ∈ pat, pr.1 < dl) ∧
      List.Pairwise (fun (a b : Nat × Nat) => a.1 ≤ b.1) pat := by
  simp only [generateNoisePattern] at h
  by_cases h0 : dl = 0
  · rw [if_pos h0] at h
    simp only [Except.ok.injEq] at h
    rw [← h]
    exact ⟨fun pr hpr => absurd hpr (List.not_mem_nil pr), List.Pairwise.nil⟩
  · rw [if_neg h0] at h
    set T := if C.noiseTotal ph dl < 8 then 8 else C.noiseTotal ph dl with hT
    rcases hloop : noisePatternLoop dl seed (positionsSorted C seed dl) T 0 []
      with e | ⟨ins, rem⟩
    · rw [hloop] at h
      cases h
    · rw [hloop] at h
      dsimp only at h
      have hprops := noisePatternLoop_spec dl seed (positionsSorted C seed dl)
        T 0 [] (ins, rem)
        (positionsSorted_pairwise C seed dl)
        (fun a ha => absurd ha (List.not_mem_nil a))
        List.Pairwise.nil
        (fun a ha => absurd ha (List.not_mem_nil a))
        hloop
      rcases hlast : ins.getLast? with _ | last
      · rw [hlast] at h
        dsimp only at h
        simp only [Except.ok.injEq] at h
        rw [← h]
        exact hprops
      · rw [hlast] at h
        dsimp only at h
        split_ifs at h with hrem
        · simp only [Except.ok.injEq] at h
          obtain ⟨ys, hys⟩ := List.getLast?_eq_some_iff.mp hlast
          have hdl : ins.dropLast = ys := by
            rw [hys]
            simp
          have hlmem : last ∈ ins := by
            rw [hys]
            simp
          have hysmem : ∀ a ∈ ys, a ∈ ins := by
            intro a ha
            rw [hys]
            exact List.mem_append_left _ ha
          have hpwys := hprops.2
          rw [hys, List.pairwise_append] at hpwys
          rw [← h, hdl]
          constructor
          · intro pr hpr
            rcases List.mem_append.mp hpr with hpr1 | hpr1
            · exact hprops.1 pr (hysmem pr hpr1)
            · have hpr2 : pr = (last.1, last.2 + rem) := by
                simpa using hpr1
              rw [hpr2]
              exact hprops.1 last hlmem
          · rw [List.pairwise_append]
            refine ⟨hpwys.1, List.pairwise_singleton _ _, ?_⟩
            intro a ha b hb
            have hb2 : b = (last.1, last.2 + rem) := by
              simpa using hb
            rw [hb2]
            exact hpwys.2.2 a ha last (by simp)
        · simp only [Except.ok.injEq] at h
          rw [← h]
          exact hprops
theorem sortPattern_of_sorted (pat : List (Nat × Nat))
    (h : List.Pairwise (fun (a b : Nat × Nat) => a.1 ≤ b.1) pat) :
    sortPattern pat = pat := by
  rw [sortPattern]
  exact List.Sorted.insertionSort_eq h

theorem unpackNoisyData_pack (M noisy : Bytes) (hM : M.length ≤ 65535) :
    unpackNoisyData (pack16 M.length ++ M ++ noisy) = .ok (noisy, M) := by
  set D := pack16 M.length ++ M ++ noisy with hD
  have hDlen : D.length = 2 + M.length + noisy.length := by
    simp only [hD, List.length_append, pack16_length]
  have htake : D.take 2 = pack16 M.length := by
    rw [hD]
    rw [List.take_append_of_le_length
      (by simp only [List.length_append, pack16_length]; omega)]
    rw [List.take_append_of_le_length (by rw [pack16_length])]
    exact List.take_of_length_le (by rw [pack16_length])
  have hlenA : ((pack16 M.length ++ M) : Bytes).length = 2 + M.length := by
    simp only [List.length_append, pack16_length]
  have hdrop : D.drop (2 + M.length) = noisy := by
    rw [hD, ← hlenA]
    exact List.drop_left _ _
  have hsliceM : slice D 2 (2 + M.length) = M := by
    rw [hD]
    have h2 : (pack16 M.length : Bytes).length = 2 := pack16_length _
    have hm := slice_mid (pack16 M.length) M noisy
    rw [h2] at hm
    exact hm
  simp only [unpackNoisyData]
  rw [if_neg (by omega)]
  rw [htake, unpack16_pack16 _ (by omega)]
  rw [if_neg (by omega)]
  rw [hdrop, hsliceM]

theorem parseNoiseMap_pack (ol : Nat) (spat : List (Nat × Nat))
    (hol : ol < 4294967296) (hcnt : spat.length < 65536)
    (hent : ∀ pr ∈ spat, pr.1 < 4294967296 ∧ pr.2 < 65536) :
    parseNoiseMap (pack32 ol ++ pack16 spat.length ++
      (spat.map (fun pr => pack32 pr.1 ++ pack16 pr.2)).flatten)
      = .ok (ol, spat) := by
  have hrowlen : ∀ row ∈ spat.map (fun pr => pack32 pr.1 ++ pack16 pr.2),
      row.length = 6 := by
    intro row hrow
    rcases List.mem_map.mp hrow with ⟨pr, _, hpx⟩
    rw [← hpx]
    simp only [List.length_append, pack32_length, pack16_length]
  have hflatlen : ((spat.map (fun pr => pack32 pr.1 ++ pack16 pr.2)).flatten).length
      = spat.length * 6 := by
    rw [flatten_length_of_blocks _ 6 hrowlen, List.length_map]
  set D := pack32 ol ++ pack16 spat.length ++
    (spat.map (fun pr => pack32 pr.1 ++ pack16 pr.2)).flatten with hD
  have hDlen : D.length = 6 + spat.length * 6 := by
    simp only [hD, List.length_append, pack32_length, pack16_length, hflatlen]
  have htake : D.take 4 = pack32 ol := by
    rw [hD]
    rw [List.take_append_of_le_length
      (by simp only [List.length_append, pack32_length, pack16_length]; omega)]
    rw [List.take_append_of_le_length (by rw [pack32_length])]
    exact List.take_of_length_le (by rw [pack32_length])
  have hslice46 : slice D 4 6 = pack16 spat.length := by
    rw [hD]
    rw [slice_append_lt _ _ _ _
      (by simp only [List.length_append, pack32_length, pack16_length]; omega)]
    rw [slice_append_ge _ _ _ _ (by rw [pack32_length])]
    rw [pack32_length]
    have e1 : (4 : Nat) - 4 = 0 := rfl
    have e2 : (6 : Nat) - 4 = 2 := rfl
    rw [e1, e2, slice_zero]
    exact List.take_of_length_le (by rw [pack16_length])
  simp only [parseNoiseMap]
  rw [if_neg (by omega)]
  rw [htake, hslice46, unpack32_pack32 _ hol, unpack16_pack16 _ (by omega)]
  rw [if_neg (by
    simp only [List.any_eq_true, List.mem_range, not_exists]
    intro i
    simp only [not_and, decide_eq_true_eq, Nat.not_lt]
    intro hi
    rw [hDlen]
    omega)]
  congr 1
  congr 1
  apply List.ext_getElem (by simp)
  intro i hi1 hi2
  simp only [List.getElem_map, List.getElem_range]
  have hisp : i < spat.length := by simpa using hi2
  have hsliceshift : ∀ (o k : Nat), o + k ≤ 6 →
      slice D (6 + i * 6 + o) (6 + i * 6 + o + k)
      = slice ((spat.map (fun pr => pack32 pr.1 ++ pack16 pr.2)).flatten)
        (i * 6 + o) (i * 6 + o + k) := by
    intro o k hok
    rw [hD]
    rw [slice_append_ge _ _ _ _
      (by simp only [List.length_append, pack32_length, pack16_length]; omega)]
    have hl6 : ((pack32 ol ++ pack16 spat.length) : Bytes).length = 6 := by
      simp only [List.length_append, pack32_length, pack16_length]
    rw [hl6]
    have e1 : 6 + i * 6 + o - 6 = i * 6 + o := by omega
    have e2 : 6 + i * 6 + o + k - 6 = i * 6 + o + k := by omega
    rw [e1, e2]
  have hrow : (spat.map (fun pr => pack32 pr.1 ++ pack16 pr.2)).getD i []
      = pack32 (spat[i]).1 ++ pack16 (spat[i]).2 := by
    rw [List.getD_eq_getElem _ [] (by simpa using hisp), List.getElem_map]
  have hval1 : unpack32 (slice D (6 + i * 6) (6 + i * 6 + 4)) = (spat[i]).1 := by
    have hs := hsliceshift 0 4 (by omega)
    simp only [Nat.add_zero] at hs
    rw [hs]
    have hchunk := slice_flatten_chunk 6
      (spat.map (fun pr => pack32 pr.1 ++ pack16 pr.2)) i 0 4 hrowlen
      (by simpa using hisp) (by omega)
    simp only [Nat.add_zero] at hchunk
    rw [hchunk, hrow]
    rw [slice_zero, List.take_append_of_le_length (by rw [pack32_length])]
    rw [List.take_of_length_le (by rw [pack32_length])]
    exact unpack32_pack32 _ (hent _ (List.getElem_mem hisp)).1
  have hval2 : unpack16 (slice D (6 + i * 6 + 4) (6 + i * 6 + 6)) = (spat[i]).2 := by
    have hs := hsliceshift 4 2 (by omega)
    have e3 : 6 + i * 6 + 4 + 2 = 6 + i * 6 + 6 := by omega
    rw [e3] at hs
    have e4 : i * 6 + 4 + 2 = i * 6 + 6 := by omega
    rw [e4] at hs
    rw [hs]
    have hchunk := slice_flatten_chunk 6
      (spat.map (fun pr => pack32 pr.1 ++ pack16 pr.2)) i 4 2 hrowlen
      (by simpa using hisp) (by omega)
    have e5 : i * 6 + 4 + 2 = i * 6 + 6 := by omega
    rw [e5] at hchunk
    rw [hchunk, hrow]
    rw [slice_append_ge _ _ _ _ (by rw [pack32_length])]
    rw [pack32_length]
    have e6 : (4 : Nat) - 4 = 0 := rfl
    have e7 : (6 : Nat) - 4 = 2 := rfl
    rw [e6, e7, slice_zero]
    rw [List.take_of_length_le (by rw [pack16_length])]
    exact unpack16_pack16 _ (hent _ (List.getElem_mem hisp)).2
  rw [hval1, hval2]

theorem noise_roundtrip (hC : C.Wf) (pt mk n mk2 n2 ct : Bytes)
    (hmk2 : 32 ≤ mk2.length) (hn2 : 16 ≤ n2.length)
    (henc : noiseEncrypt C pt mk n = .ok ct) :
    noiseDecrypt ct mk2 n2 = .ok pt := by
  simp only [noiseEncrypt] at henc
  split_ifs at henc with h1 h2 h3
  rcases hpat : generateNoisePattern C pt.length
      (deriveNoiseParameters C mk n).1 (deriveNoiseParameters C mk n).2
    with e | pat
  · rw [hpat] at henc
    cases henc
  · rw [hpat] at henc
    dsimp only at henc
    have hprops := generateNoisePattern_spec C pt.length
      (deriveNoiseParameters C mk n).1 (deriveNoiseParameters C mk n).2 pat hpat
    have hsp : sortPattern pat = pat := sortPattern_of_sorted pat hprops.2
    simp only [createNoiseMap] at henc
    split_ifs at henc with h4 h5 h6
    dsimp only at henc
    rw [hsp] at henc h6
    simp only [packNoisyData] at henc
    split_ifs at henc with h7
    simp only [Except.ok.injEq] at henc
    subst henc
    have hent : ∀ pr ∈ pat, pr.1 < 4294967296 ∧ pr.2 < 65536 := by
      intro pr hpr
      by_contra hcon
      apply h6
      simp only [List.any_eq_true]
      refine ⟨pr, hpr, ?_⟩
      simp only [decide_eq_true_eq]
      omega
    have hrn : removeNoise
        (embedNoise C pt pat (deriveNoiseParameters C mk n).2) pat = pt := by
      by_cases hp0 : pat = []
      · rw [hp0]
        simp [removeNoise, embedNoise]
      · rw [removeNoise_eq_exAux _ _ hp0]
        rw [embedNoise_eq_embAux C pt _ pat hp0 (by rw [hsp]; exact hprops.2)]
        rw [hsp]
        have hrm := rm_emb pt
          (generateNoiseData C (sumLens pat) (deriveNoiseParameters C mk n).2)
          pat 0 0 0 [] rfl hprops.2
          (fun pr hpr => ⟨Nat.zero_le _, Nat.le_of_lt (hprops.1 pr hpr)⟩)
          (by rw [generateNoiseData_length C hC]; omega)
        simpa using hrm
    simp only [noiseDecrypt]
    rw [if_neg (by omega), if_neg (by omega)]
    rw [if_neg (by
      intro hnil
      have hl := congrArg List.length hnil
      simp only [List.length_append, pack16_length, List.length_nil] at hl
      omega)]
    rw [unpackNoisyData_pack _ _ (by omega)]
    dsimp only
    rw [parseNoiseMap_pack pt.length pat (by omega) (by omega) hent]
    dsimp only
    rw [hrn]
    rw [if_neg (by omega)]

/-! ## Master orchestrator: `SevenLayerEncryption` (`master_encryption.py`) -/

/-- UTF-8 bytes of `MAGIC_HEADER = b"7LAYER"`. -/
def MAGIC_HEADER_B : Bytes := [55, 76, 65, 89, 69, 82]

/-- UTF-8 bytes of `VERSION = "1.0"` (already exactly 3 bytes, so the
pad/truncate logic of `_create_system_header` leaves it unchanged). -/
def VERSION_B : Bytes := [49, 46, 48]

/-- UTF-8 bytes of the f-string prefix `7LAYER_KEY_L`. -/
def KEY_LABEL_B : Bytes := [55, 76, 65, 89, 69, 82, 95, 75, 69, 89, 95, 76]

/-- The three security profiles of `SECURITY_PROFILES`. -/
inductive Profile : Type where
  | MAXIMUM : Profile
  | BALANCED : Profile
  | PERFORMANCE : Profile
  deriving DecidableEq, Repr

/-- One entry of `SECURITY_PROFILES` (the `description` string is
omitted; `noise_ratio` is the float literal as a rational). -/
structure ProfileConfig : Type where
  byte_mask_rounds : Nat
  fernet_ttl : Option Nat
  chaos_iterations : Nat
  swapper_rounds : Nat
  noise_ratio : Rat
  integrity_tag_size : Nat

/-- `SevenLayerEncryption.SECURITY_PROFILES`. -/
def SECURITY_PROFILES : Profile → ProfileConfig
  | .MAXIMUM =>
    { byte_mask_rounds := 3, fernet_ttl := none, chaos_iterations := 10000,
      swapper_rounds := 16, noise_ratio := 0.5, integrity_tag_size := 32 }
  | .BALANCED =>
    { byte_mask_rounds := 2, fernet_ttl := some 3600, chaos_iterations := 5000,
      swapper_rounds := 8, noise_ratio := 0.3, integrity_tag_size := 32 }
  | .PERFORMANCE =>
    { byte_mask_rounds := 1, fernet_ttl := some 1800, chaos_iterations := 2000,
      swapper_rounds := 4, noise_ratio := 0.1, integrity_tag_size := 16 }

/-- UTF-8 bytes of a profile name. -/
def profileName : Profile → Bytes
  | .MAXIMUM => [77, 65, 88, 73, 77, 85, 77]
  | .BALANCED => [66, 65, 76, 65, 78, 67, 69, 68]
  | .PERFORMANCE => [80, 69, 82, 70, 79, 82, 77, 65, 78, 67, 69]

/-- Name-to-profile lookup (`SECURITY_PROFILES[profile]` key access). -/
def lookupProfile (b : Bytes) : Option Profile :=
  if b = profileName .MAXIMUM then some .MAXIMUM
  else if b = profileName .BALANCED then some .BALANCED
  else if b = profileName .PERFORMANCE then some .PERFORMANCE
  else none

/-- The per-layer key of `_derive_layer_keys`: two chained SHA-256
rounds over layer-specific context material. -/
def layerKey (masterKey nonce : Bytes) (layerNum : Nat) : Bytes :=
  let layerContext := KEY_LABEL_B ++ [48 + layerNum] ++ nonce ++ masterKey.take 16
  let intermediate := C.sha256 (masterKey ++ layerContext ++ pack32 layerNum)
  C.sha256 (intermediate ++ layerContext.reverse ++
    slice nonce (layerNum - 1) (layerNum - 1 + 16))

/-- `SevenLayerEncryption._derive_layer_keys` (keys for layers 1..7 as a
function of the layer number; the source stores them in a dict). -/
def deriveLayerKeys (masterKey nonce : Bytes) : Except Err (Nat → Bytes) :=
  if masterKey.length ≠ 64 then .error .validation
  else if nonce.length ≠ 32 then .error .validation
  else .ok (layerKey C masterKey nonce)

/-- `bytes.rstrip(b'\x00')`. -/
def rstripNulls (b : Bytes) : Bytes :=
  (b.reverse.dropWhile (fun x => x = 0)).reverse

/-- `SevenLayerEncryption._create_system_header`:
`[magic:6][version:3][profile_len:1][profile][timestamp:8][nonce:32]`
(with the `struct.pack('<Q', ...)` range guard). -/
def createSystemHeader (nonce : Bytes) (profile : Profile) (ts : Nat) :
    Except Err Bytes :=
  if (profileName profile).length > 255 then .error .validation
  else if ts ≥ 18446744073709551616 then .error .structRange
  else .ok (MAGIC_HEADER_B ++ VERSION_B ++ [(profileName profile).length] ++
    profileName profile ++ pack64 ts ++ nonce)

/-- `SevenLayerEncryption._parse_system_header` (version and profile are
kept as byte strings; UTF-8 decoding is lossless on the values this
system writes). -/
def parseSystemHeader (data : Bytes) :
    Except Err (Bytes × Bytes × Nat × Bytes × Nat) :=
  if data.length < 6 then .error .format
  else if data.take 6 ≠ MAGIC_HEADER_B then .error .format
  else
    let version := rstripNulls (slice data 6 9)
    if 9 ≥ data.length then .error .format
    else
      let profileLen := data.getD 9 0
      if 10 + profileLen > data.length then .error .format
      else
        let profileBytes := slice data 10 (10 + profileLen)
        if 10 + profileLen + 8 > data.length then .error .format
        else
          let timestamp := unpack64 (slice data (10 + profileLen)
            (10 + profileLen + 8))
          if 10 + profileLen + 8 + 32 > data.length then .error .format
          else
            let nonce := slice data (10 + profileLen + 8)
              (10 + profileLen + 8 + 32)
            .ok (version, profileBytes, timestamp, nonce,
              10 + profileLen + 8 + 32)

/-- The profile-reconciliation step of `SevenLayerEncryption.decrypt`:
if the packet profile differs from the instance profile, look it up in
`SECURITY_PROFILES` (a `KeyError` on an unknown name) and reconfigure. -/
def reconcileProfile (selfProfile : Profile) (profileBytes : Bytes) :
    Except Err Profile :=
  if profileBytes = profileName selfProfile then .ok selfProfile
  else match lookupProfile profileBytes with
    | none => .error .unknownProfile
    | some p => .ok p

/-- `SevenLayerEncryption.encrypt` with the ambient randomness and
clock made explicit: `hts` is the header timestamp `int(time.time())`,
`fts` and `fiv` are the Fernet token timestamp and IV of Layer 2, and
`l7ts` is the Layer 7 header timestamp. -/
def masterEncrypt (profile : Profile) (plaintext masterKey nonce : Bytes)
    (hts fts : Nat) (fiv : Bytes) (l7ts : Nat) : Except Err Bytes :=
  if plaintext = [] then .error .validation
  else if masterKey.length ≠ 64 then .error .validation
  else if nonce.length ≠ 32 then .error .validation
  else match createSystemHeader nonce profile hts with
  | .error e => .error e
  | .ok header =>
    match deriveLayerKeys C masterKey nonce with
    | .error e => .error e
    | .ok keys =>
      match byteMaskEncrypt C plaintext (keys 1) (nonce.take 16) with
      | .error e => .error e
      | .ok d1 =>
        match fernetLayerEncrypt C d1 (keys 2) (nonce.take 16) fts fiv with
        | .error e => .error e
        | .ok d2 =>
          match ctrLayerEncrypt C d2 (keys 3) (nonce.take 16) with
          | .error e => .error e
          | .ok d3 =>
            match chaosLayerEncrypt C d3 (keys 4) (nonce.take 16) with
            | .error e => .error e
            | .ok d4 =>
              match swapperEncrypt C d4 (keys 5) (nonce.take 16) with
              | .error e => .error e
              | .ok d5 =>
                match noiseEncrypt C d5 (keys 6) (nonce.take 16) with
                | .error e => .error e
                | .ok d6 =>
                  match integrityLayerEncrypt C d6 (keys 7) (nonce.take 16)
                      (SECURITY_PROFILES profile).integrity_tag_size l7ts with
                  | .error e => .error e
                  | .ok d7 => .ok (header ++ d7)

/-- `SevenLayerEncryption.decrypt` on an instance configured with
`selfProfile`; returns the profile in effect after auto-reconfiguration
together with the plaintext. -/
def masterDecrypt (selfProfile : Profile) (ciphertext masterKey : Bytes) :
    Except Err (Profile × Bytes) :=
  if ciphertext = [] then .error .validation
  else if masterKey.length ≠ 64 then .error .validation
  else match parseSystemHeader ciphertext with
  | .error e => .error e
  | .ok (version, profileBytes, _timestamp, nonce, headerLength) =>
    if version ≠ VERSION_B then .error .versionMismatch
    else match reconcileProfile selfProfile profileBytes with
    | .error e => .error e
    | .ok profile =>
      match deriveLayerKeys C masterKey nonce with
      | .error e => .error e
      | .ok keys =>
        match integrityLayerDecrypt C (ciphertext.drop headerLength) (keys 7)
            (SECURITY_PROFILES profile).integrity_tag_size with
        | .error e => .error e
        | .ok c6 =>
          match noiseDecrypt c6 (keys 6) (nonce.take 16) with
          | .error e => .error e
          | .ok c5 =>
            match swapperDecrypt c5 (keys 5) (nonce.take 16) with
            | .error e => .error e
            | .ok c4 =>
              match chaosLayerDecrypt C c4 (keys 4) with
              | .error e => .error e
              | .ok c3 =>
                match ctrLayerDecrypt C c3 (keys 3) (nonce.take 16) with
                | .error e => .error e
                | .ok c2 =>
                  match fernetLayerDecrypt C c2 (keys 2) with
                  | .error e => .error e
                  | .ok c1 =>
                    match byteMaskDecrypt C c1 (keys 1) (nonce.take 16) with
                    | .error e => .error e
                    | .ok plaintext => .ok (profile, plaintext)

theorem parseSystemHeader_pack (profile : Profile) (nonce d : Bytes) (ts : Nat)
    (hn : nonce.length = 32) (hts : ts < 18446744073709551616) :
    parseSystemHeader ((MAGIC_HEADER_B ++ VERSION_B ++
        [(profileName profile).length] ++ profileName profile ++
        pack64 ts ++ nonce) ++ d)
      = .ok (VERSION_B, profileName profile, ts, nonce,
          10 + (profileName profile).length + 8 + 32) := by
  have hM : (MAGIC_HEADER_B : Bytes).length = 6 := rfl
  have hV : (VERSION_B : Bytes).length = 3 := rfl
  have hL2 : ((MAGIC_HEADER_B ++ VERSION_B ++
      [(profileName profile).length] : Bytes)).length = 10 := rfl
  have hL3 : ((MAGIC_HEADER_B ++ VERSION_B ++
      [(profileName profile).length] ++ profileName profile : Bytes)).length
      = 10 + (profileName profile).length := by
    rw [List.length_append, hL2]
  have hL4 : ((MAGIC_HEADER_B ++ VERSION_B ++
      [(profileName profile).length] ++ profileName profile ++
      pack64 ts : Bytes)).length = 18 + (profileName profile).length := by
    rw [List.length_append, hL3, pack64_length]
    omega
  have hL5 : ((MAGIC_HEADER_B ++ VERSION_B ++
      [(profileName profile).length] ++ profileName profile ++
      pack64 ts ++ nonce : Bytes)).length
      = 50 + (profileName profile).length := by
    rw [List.length_append, hL4, hn]
    omega
  have hdlen : (((MAGIC_HEADER_B ++ VERSION_B ++
      [(profileName profile).length] ++ profileName profile ++
      pack64 ts ++ nonce) ++ d : Bytes)).length
      = 50 + (profileName profile).length + d.length := by
    rw [List.length_append, hL5]
  have htake6 : (((MAGIC_HEADER_B ++ VERSION_B ++
      [(profileName profile).length] ++ profileName profile ++
      pack64 ts ++ nonce) ++ d : Bytes)).take 6 = MAGIC_HEADER_B := by
    rw [List.take_append_of_le_length (by rw [hL5]; omega)]
    rw [List.take_append_of_le_length (by rw [hL4]; omega)]
    rw [List.take_append_of_le_length (by rw [hL3]; omega)]
    rw [List.take_append_of_le_length (by rw [hL2]; omega)]
    rw [List.take_append_of_le_length (by rw [List.length_append, hM, hV]; omega)]
    rw [List.take_append_of_le_length (by rw [hM])]
    exact List.take_of_length_le (by rw [hM])
  have hver : slice (((MAGIC_HEADER_B ++ VERSION_B ++
      [(profileName profile).length] ++ profileName profile ++
      pack64 ts ++ nonce) ++ d : Bytes)) 6 9 = VERSION_B := by
    rw [slice_append_lt _ _ _ _ (by rw [hL5]; omega)]
    rw [slice_append_lt _ _ _ _ (by rw [hL4]; omega)]
    rw [slice_append_lt _ _ _ _ (by rw [hL3]; omega)]
    rw [slice_append_lt _ _ _ _ (by rw [hL2]; omega)]
    rw [slice_append_lt _ _ _ _ (by rw [List.length_append, hM, hV])]
    rw [slice_append_ge _ _ _ _ (by rw [hM])]
    rw [hM]
    have e1 : (6 : Nat) - 6 = 0 := rfl
    have e2 : (9 : Nat) - 6 = 3 := rfl
    rw [e1, e2, slice_zero]
    exact List.take_of_length_le (by rw [hV])
  have hgetD : (((MAGIC_HEADER_B ++ VERSION_B ++
      [(profileName profile).length] ++ profileName profile ++
      pack64 ts ++ nonce) ++ d : Bytes)).getD 9 0
      = (profileName profile).length := by
    rw [List.getD_append _ _ _ _ (by rw [hL5]; omega)]
    rw [List.getD_append _ _ _ _ (by rw [hL4]; omega)]
    rw [List.getD_append _ _ _ _ (by rw [hL3]; omega)]
    rw [List.getD_append _ _ _ _ (by rw [hL2]; omega)]
    rw [List.getD_append_right _ _ _ _ (by rw [List.length_append, hM, hV])]
    rw [List.length_append, hM, hV]
    rfl
  have hprof : slice (((MAGIC_HEADER_B ++ VERSION_B ++
      [(profileName profile).length] ++ profileName profile ++
      pack64 ts ++ nonce) ++ d : Bytes)) 10 (10 + (profileName profile).length)
      = profileName profile := by
    rw [slice_append_lt _ _ _ _ (by rw [hL5]; omega)]
    rw [slice_append_lt _ _ _ _ (by rw [hL4]; omega)]
    rw [slice_append_lt _ _ _ _ (by rw [hL3])]
    rw [slice_append_ge _ _ _ _ (by rw [hL2])]
    rw [hL2]
    have e1 : (10 : Nat) - 10 = 0 := rfl
    have e2 : 10 + (profileName profile).length - 10
        = (profileName profile).length := by omega
    rw [e1, e2, slice_zero]
    exact List.take_of_length_le (Nat.le_refl _)
  have hts8 : slice (((MAGIC_HEADER_B ++ VERSION_B ++
      [(profileName profile).length] ++ profileName profile ++
      pack64 ts ++ nonce) ++ d : Bytes)) (10 + (profileName profile).length)
      (10 + (profileName profile).length + 8) = pack64 ts := by
    rw [slice_append_lt _ _ _ _ (by rw [hL5]; omega)]
    rw [slice_append_lt _ _ _ _ (by rw [hL4]; omega)]
    rw [slice_append_ge _ _ _ _ (by rw [hL3])]
    rw [hL3]
    have e1 : 10 + (profileName profile).length -
        (10 + (profileName profile).length) = 0 := by omega
    have e2 : 10 + (profileName profile).length + 8 -
        (10 + (profileName profile).length) = 8 := by omega
    rw [e1, e2, slice_zero]
    exact List.take_of_length_le (by rw [pack64_length])
  have hnonce : slice (((MAGIC_HEADER_B ++ VERSION_B ++
      [(profileName profile).length] ++ profileName profile ++
      pack64 ts ++ nonce) ++ d : Bytes)) (10 + (profileName profile).length + 8)
      (10 + (profileName profile).length + 8 + 32) = nonce := by
    rw [slice_append_lt _ _ _ _ (by rw [hL5]; omega)]
    rw [slice_append_ge _ _ _ _ (by rw [hL4]; omega)]
    rw [hL4]
    have e1 : 10 + (profileName profile).length + 8 -
        (18 + (profileName profile).length) = 0 := by omega
    have e2 : 10 + (profileName profile).length + 8 + 32 -
        (18 + (profileName profile).length) = 32 := by omega
    rw [e1, e2, slice_zero]
    exact List.take_of_length_le (by rw [hn])
  simp only [parseSystemHeader]
  rw [if_neg (by rw [hdlen]; omega)]
  rw [htake6]
  rw [if_neg (by
    intro hne
    exact hne rfl)]
  rw [hver]
  rw [if_neg (by rw [hdlen]; omega)]
  rw [hgetD]
  rw [if_neg (by rw [hdlen]; omega)]
  rw [hprof]
  rw [if_neg (by rw [hdlen]; omega)]
  rw [hts8, unpack64_pack64 _ hts]
  rw [if_neg (by rw [hdlen]; omega)]
  rw [hnonce]
  have hrs : rstripNulls VERSION_B = VERSION_B := rfl
  rw [hrs]

theorem reconcileProfile_name (selfProfile profile : Profile) :
    reconcileProfile selfProfile (profileName profile) = .ok profile := by
  cases selfProfile <;> cases profile <;> rfl

theorem master_roundtrip (hC : C.Wf) (profile selfProfile : Profile)
    (m mk n ct : Bytes) (hts fts : Nat) (fiv : Bytes) (l7ts : Nat)
    (hbytes : ∀ b ∈ m, b < 256)
    (henc : masterEncrypt C profile m mk n hts fts fiv l7ts = .ok ct) :
    masterDecrypt C selfProfile ct mk = .ok (profile, m) := by
  simp only [masterEncrypt, createSystemHeader, deriveLayerKeys] at henc
  split_ifs at henc with h1 h2 h3 h4 h5
  dsimp only at henc
  rcases hd1 : byteMaskEncrypt C m (layerKey C mk n 1) (n.take 16) with e | d1
  · rw [hd1] at henc; cases henc
  rw [hd1] at henc
  dsimp only at henc
  rcases hd2 : fernetLayerEncrypt C d1 (layerKey C mk n 2) (n.take 16) fts fiv
    with e | d2
  · rw [hd2] at henc; cases henc
  rw [hd2] at henc
  dsimp only at henc
  rcases hd3 : ctrLayerEncrypt C d2 (layerKey C mk n 3) (n.take 16) with e | d3
  · rw [hd3] at henc; cases henc
  rw [hd3] at henc
  dsimp only at henc
  rcases hd4 : chaosLayerEncrypt C d3 (layerKey C mk n 4) (n.take 16) with e | d4
  · rw [hd4] at henc; cases henc
  rw [hd4] at henc
  dsimp only at henc
  rcases hd5 : swapperEncrypt C d4 (layerKey C mk n 5) (n.take 16) with e | d5
  · rw [hd5] at henc; cases henc
  rw [hd5] at henc
  dsimp only at henc
  rcases hd6 : noiseEncrypt C d5 (layerKey C mk n 6) (n.take 16) with e | d6
  · rw [hd6] at henc; cases henc
  rw [hd6] at henc
  dsimp only at henc
  rcases hd7 : integrityLayerEncrypt C d6 (layerKey C mk n 7) (n.take 16)
      (SECURITY_PROFILES profile).integrity_tag_size l7ts with e | d7
  · rw [hd7] at henc; cases henc
  rw [hd7] at henc
  dsimp only at henc
  simp only [Except.ok.injEq] at henc
  subst henc
  have hHlen : ((MAGIC_HEADER_B ++ VERSION_B ++
      [(profileName profile).length] ++ profileName profile ++
      pack64 hts ++ n : Bytes)).length
      = 10 + (profileName profile).length + 8 + 32 := by
    rw [List.length_append, List.length_append, List.length_append,
      List.length_append, List.length_append, pack64_length]
    have h6 : (MAGIC_HEADER_B : Bytes).length = 6 := rfl
    have h3v : (VERSION_B : Bytes).length = 3 := rfl
    rw [h6, h3v, List.length_cons, List.length_nil]
    omega
  have hkey : ∀ i, (layerKey C mk n i).length = 32 := fun i => hC.sha256_length _
  have hn16 : (n.take 16).length = 16 := by
    rw [List.length_take]
    omega
  simp only [masterDecrypt]
  rw [if_neg (by
    intro hnil
    have hl := congrArg List.length hnil
    rw [List.length_append, hHlen] at hl
    simp only [List.length_nil] at hl
    omega)]
  rw [if_neg (by omega)]
  rw [parseSystemHeader_pack profile n d7 hts (by omega) (by omega)]
  dsimp only
  rw [if_neg (by intro hne2; exact hne2 rfl)]
  rw [reconcileProfile_name selfProfile profile]
  dsimp only
  simp only [deriveLayerKeys]
  rw [if_neg (by omega), if_neg (by omega)]
  dsimp only
  have hdrop : ((MAGIC_HEADER_B ++ VERSION_B ++
      [(profileName profile).length] ++ profileName profile ++
      pack64 hts ++ n) ++ d7 : Bytes).drop
      (10 + (profileName profile).length + 8 + 32) = d7 := by
    rw [← hHlen]
    exact List.drop_left _ _
  rw [hdrop]
  rw [integrityLayer_roundtrip C hC d6 (layerKey C mk n 7) (n.take 16) d7
    (SECURITY_PROFILES profile).integrity_tag_size l7ts
    (by cases profile <;> decide) hd7]
  dsimp only
  rw [noise_roundtrip C hC d5 (layerKey C mk n 6) (n.take 16)
    (layerKey C mk n 6) (n.take 16) d6
    (by rw [hkey]) (by rw [hn16]) hd6]
  dsimp only
  rw [swapper_roundtrip C d4 (layerKey C mk n 5) (n.take 16)
    (layerKey C mk n 5) (n.take 16) d5
    (by rw [hkey]) (by rw [hn16]) hd5]
  dsimp only
  rw [chaosLayer_roundtrip C hC d3 (layerKey C mk n 4) (n.take 16) d4 hn16 hd4]
  dsimp only
  rw [ctrLayer_roundtrip C hC d2 (layerKey C mk n 3) (n.take 16) d3 hd3]
  dsimp only
  rw [fernetLayer_roundtrip C hC d1 (layerKey C mk n 2) (n.take 16) fts fiv d2 hd2]
  dsimp only
  rw [byteMask_roundtrip C hC m (layerKey C mk n 1) (n.take 16) d1 hbytes hd1]

/-! ### Validation behaviour of the layer encryptors -/

theorem ne_nil_of_length_pos {α : Type} (l : List α) (h : 0 < l.length) :
    l ≠ [] := by
  intro hn
  rw [hn] at h
  simp at h

theorem byteMaskEncrypt_valid (hC : C.Wf) (pt mk n : Bytes)
    (hmk : 32 ≤ mk.length) (hn : 16 ≤ n.length) (hpt : pt ≠ []) :
    ∃ d, byteMaskEncrypt C pt mk n = .ok d ∧ d ≠ [] := by
  rcases createSubstitutionTable_spec C hC mk n with ⟨sub, hcst, _⟩
  refine ⟨pt.map (fun b => sub.getD b 0), ?_, ?_⟩
  · simp only [byteMaskEncrypt]
    rw [if_neg (by omega), if_neg (by omega), if_neg hpt, hcst]
  · simp only [ne_eq, List.map_eq_nil_iff]
    exact hpt

theorem fernetLayerEncrypt_valid (pt mk n : Bytes) (ts : Nat) (iv : Bytes)
    (hmk : 32 ≤ mk.length) (hn : 16 ≤ n.length) (hn255 : n.length ≤ 255)
    (hpt : pt ≠ []) :
    fernetLayerEncrypt C pt mk n ts iv ≠ .error .validation ∧
      ∀ d, fernetLayerEncrypt C pt mk n ts iv = .ok d → d ≠ [] := by
  simp only [fernetLayerEncrypt, createEnhancedToken]
  rw [if_neg (by omega), if_neg (by omega), if_neg hpt, if_neg (by omega)]
  split_ifs with h
  · exact ⟨by simp, fun d hd => absurd hd (by simp)⟩
  · refine ⟨by simp, fun d hd => ?_⟩
    simp only [Except.ok.injEq] at hd
    rw [← hd]
    apply ne_nil_of_length_pos
    simp only [List.length_append, List.length_cons, List.length_nil]
    omega

theorem ctrLayerEncrypt_valid (pt mk n : Bytes)
    (hmk : 32 ≤ mk.length) (hn : 16 ≤ n.length) (hpt : pt ≠ []) :
    ctrLayerEncrypt C pt mk n ≠ .error .validation ∧
      ∀ d, ctrLayerEncrypt C pt mk n = .ok d → d ≠ [] := by
  simp only [ctrLayerEncrypt, packCtrData]
  rw [if_neg (by omega), if_neg (by omega), if_neg hpt]
  split_ifs with h1 h2
  · exact ⟨by simp, fun d hd => absurd hd (by simp)⟩
  · exact ⟨by simp, fun d hd => absurd hd (by simp)⟩
  · refine ⟨by simp, fun d hd => ?_⟩
    simp only [Except.ok.injEq] at hd
    rw [← hd]
    apply ne_nil_of_length_pos
    simp only [List.length_append, List.length_cons, List.length_nil]
    omega

theorem chaosLayerEncrypt_valid (pt mk n : Bytes)
    (hmk : 32 ≤ mk.length) (hn : 16 ≤ n.length) (hpt : pt ≠ []) :
    chaosLayerEncrypt C pt mk n ≠ .error .validation ∧
      ∀ d, chaosLayerEncrypt C pt mk n = .ok d → d ≠ [] := by
  simp only [chaosLayerEncrypt, xorWithChaos]
  rw [if_neg (by omega), if_neg (by omega), if_neg hpt]
  split_ifs with h1
  · exact ⟨by simp, fun d hd => absurd hd (by simp)⟩
  · dsimp only
    simp only [packChaosData]
    rw [if_neg (by simp only [List.length_take]; omega)]
    split_ifs with h2
    · exact ⟨by simp, fun d hd => absurd hd (by simp)⟩
    · refine ⟨by simp, fun d hd => ?_⟩
      simp only [Except.ok.injEq] at hd
      rw [← hd]
      apply ne_nil_of_length_pos
      simp only [List.length_append, List.length_cons, List.length_nil]
      omega

theorem swapperEncrypt_valid (pt mk n : Bytes)
    (hmk : 32 ≤ mk.length) (hn : 16 ≤ n.length) (hpt : pt ≠ []) :
    swapperEncrypt C pt mk n ≠ .error .validation ∧
      ∀ d, swapperEncrypt C pt mk n = .ok d → d ≠ [] := by
  have hmod := padToBlocks_mod pt hpt
  have hsplit : splitIntoBlocks (padToBlocks pt).1
      = .ok (splitBlocks (padToBlocks pt).1) := by
    simp only [splitIntoBlocks]
    rw [if_neg (by omega)]
  simp only [swapperEncrypt, packPermutationInfo]
  rw [if_neg (by omega), if_neg (by omega), if_neg hpt, hsplit]
  dsimp only
  split_ifs with h1 h2
  · exact ⟨by simp, fun d hd => absurd hd (by simp)⟩
  · exact ⟨by simp, fun d hd => absurd hd (by simp)⟩
  · dsimp only
    simp only [packSwappedData]
    split_ifs with h3 h4
    · exact ⟨by simp, fun d hd => absurd hd (by simp)⟩
    · exact ⟨by simp, fun d hd => absurd hd (by simp)⟩
    · refine ⟨by simp, fun d hd => ?_⟩
      simp only [Except.ok.injEq] at hd
      rw [← hd]
      apply ne_nil_of_length_pos
      simp only [List.length_append, pack32_length, pack16_length]
      omega

theorem noiseEncrypt_valid (pt mk n : Bytes)
    (hmk : 32 ≤ mk.length) (hn : 16 ≤ n.length) (hpt : pt ≠ []) :
    noiseEncrypt C pt mk n ≠ .error .validation ∧
      ∀ d, noiseEncrypt C pt mk n = .ok d → d ≠ [] := by
  simp only [noiseEncrypt]
  rw [if_neg (by omega), if_neg (by omega), if_neg hpt]
  rcases hpat : generateNoisePattern C pt.length
      (deriveNoiseParameters C mk n).1 (deriveNoiseParameters C mk n).2
    with e | pat
  · refine ⟨?_, fun d hd => absurd hd (by simp)⟩
    have hne : e ≠ Err.validation := by
      simp only [generateNoisePattern] at hpat
      rw [if_neg (fun h => hpt (List.eq_nil_of_length_eq_zero h))] at hpat
      set T := if C.noiseTotal (deriveNoiseParameters C mk n).1 pt.length < 8
        then 8 else C.noiseTotal (deriveNoiseParameters C mk n).1 pt.length
        with hT
      rcases hloop : noisePatternLoop pt.length
          (deriveNoiseParameters C mk n).2
          (positionsSorted C (deriveNoiseParameters C mk n).2 pt.length) T 0 []
        with e2 | insrem
      · rw [hloop] at hpat
        dsimp only at hpat
        simp only [Except.error.injEq] at hpat
        rw [← hpat]
        have : e2 = Err.stopIteration := by
          have hgen : ∀ (positions : List Nat) (remaining currentPos : Nat)
              (acc : List (Nat × Nat)) (e3 : Err),
              noisePatternLoop pt.length (deriveNoiseParameters C mk n).2
                positions remaining currentPos acc = .error e3 →
              e3 = Err.stopIteration := by
            intro positions
            induction positions with
            | nil =>
              intro remaining currentPos acc e3 hl
              rw [noisePatternLoop] at hl
              split_ifs at hl
              all_goals (cases hl; rfl)
            | cons p rest ih =>
              intro remaining currentPos acc e3 hl
              rw [noisePatternLoop] at hl
              split_ifs at hl
              all_goals first
              | exact ih _ _ _ _ hl
              | (cases hl; rfl)
          exact hgen _ _ _ _ _ hloop
        rw [this]
        simp
      · rw [hloop] at hpat
        dsimp only at hpat
        rcases hlast : insrem.1.getLast? with _ | last
        · rw [hlast] at hpat
          cases hpat
        · rw [hlast] at hpat
          dsimp only at hpat
          split_ifs at hpat <;> cases hpat
    simp only [ne_eq, Except.error.injEq]
    intro hv
    exact hne hv
  · dsimp only
    simp only [createNoiseMap]
    split_ifs with h1 h2 h3
    · exact ⟨by simp, fun d hd => absurd hd (by simp)⟩
    · exact ⟨by simp, fun d hd => absurd hd (by simp)⟩
    · exact ⟨by simp, fun d hd => absurd hd (by simp)⟩
    · dsimp only
      simp only [packNoisyData]
      split_ifs with h4
      · exact ⟨by simp, fun d hd => absurd hd (by simp)⟩
      · refine ⟨by simp, fun d hd => ?_⟩
        simp only [Except.ok.injEq] at hd
        rw [← hd]
        apply ne_nil_of_length_pos
        simp only [List.length_append, pack16_length]
        omega

theorem integrityLayerEncrypt_valid (pt mk n : Bytes) (tagSize ts : Nat)
    (hmk : 32 ≤ mk.length) (hn : 16 ≤ n.length) (hn255 : n.length ≤ 255)
    (hpt : pt ≠ []) :
    integrityLayerEncrypt C pt mk n tagSize ts ≠ .error .validation ∧
      ∀ d, integrityLayerEncrypt C pt mk n tagSize ts = .ok d → d ≠ [] := by
  simp only [integrityLayerEncrypt, createIntegrityHeader]
  rw [if_neg (by omega), if_neg (by omega), if_neg hpt, if_neg (by omega)]
  split_ifs with h
  · exact ⟨by simp, fun d hd => absurd hd (by simp)⟩
  · refine ⟨by simp, fun d hd => ?_⟩
    dsimp only at hd
    simp only [Except.ok.injEq] at hd
    rw [← hd]
    apply ne_nil_of_length_pos
    simp only [List.length_append, List.length_cons, List.length_nil]
    omega

theorem masterEncrypt_validation_iff (hC : C.Wf) (profile : Profile)
    (m mk n : Bytes) (hts fts : Nat) (fiv : Bytes) (l7ts : Nat) :
    masterEncrypt C profile m mk n hts fts fiv l7ts = .error .validation
      ↔ (m = [] ∨ mk.length ≠ 64 ∨ n.length ≠ 32) := by
  constructor
  · intro h
    by_contra hcon
    push_neg at hcon
    obtain ⟨hm, hk, hn⟩ := hcon
    simp only [masterEncrypt, createSystemHeader, deriveLayerKeys] at h
    rw [if_neg hm, if_neg (by omega), if_neg (by omega),
      if_neg (by cases profile <;> decide)] at h
    by_cases hts5 : hts ≥ 18446744073709551616
    · rw [if_pos hts5] at h
      dsimp only at h
      simp at h
    · rw [if_neg hts5] at h
      dsimp only at h
      rw [if_neg (by omega), if_neg (by omega)] at h
      dsimp only at h
      have hkey : ∀ i, 32 ≤ (layerKey C mk n i).length := fun i => by
        simp only [layerKey]
        rw [hC.sha256_length]
      have hn16 : (n.take 16).length = 16 := by
        rw [List.length_take]
        omega
      obtain ⟨d1, hd1, hd1ne⟩ := byteMaskEncrypt_valid C hC m
        (layerKey C mk n 1) (n.take 16) (hkey 1) (by omega) hm
      rw [hd1] at h
      dsimp only at h
      obtain ⟨hv2, hne2⟩ := fernetLayerEncrypt_valid C d1
        (layerKey C mk n 2) (n.take 16) fts fiv (hkey 2) (by omega) (by omega) hd1ne
      rcases h2 : fernetLayerEncrypt C d1 (layerKey C mk n 2) (n.take 16) fts fiv
        with e | d2
      · rw [h2] at h
        dsimp only at h
        simp only [Except.error.injEq] at h
        rw [h] at h2
        exact hv2 h2
      rw [h2] at h
      dsimp only at h
      have hd2ne := hne2 d2 h2
      obtain ⟨hv3, hne3⟩ := ctrLayerEncrypt_valid C d2
        (layerKey C mk n 3) (n.take 16) (hkey 3) (by omega) hd2ne
      rcases h3 : ctrLayerEncrypt C d2 (layerKey C mk n 3) (n.take 16) with e | d3
      · rw [h3] at h
        dsimp only at h
        simp only [Except.error.injEq] at h
        rw [h] at h3
        exact hv3 h3
      rw [h3] at h
      dsimp only at h
      have hd3ne := hne3 d3 h3
      obtain ⟨hv4, hne4⟩ := chaosLayerEncrypt_valid C d3
        (layerKey C mk n 4) (n.take 16) (hkey 4) (by omega) hd3ne
      rcases h4 : chaosLayerEncrypt C d3 (layerKey C mk n 4) (n.take 16) with e | d4
      · rw [h4] at h
        dsimp only at h
        simp only [Except.error.injEq] at h
        rw [h] at h4
        exact hv4 h4
      rw [h4] at h
      dsimp only at h
      have hd4ne := hne4 d4 h4
      obtain ⟨hv5, hne5⟩ := swapperEncrypt_valid C d4
        (layerKey C mk n 5) (n.take 16) (hkey 5) (by omega) hd4ne
      rcases h5 : swapperEncrypt C d4 (layerKey C mk n 5) (n.take 16) with e | d5
      · rw [h5] at h
        dsimp only at h
        simp only [Except.error.injEq] at h
        rw [h] at h5
        exact hv5 h5
      rw [h5] at h
      dsimp only at h
      have hd5ne := hne5 d5 h5
      obtain ⟨hv6, hne6⟩ := noiseEncrypt_valid C d5
        (layerKey C mk n 6) (n.take 16) (hkey 6) (by omega) hd5ne
      rcases h6 : noiseEncrypt C d5 (layerKey C mk n 6) (n.take 16) with e | d6
      · rw [h6] at h
        dsimp only at h
        simp only [Except.error.injEq] at h
        rw [h] at h6
        exact hv6 h6
      rw [h6] at h
      dsimp only at h
      have hd6ne := hne6 d6 h6
      obtain ⟨hv7, hne7⟩ := integrityLayerEncrypt_valid C d6
        (layerKey C mk n 7) (n.take 16)
        (SECURITY_PROFILES profile).integrity_tag_size l7ts
        (hkey 7) (by omega) (by omega) hd6ne
      rcases h7 : integrityLayerEncrypt C d6 (layerKey C mk n 7) (n.take 16)
          (SECURITY_PROFILES profile).integrity_tag_size l7ts with e | d7
      · rw [h7] at h
        dsimp only at h
        simp only [Except.error.injEq] at h
        rw [h] at h7
        exact hv7 h7
      rw [h7] at h
      dsimp only at h
      simp at h
  · intro hinv
    simp only [masterEncrypt]
    by_cases hm : m = []
    · rw [if_pos hm]
    · rw [if_neg hm]
      by_cases hk : mk.length ≠ 64
      · rw [if_pos hk]
      · rw [if_neg hk]
        have hn : n.length ≠ 32 := by tauto
        rw [if_pos hn]

/-! ### Determinism and dependence of the stage outputs -/

theorem ctrLayerEncrypt_inj (hC : C.Wf) (k3 n3 t2a t2b c3a c3b : Bytes)
    (h3a : ctrLayerEncrypt C t2a k3 n3 = .ok c3a)
    (h3b : ctrLayerEncrypt C t2b k3 n3 = .ok c3b) :
    c3a = c3b ↔ t2a = t2b := by
  constructor
  · intro hc
    simp only [ctrLayerEncrypt, packCtrData, applyCtrCipher] at h3a h3b
    split_ifs at h3a with g1 g2 g3 g4
    split_ifs at h3b with g5 g6
    simp only [Except.ok.injEq] at h3a h3b
    rw [← h3a, ← h3b] at hc
    have hla : (C.aesCtr (deriveCtrKey C k3 n3)
        ((generateCtrIV C k3 n3).take 12 ++
          pack32 (unpack32 (slice (generateCtrIV C k3 n3) 12 16))) t2a).length
        = t2a.length := hC.aesCtr_length _ _ _
    have hlb : (C.aesCtr (deriveCtrKey C k3 n3)
        ((generateCtrIV C k3 n3).take 12 ++
          pack32 (unpack32 (slice (generateCtrIV C k3 n3) 12 16))) t2b).length
        = t2b.length := hC.aesCtr_length _ _ _
    have hlen := congrArg List.length hc
    simp only [List.length_append, List.length_cons, pack32_length,
      hla, hlb] at hlen
    have hab : t2a.length = t2b.length := by omega
    rw [hla, hlb, hab] at hc
    have hcc := List.append_cancel_left hc
    have := congrArg (C.aesCtr (deriveCtrKey C k3 n3)
      ((generateCtrIV C k3 n3).take 12 ++
        pack32 (unpack32 (slice (generateCtrIV C k3 n3) 12 16)))) hcc
    rw [hC.aesCtr_involutive, hC.aesCtr_involutive] at this
    exact this
  · intro ht
    rw [ht] at h3a
    rw [h3a] at h3b
    simpa using h3b

theorem packet_take (profile : Profile) (ts : Nat) (nonce d : Bytes) :
    (((MAGIC_HEADER_B ++ VERSION_B ++ [(profileName profile).length] ++
        profileName profile ++ pack64 ts ++ nonce) ++ d : Bytes)).take
      (10 + (profileName profile).length)
      = MAGIC_HEADER_B ++ VERSION_B ++ [(profileName profile).length] ++
        profileName profile := by
  have hL2 : ((MAGIC_HEADER_B ++ VERSION_B ++
      [(profileName profile).length] : Bytes)).length = 10 := rfl
  have hL3 : ((MAGIC_HEADER_B ++ VERSION_B ++
      [(profileName profile).length] ++ profileName profile : Bytes)).length
      = 10 + (profileName profile).length := by
    rw [List.length_append, hL2]
  rw [List.take_append_of_le_length (by
    simp only [List.length_append, hL3, pack64_length]
    omega)]
  rw [List.take_append_of_le_length (by
    simp only [List.length_append, hL3, pack64_length]
    omega)]
  rw [List.take_append_of_le_length (by rw [hL3])]
  exact List.take_of_length_le (by rw [hL3])

theorem packet_drop_after_ts (profile : Profile) (ts : Nat) (nonce d : Bytes) :
    (((MAGIC_HEADER_B ++ VERSION_B ++ [(profileName profile).length] ++
        profileName profile ++ pack64 ts ++ nonce) ++ d : Bytes)).drop
      (10 + (profileName profile).length + 8)
      = nonce ++ d := by
  have hL2 : ((MAGIC_HEADER_B ++ VERSION_B ++
      [(profileName profile).length] : Bytes)).length = 10 := rfl
  have hL4 : ((MAGIC_HEADER_B ++ VERSION_B ++
      [(profileName profile).length] ++ profileName profile ++
      pack64 ts : Bytes)).length = 10 + (profileName profile).length + 8 := by
    simp only [List.length_append, hL2, pack64_length]
  rw [List.append_assoc]
  rw [← hL4]
  exact List.drop_left _ _

theorem packet_slice_ts (profile : Profile) (ts : Nat) (nonce d : Bytes) :
    slice (((MAGIC_HEADER_B ++ VERSION_B ++ [(profileName profile).length] ++
        profileName profile ++ pack64 ts ++ nonce) ++ d : Bytes))
      (10 + (profileName profile).length)
      (10 + (profileName profile).length + 8)
      = pack64 ts := by
  have hL2 : ((MAGIC_HEADER_B ++ VERSION_B ++
      [(profileName profile).length] : Bytes)).length = 10 := rfl
  have hL3 : ((MAGIC_HEADER_B ++ VERSION_B ++
      [(profileName profile).length] ++ profileName profile : Bytes)).length
      = 10 + (profileName profile).length := by
    rw [List.length_append, hL2]
  rw [slice_append_lt _ _ _ _ (by
    simp only [List.length_append, hL3, pack64_length]
    omega)]
  rw [slice_append_lt _ _ _ _ (by
    simp only [List.length_append, hL3, pack64_length]
    omega)]
  rw [slice_append_ge _ _ _ _ (by rw [hL3])]
  rw [hL3]
  have e1 : 10 + (profileName profile).length -
      (10 + (profileName profile).length) = 0 := by omega
  have e2 : 10 + (profileName profile).length + 8 -
      (10 + (profileName profile).length) = 8 := by omega
  rw [e1, e2, slice_zero]
  exact List.take_of_length_le (by rw [pack64_length])

theorem masterEncrypt_ts_splice (profile : Profile) (m mk n ct ct2 : Bytes)
    (hts hts2 fts : Nat) (fiv : Bytes) (l7ts : Nat)
    (h1 : masterEncrypt C profile m mk n hts fts fiv l7ts = .ok ct)
    (h2 : masterEncrypt C profile m mk n hts2 fts fiv l7ts = .ok ct2) :
    ct.take (10 + (profileName profile).length)
      = ct2.take (10 + (profileName profile).length) ∧
    ct.drop (10 + (profileName profile).length + 8)
      = ct2.drop (10 + (profileName profile).length + 8) ∧
    slice ct (10 + (profileName profile).length)
      (10 + (profileName profile).length + 8) = pack64 hts ∧
    slice ct2 (10 + (profileName profile).length)
      (10 + (profileName profile).length + 8) = pack64 hts2 := by
  simp only [masterEncrypt, createSystemHeader, deriveLayerKeys] at h1 h2
  split_ifs at h1 with g1 g2 g3 g4 g5
  rw [if_neg g1, if_neg g2, if_neg g3, if_neg g4] at h2
  by_cases g6 : hts2 ≥ 18446744073709551616
  · rw [if_pos g6] at h2
    dsimp only at h2
    exact absurd h2 (by simp)
  rw [if_neg g6] at h2
  dsimp only at h1 h2
  rw [if_neg g2, if_neg g3] at h2
  dsimp only at h2
  rcases hd1 : byteMaskEncrypt C m (layerKey C mk n 1) (n.take 16) with e | d1
  · rw [hd1] at h1; exact absurd h1 (by simp)
  rw [hd1] at h1 h2
  dsimp only at h1 h2
  rcases hd2 : fernetLayerEncrypt C d1 (layerKey C mk n 2) (n.take 16) fts fiv
    with e | d2
  · rw [hd2] at h1; exact absurd h1 (by simp)
  rw [hd2] at h1 h2
  dsimp only at h1 h2
  rcases hd3 : ctrLayerEncrypt C d2 (layerKey C mk n 3) (n.take 16) with e | d3
  · rw [hd3] at h1; exact absurd h1 (by simp)
  rw [hd3] at h1 h2
  dsimp only at h1 h2
  rcases hd4 : chaosLayerEncrypt C d3 (layerKey C mk n 4) (n.take 16) with e | d4
  · rw [hd4] at h1; exact absurd h1 (by simp)
  rw [hd4] at h1 h2
  dsimp only at h1 h2
  rcases hd5 : swapperEncrypt C d4 (layerKey C mk n 5) (n.take 16) with e | d5
  · rw [hd5] at h1; exact absurd h1 (by simp)
  rw [hd5] at h1 h2
  dsimp only at h1 h2
  rcases hd6 : noiseEncrypt C d5 (layerKey C mk n 6) (n.take 16) with e | d6
  · rw [hd6] at h1; exact absurd h1 (by simp)
  rw [hd6] at h1 h2
  dsimp only at h1 h2
  rcases hd7 : integrityLayerEncrypt C d6 (layerKey C mk n 7) (n.take 16)
      (SECURITY_PROFILES profile).integrity_tag_size l7ts with e | d7
  · rw [hd7] at h1; exact absurd h1 (by simp)
  rw [hd7] at h1 h2
  dsimp only at h1 h2
  simp only [Except.ok.injEq] at h1 h2
  subst h1
  subst h2
  refine ⟨?_, ?_, packet_slice_ts profile hts n d7, packet_slice_ts profile hts2 n d7⟩
  · rw [packet_take profile hts n d7, packet_take profile hts2 n d7]
  · rw [packet_drop_after_ts profile hts n d7, packet_drop_after_ts profile hts2 n d7]

theorem masterEncrypt_tag_payload (profile1 profile2 : Profile)
    (m mk n ct1 ct2 : Bytes) (hts fts : Nat) (fiv : Bytes) (l7ts : Nat)
    (htag : (SECURITY_PROFILES profile1).integrity_tag_size
      = (SECURITY_PROFILES profile2).integrity_tag_size)
    (h1 : masterEncrypt C profile1 m mk n hts fts fiv l7ts = .ok ct1)
    (h2 : masterEncrypt C profile2 m mk n hts fts fiv l7ts = .ok ct2) :
    ct1.drop (10 + (profileName profile1).length + 8 + 32)
      = ct2.drop (10 + (profileName profile2).length + 8 + 32) := by
  simp only [masterEncrypt, createSystemHeader, deriveLayerKeys] at h1 h2
  rw [← htag] at h2
  split_ifs at h1 with g1 g2 g3 g4 g5
  rw [if_neg g1, if_neg g2, if_neg g3,
    if_neg (by cases profile2 <;> decide), if_neg g5] at h2
  dsimp only at h1 h2
  rw [if_neg g2, if_neg g3] at h2
  dsimp only at h2
  rcases hd1 : byteMaskEncrypt C m (layerKey C mk n 1) (n.take 16) with e | d1
  · rw [hd1] at h1; exact absurd h1 (by simp)
  rw [hd1] at h1 h2
  dsimp only at h1 h2
  rcases hd2 : fernetLayerEncrypt C d1 (layerKey C mk n 2) (n.take 16) fts fiv
    with e | d2
  · rw [hd2] at h1; exact absurd h1 (by simp)
  rw [hd2] at h1 h2
  dsimp only at h1 h2
  rcases hd3 : ctrLayerEncrypt C d2 (layerKey C mk n 3) (n.take 16) with e | d3
  · rw [hd3] at h1; exact absurd h1 (by simp)
  rw [hd3] at h1 h2
  dsimp only at h1 h2
  rcases hd4 : chaosLayerEncrypt C d3 (layerKey C mk n 4) (n.take 16) with e | d4
  · rw [hd4] at h1; exact absurd h1 (by simp)
  rw [hd4] at h1 h2
  dsimp only at h1 h2
  rcases hd5 : swapperEncrypt C d4 (layerKey C mk n 5) (n.take 16) with e | d5
  · rw [hd5] at h1; exact absurd h1 (by simp)
  rw [hd5] at h1 h2
  dsimp only at h1 h2
  rcases hd6 : noiseEncrypt C d5 (layerKey C mk n 6) (n.take 16) with e | d6
  · rw [hd6] at h1; exact absurd h1 (by simp)
  rw [hd6] at h1 h2
  dsimp only at h1 h2
  rcases hd7 : integrityLayerEncrypt C d6 (layerKey C mk n 7) (n.take 16)
      (SECURITY_PROFILES profile1).integrity_tag_size l7ts with e | d7
  · rw [hd7] at h1; exact absurd h1 (by simp)
  rw [hd7] at h1 h2
  dsimp only at h1 h2
  simp only [Except.ok.injEq] at h1 h2
  subst h1
  subst h2
  have hdrop : ∀ (p : Profile) (ts : Nat),
      (((MAGIC_HEADER_B ++ VERSION_B ++ [(profileName p).length] ++
          profileName p ++ pack64 ts ++ n) ++ d7 : Bytes)).drop
        (10 + (profileName p).length + 8 + 32) = d7 := by
    intro p ts
    have h1d := packet_drop_after_ts p ts n d7
    have hsplit2 : (((MAGIC_HEADER_B ++ VERSION_B ++ [(profileName p).length] ++
        profileName p ++ pack64 ts ++ n) ++ d7 : Bytes)).drop
        (10 + (profileName p).length + 8 + 32)
        = ((((MAGIC_HEADER_B ++ VERSION_B ++ [(profileName p).length] ++
          profileName p ++ pack64 ts ++ n) ++ d7 : Bytes)).drop
          (10 + (profileName p).length + 8)).drop 32 := by
      rw [List.drop_drop]
    rw [hsplit2, h1d]
    rw [show (32 : Nat) = n.length from by omega]
    exact List.drop_left _ _
  rw [hdrop profile1 hts, hdrop profile2 hts]

/-! ### A concrete instantiation of the external primitives

Used to evaluate the development on closed inputs: hashes and HMACs are
constant, the Fernet token is `pack64 ts ++ data` (so the timestamp is
embedded and decryption strips it), AES-CTR is the identity keystream,
the chaos keystream is all zeros and the float noise total is the
minimum 8. It satisfies every fact `Crypto.Wf` demands of the real
libraries. -/
def Cd : Crypto where
  sha256 := fun _ => List.replicate 32 0
  hmacSha256 := fun _ _ => List.replicate 32 0
  pbkdf2Sha256 := fun _ _ => List.replicate 32 0
  fernetEnc := fun _ d ts _ => pack64 ts ++ d
  fernetDec := fun _ t => some (t.drop 8)
  aesCtr := fun _ _ d => d
  chaosStream := fun _ n => List.replicate n 0
  noiseTotal := fun _ _ => 8

theorem Cd_wf : Cd.Wf where
  sha256_length := fun _ => by simp [Cd]
  sha256_lt := fun b x hx => by
    have : x = 0 := List.eq_of_mem_replicate hx
    omega
  hmac_length := fun _ _ => by simp [Cd]
  hmac_lt := fun k m x hx => by
    have : x = 0 := List.eq_of_mem_replicate hx
    omega
  fernet_roundtrip := fun k d ts iv => by
    simp only [Cd]
    rw [← pack64_length ts, List.drop_left]
  aesCtr_length := fun _ _ _ => rfl
  aesCtr_involutive := fun _ _ _ => rfl
  chaos_length := fun _ n => by simp [Cd]

/-- A 64-byte master key for concrete evaluation. -/
def mkW : Bytes := List.replicate 64 0

/-- A 32-byte nonce for concrete evaluation. -/
def nW : Bytes := List.replicate 32 0

/-! ### Helper lemmas shared by the claim theorems -/

theorem take_slice_drop {α : Type} (l : List α) (a b : Nat) (hab : a ≤ b) :
    l = l.take a ++ slice l a b ++ l.drop b := by
  have h1 : (l.take b).take a = l.take a := by
    rw [List.take_take, Nat.min_eq_left hab]
  calc l = l.take b ++ l.drop b := (List.take_append_drop b l).symm
    _ = ((l.take b).take a ++ (l.take b).drop a) ++ l.drop b := by
        rw [List.take_append_drop a (l.take b)]
    _ = l.take a ++ slice l a b ++ l.drop b := by
        simp only [slice, h1]

set_option maxRecDepth 2000000 in
theorem encB0_ok : (masterEncrypt Cd Profile.BALANCED [42] mkW nW 0 0 [] 0).isOk
    = true := by
  decide

set_option maxRecDepth 2000000 in
theorem encB1_ok : (masterEncrypt Cd Profile.BALANCED [42] mkW nW 1 0 [] 0).isOk
    = true := by
  decide

set_option maxRecDepth 2000000 in
theorem encM0_ok : (masterEncrypt Cd Profile.MAXIMUM [42] mkW nW 0 0 [] 0).isOk
    = true := by
  decide

set_option maxRecDepth 2000000 in
theorem chain0_ok : (((byteMaskEncrypt Cd [42] (layerKey Cd mkW nW 1) (nW.take 16)).bind fun d1 =>
    (fernetLayerEncrypt Cd d1 (layerKey Cd mkW nW 2) (nW.take 16) 0 []).bind fun d2 =>
      ctrLayerEncrypt Cd d2 (layerKey Cd mkW nW 3) (nW.take 16))).isOk = true := by
  decide

set_option maxRecDepth 2000000 in
theorem chain1_ok : (((byteMaskEncrypt Cd [42] (layerKey Cd mkW nW 1) (nW.take 16)).bind fun d1 =>
    (fernetLayerEncrypt Cd d1 (layerKey Cd mkW nW 2) (nW.take 16) 1 []).bind fun d2 =>
      ctrLayerEncrypt Cd d2 (layerKey Cd mkW nW 3) (nW.take 16))).isOk = true := by
  decide

set_option maxRecDepth 2000000 in
theorem swapEnc_ok : (swapperEncrypt Cd [1, 2, 3] mkW nW).isOk = true := by
  decide

set_option maxRecDepth 2000000 in
theorem noiseEnc_ok : (noiseEncrypt Cd [1, 2, 3] mkW nW).isOk = true := by
  decide


theorem deriveSwapParameters_bounds (mk n : Bytes) :
    3 ≤ (deriveSwapParameters C mk n).1 ∧ (deriveSwapParameters C mk n).1 ≤ 16 := by
  simp only [deriveSwapParameters]
  omega

theorem masterEncrypt_err5 (profile : Profile) (m mk n : Bytes)
    (hts fts : Nat) (fiv : Bytes) (l7ts : Nat) (d1 d2 d3 d4 : Bytes) (e : Err)
    (hm : m ≠ []) (hk : mk.length = 64) (hn : n.length = 32)
    (hts5 : hts < 18446744073709551616)
    (h1 : byteMaskEncrypt C m (layerKey C mk n 1) (n.take 16) = .ok d1)
    (h2 : fernetLayerEncrypt C d1 (layerKey C mk n 2) (n.take 16) fts fiv = .ok d2)
    (h3 : ctrLayerEncrypt C d2 (layerKey C mk n 3) (n.take 16) = .ok d3)
    (h4 : chaosLayerEncrypt C d3 (layerKey C mk n 4) (n.take 16) = .ok d4)
    (h5 : swapperEncrypt C d4 (layerKey C mk n 5) (n.take 16) = .error e) :
    masterEncrypt C profile m mk n hts fts fiv l7ts = .error e := by
  simp only [masterEncrypt, createSystemHeader, deriveLayerKeys]
  rw [if_neg hm, if_neg (by omega), if_neg (by omega),
    if_neg (by cases profile <;> decide), if_neg (by omega)]
  dsimp only
  rw [if_neg (by omega), if_neg (by omega)]
  dsimp only
  rw [h1]
  dsimp only
  rw [h2]
  dsimp only
  rw [h3]
  dsimp only
  rw [h4]
  dsimp only
  rw [h5]

/-! ### The claims -/

/-- C1: for every non-empty plaintext, 64-byte master key, 32-byte nonce and
profile, decrypting the output of `encrypt` under the same profile with the
same master key returns exactly the plaintext. -/
theorem C1_roundtrip (hC : C.Wf) (profile : Profile) (m mk n ct : Bytes)
    (hts fts : Nat) (fiv : Bytes) (l7ts : Nat)
    (hm : m ≠ []) (hmk : mk.length = 64) (hn : n.length = 32)
    (hbytes : ∀ b ∈ m, b < 256)
    (henc : masterEncrypt C profile m mk n hts fts fiv l7ts = .ok ct) :
    masterDecrypt C profile ct mk = .ok (profile, m) :=
  master_roundtrip C hC profile profile m mk n ct hts fts fiv l7ts hbytes henc

set_option maxRecDepth 2000000 in
theorem C1_roundtrip_witness :
    (masterEncrypt Cd Profile.BALANCED [42] mkW nW 0 0 [] 0).bind
        (fun ct => masterDecrypt Cd Profile.BALANCED ct mkW)
      = .ok (Profile.BALANCED, [42]) := by
  rcases hct : masterEncrypt Cd Profile.BALANCED [42] mkW nW 0 0 [] 0 with e | ct
  · have hok := encB0_ok
    rw [hct] at hok
    exact Bool.noConfusion hok
  · simp only [Except.bind]
    exact C1_roundtrip Cd Cd_wf Profile.BALANCED [42] mkW nW ct 0 0 [] 0
      (by decide) (by decide) (by decide) (by decide) hct

/-- C2: the packet region outside the 8-byte header timestamp is exactly what
the two encryptions share, and decrypt accepts the packet with the other
timestamp, returning the original plaintext: a bit flip confined to the
timestamp field (bytes 10+len(profile) .. +8) is always accepted silently,
because the header timestamp is parsed but never authenticated or used. -/
theorem C2_ts_unauthenticated (hC : C.Wf) (profile : Profile)
    (m mk n ct ct2 : Bytes) (hts hts2 fts : Nat) (fiv : Bytes) (l7ts : Nat)
    (hbytes : ∀ b ∈ m, b < 256)
    (h1 : masterEncrypt C profile m mk n hts fts fiv l7ts = .ok ct)
    (h2 : masterEncrypt C profile m mk n hts2 fts fiv l7ts = .ok ct2) :
    (ct.take (10 + (profileName profile).length)
        = ct2.take (10 + (profileName profile).length) ∧
      ct.drop (10 + (profileName profile).length + 8)
        = ct2.drop (10 + (profileName profile).length + 8) ∧
      slice ct (10 + (profileName profile).length)
        (10 + (profileName profile).length + 8) = pack64 hts ∧
      slice ct2 (10 + (profileName profile).length)
        (10 + (profileName profile).length + 8) = pack64 hts2) ∧
    masterDecrypt C profile ct2 mk = .ok (profile, m) :=
  ⟨masterEncrypt_ts_splice C profile m mk n ct ct2 hts hts2 fts fiv l7ts h1 h2,
    master_roundtrip C hC profile profile m mk n ct2 hts2 fts fiv l7ts hbytes h2⟩

theorem C2_ts_flip_counterexample :
    ((masterEncrypt Cd Profile.BALANCED [42] mkW nW 0 0 [] 0).bind fun ct =>
      (masterEncrypt Cd Profile.BALANCED [42] mkW nW 1 0 [] 0).bind fun ct2 =>
        if ct = ct.take 18 ++ [0, 0, 0, 0, 0, 0, 0, 0] ++ ct.drop 26 ∧
            ct2 = ct.take 18 ++ [1, 0, 0, 0, 0, 0, 0, 0] ++ ct.drop 26
        then masterDecrypt Cd Profile.BALANCED ct2 mkW
        else Except.error Err.format)
      = .ok (Profile.BALANCED, [42]) := by
  rcases hct : masterEncrypt Cd Profile.BALANCED [42] mkW nW 0 0 [] 0 with e | ct
  · have hok := encB0_ok
    rw [hct] at hok
    exact Bool.noConfusion hok
  rcases hct2 : masterEncrypt Cd Profile.BALANCED [42] mkW nW 1 0 [] 0 with e | ct2
  · have hok := encB1_ok
    rw [hct2] at hok
    exact Bool.noConfusion hok
  simp only [Except.bind]
  have hsp := masterEncrypt_ts_splice Cd Profile.BALANCED [42] mkW nW ct ct2
    0 1 0 [] 0 hct hct2
  have hid : ct = ct.take (10 + (profileName Profile.BALANCED).length) ++
      slice ct (10 + (profileName Profile.BALANCED).length)
        (10 + (profileName Profile.BALANCED).length + 8) ++
      ct.drop (10 + (profileName Profile.BALANCED).length + 8) :=
    take_slice_drop ct _ _ (by omega)
  have hid2 : ct2 = ct2.take (10 + (profileName Profile.BALANCED).length) ++
      slice ct2 (10 + (profileName Profile.BALANCED).length)
        (10 + (profileName Profile.BALANCED).length + 8) ++
      ct2.drop (10 + (profileName Profile.BALANCED).length + 8) :=
    take_slice_drop ct2 _ _ (by omega)
  rw [hsp.2.2.1] at hid
  rw [hsp.2.2.2, ← hsp.1, ← hsp.2.1] at hid2
  rw [if_pos (show ct = ct.take 18 ++ [0, 0, 0, 0, 0, 0, 0, 0] ++ ct.drop 26 ∧
      ct2 = ct.take 18 ++ [1, 0, 0, 0, 0, 0, 0, 0] ++ ct.drop 26 from ⟨hid, hid2⟩)]
  exact master_roundtrip Cd Cd_wf Profile.BALANCED Profile.BALANCED [42] mkW nW
    ct2 1 0 [] 0 (by decide) hct2

set_option maxRecDepth 2000000 in
theorem C2_ts_unauthenticated_witness :
    ((masterEncrypt Cd Profile.BALANCED [42] mkW nW 0 0 [] 0).bind fun ct =>
      (masterEncrypt Cd Profile.BALANCED [42] mkW nW 1 0 [] 0).bind fun ct2 =>
        if ct.take 18 = ct2.take 18 ∧ ct.drop 26 = ct2.drop 26
        then masterDecrypt Cd Profile.BALANCED ct2 mkW
        else Except.error Err.format)
      = .ok (Profile.BALANCED, [42]) := by
  rcases hct : masterEncrypt Cd Profile.BALANCED [42] mkW nW 0 0 [] 0 with e | ct
  · have hok := encB0_ok
    rw [hct] at hok
    exact Bool.noConfusion hok
  rcases hct2 : masterEncrypt Cd Profile.BALANCED [42] mkW nW 1 0 [] 0 with e | ct2
  · have hok := encB1_ok
    rw [hct2] at hok
    exact Bool.noConfusion hok
  simp only [Except.bind]
  have h := C2_ts_unauthenticated Cd Cd_wf Profile.BALANCED [42] mkW nW ct ct2
    0 1 0 [] 0 (by decide) hct hct2
  rw [if_pos (show ct.take 18 = ct2.take 18 ∧ ct.drop 26 = ct2.drop 26 from
    ⟨h.1.1, h.1.2.1⟩)]
  exact h.2

/-- C3: the Layer 1 outputs of two encryptions of the same input are
byte-identical, and the Layer 3 outputs are byte-identical exactly when the
Layer 2 tokens are byte-identical: a timestamp difference inside the Layer 2
token changes the Layer 3 output (and hence every later layer input), so
Layers 3..6 are not byte-identical across calls with different Layer 2
timestamps. -/
theorem C3_stages (hC : C.Wf) (m mk n : Bytes) (fts1 fts2 : Nat) (fiv : Bytes)
    (d1a d1b d2a d2b d3a d3b : Bytes)
    (h1a : byteMaskEncrypt C m (layerKey C mk n 1) (n.take 16) = .ok d1a)
    (h1b : byteMaskEncrypt C m (layerKey C mk n 1) (n.take 16) = .ok d1b)
    (h2a : fernetLayerEncrypt C d1a (layerKey C mk n 2) (n.take 16) fts1 fiv = .ok d2a)
    (h2b : fernetLayerEncrypt C d1b (layerKey C mk n 2) (n.take 16) fts2 fiv = .ok d2b)
    (h3a : ctrLayerEncrypt C d2a (layerKey C mk n 3) (n.take 16) = .ok d3a)
    (h3b : ctrLayerEncrypt C d2b (layerKey C mk n 3) (n.take 16) = .ok d3b) :
    d1a = d1b ∧ (d3a = d3b ↔ d2a = d2b) := by
  have hd1 : d1a = d1b := by
    rw [h1a] at h1b
    cases h1b
    rfl
  exact ⟨hd1, ctrLayerEncrypt_inj C hC (layerKey C mk n 3) (n.take 16)
    d2a d2b d3a d3b h3a h3b⟩

set_option maxRecDepth 2000000 in
theorem C3_fernet_ts_counterexample :
    (((byteMaskEncrypt Cd [42] (layerKey Cd mkW nW 1) (nW.take 16)).bind fun d1 =>
        (fernetLayerEncrypt Cd d1 (layerKey Cd mkW nW 2) (nW.take 16) 0 []).bind fun d2 =>
          ctrLayerEncrypt Cd d2 (layerKey Cd mkW nW 3) (nW.take 16)).toOption
      ≠ ((byteMaskEncrypt Cd [42] (layerKey Cd mkW nW 1) (nW.take 16)).bind fun d1 =>
        (fernetLayerEncrypt Cd d1 (layerKey Cd mkW nW 2) (nW.take 16) 1 []).bind fun d2 =>
          ctrLayerEncrypt Cd d2 (layerKey Cd mkW nW 3) (nW.take 16)).toOption) ∧
    ((byteMaskEncrypt Cd [42] (layerKey Cd mkW nW 1) (nW.take 16)).bind fun d1 =>
        (fernetLayerEncrypt Cd d1 (layerKey Cd mkW nW 2) (nW.take 16) 0 []).bind fun d2 =>
          ctrLayerEncrypt Cd d2 (layerKey Cd mkW nW 3) (nW.take 16)).isOk = true :=
  ⟨by decide, chain0_ok⟩

set_option maxRecDepth 2000000 in
theorem C3_stages_witness :
    (((byteMaskEncrypt Cd [42] (layerKey Cd mkW nW 1) (nW.take 16)).bind fun d1 =>
        (fernetLayerEncrypt Cd d1 (layerKey Cd mkW nW 2) (nW.take 16) 0 []).bind fun d2 =>
          ctrLayerEncrypt Cd d2 (layerKey Cd mkW nW 3) (nW.take 16))
      = ((byteMaskEncrypt Cd [42] (layerKey Cd mkW nW 1) (nW.take 16)).bind fun d1 =>
        (fernetLayerEncrypt Cd d1 (layerKey Cd mkW nW 2) (nW.take 16) 1 []).bind fun d2 =>
          ctrLayerEncrypt Cd d2 (layerKey Cd mkW nW 3) (nW.take 16)))
      ↔ (((byteMaskEncrypt Cd [42] (layerKey Cd mkW nW 1) (nW.take 16)).bind fun d1 =>
          fernetLayerEncrypt Cd d1 (layerKey Cd mkW nW 2) (nW.take 16) 0 [])
        = ((byteMaskEncrypt Cd [42] (layerKey Cd mkW nW 1) (nW.take 16)).bind fun d1 =>
          fernetLayerEncrypt Cd d1 (layerKey Cd mkW nW 2) (nW.take 16) 1 [])) := by
  rcases hd1 : byteMaskEncrypt Cd [42] (layerKey Cd mkW nW 1) (nW.take 16) with e | d1
  · simp only [Except.bind]
  · have hA := chain0_ok
    have hB := chain1_ok
    rw [hd1] at hA hB
    simp only [Except.bind] at hA hB ⊢
    rcases hd2a : fernetLayerEncrypt Cd d1 (layerKey Cd mkW nW 2) (nW.take 16) 0 []
      with e | d2a
    · rw [hd2a] at hA
      simp only [Except.bind] at hA
      exact Bool.noConfusion hA
    rw [hd2a] at hA
    simp only [Except.bind] at hA ⊢
    rcases hd2b : fernetLayerEncrypt Cd d1 (layerKey Cd mkW nW 2) (nW.take 16) 1 []
      with e | d2b
    · rw [hd2b] at hB
      simp only [Except.bind] at hB
      exact Bool.noConfusion hB
    rw [hd2b] at hB
    simp only [Except.bind] at hB ⊢
    rcases hd3a : ctrLayerEncrypt Cd d2a (layerKey Cd mkW nW 3) (nW.take 16) with e | d3a
    · rw [hd3a] at hA
      exact Bool.noConfusion hA
    rcases hd3b : ctrLayerEncrypt Cd d2b (layerKey Cd mkW nW 3) (nW.take 16) with e | d3b
    · rw [hd3b] at hB
      exact Bool.noConfusion hB
    simp only [Except.ok.injEq]
    exact (C3_stages Cd Cd_wf [42] mkW nW 0 1 [] d1 d1 d2a d2b d3a d3b
      hd1 hd1 hd2a hd2b hd3a hd3b).2

/-- C4: with equal integrity tag sizes, two profiles produce byte-identical
packets below the system header for a fixed input: the configured
swapper_rounds and noise_ratio of the profile are never read, and the Layer 5
round count actually used is derived from HMAC key material, always between
3 and 16 regardless of the profile. -/
theorem C4_profile_effect (profile1 profile2 : Profile)
    (m mk n ct1 ct2 : Bytes) (hts fts : Nat) (fiv : Bytes) (l7ts : Nat)
    (htag : (SECURITY_PROFILES profile1).integrity_tag_size
      = (SECURITY_PROFILES profile2).integrity_tag_size)
    (h1 : masterEncrypt C profile1 m mk n hts fts fiv l7ts = .ok ct1)
    (h2 : masterEncrypt C profile2 m mk n hts fts fiv l7ts = .ok ct2) :
    (ct1.drop (10 + (profileName profile1).length + 8 + 32)
      = ct2.drop (10 + (profileName profile2).length + 8 + 32)) ∧
    ∀ k nn : Bytes,
      3 ≤ (deriveSwapParameters C k nn).1 ∧ (deriveSwapParameters C k nn).1 ≤ 16 :=
  ⟨masterEncrypt_tag_payload C profile1 profile2 m mk n ct1 ct2 hts fts fiv l7ts
      htag h1 h2,
    fun k nn => deriveSwapParameters_bounds C k nn⟩

theorem C4_swap_rounds_counterexample :
    (SECURITY_PROFILES Profile.MAXIMUM).swapper_rounds = 16 ∧
    (SECURITY_PROFILES Profile.BALANCED).swapper_rounds = 8 ∧
    (SECURITY_PROFILES Profile.PERFORMANCE).swapper_rounds = 4 ∧
    (deriveSwapParameters Cd (layerKey Cd mkW nW 5) (nW.take 16)).1 = 3 := by
  decide

set_option maxRecDepth 2000000 in
theorem C4_profile_effect_witness :
    ((masterEncrypt Cd Profile.MAXIMUM [42] mkW nW 0 0 [] 0).bind fun ct1 =>
      (masterEncrypt Cd Profile.BALANCED [42] mkW nW 0 0 [] 0).bind fun ct2 =>
        if ct1.drop 57 = ct2.drop 58 then Except.ok () else Except.error Err.format)
      = .ok () := by
  rcases hct1 : masterEncrypt Cd Profile.MAXIMUM [42] mkW nW 0 0 [] 0 with e | ct1
  · have hok := encM0_ok
    rw [hct1] at hok
    exact Bool.noConfusion hok
  rcases hct2 : masterEncrypt Cd Profile.BALANCED [42] mkW nW 0 0 [] 0 with e | ct2
  · have hok := encB0_ok
    rw [hct2] at hok
    exact Bool.noConfusion hok
  simp only [Except.bind]
  have h := C4_profile_effect Cd Profile.MAXIMUM Profile.BALANCED [42] mkW nW
    ct1 ct2 0 0 [] 0 rfl hct1 hct2
  rw [if_pos (show ct1.drop 57 = ct2.drop 58 from h.1)]

/-- C5: `encrypt` fails with ValidationError exactly when the plaintext is
empty, the master key is not 64 bytes, or the nonce is not 32 bytes. -/
theorem C5_validation (hC : C.Wf) (profile : Profile) (m mk n : Bytes)
    (hts fts : Nat) (fiv : Bytes) (l7ts : Nat) :
    masterEncrypt C profile m mk n hts fts fiv l7ts = .error .validation
      ↔ (m = [] ∨ mk.length ≠ 64 ∨ n.length ≠ 32) :=
  masterEncrypt_validation_iff C hC profile m mk n hts fts fiv l7ts

theorem C5_validation_witness :
    masterEncrypt Cd Profile.BALANCED [] mkW nW 0 0 [] 0 = .error .validation :=
  (C5_validation Cd Cd_wf Profile.BALANCED [] mkW nW 0 0 [] 0).mpr (Or.inl rfl)

/-- C6: the Layer 1 substitution table is a permutation of the byte values
0..255, the stored inverse table inverts it in both directions, and
consequently Layer 1 decryption inverts Layer 1 encryption on every byte
string. -/
theorem C6_layer1_bijection (hC : C.Wf) (mk n : Bytes)
    (hmk : 32 ≤ mk.length) (hn : 16 ≤ n.length) :
    ∃ sub inv, createSubstitutionTable C mk n = .ok (sub, inv) ∧
      sub.Perm (List.range 256) ∧
      (∀ i, i < 256 → inv.getD (sub.getD i 0) 0 = i) ∧
      (∀ b, b < 256 → sub.getD (inv.getD b 0) 0 = b) ∧
      (∀ pt ct, (∀ b ∈ pt, b < 256) → byteMaskEncrypt C pt mk n = .ok ct →
        byteMaskDecrypt C ct mk n = .ok pt) := by
  rcases createSubstitutionTable_spec C hC mk n with ⟨sub, hcst, hperm⟩
  refine ⟨sub, invertTable sub, hcst, hperm, ?_, ?_, ?_⟩
  · intro i hi
    exact invertTable_getD hperm hi
  · intro b hb
    exact invertTable_getD_right hperm hb
  · intro pt ct hbytes henc
    exact byteMask_roundtrip C hC pt mk n ct hbytes henc

theorem C6_layer1_bijection_witness :
    ∃ sub inv, createSubstitutionTable Cd mkW nW = .ok (sub, inv) ∧
      sub.Perm (List.range 256) ∧
      (∀ i, i < 256 → inv.getD (sub.getD i 0) 0 = i) ∧
      (∀ b, b < 256 → sub.getD (inv.getD b 0) 0 = b) ∧
      (∀ pt ct, (∀ b ∈ pt, b < 256) → byteMaskEncrypt Cd pt mkW nW = .ok ct →
        byteMaskDecrypt Cd ct mkW nW = .ok pt) :=
  C6_layer1_bijection Cd Cd_wf mkW nW (by decide) (by decide)

/-- C7: the Layer 5 padding of a non-empty input is always to a multiple of
16 bytes, preserves the data as a prefix, and appends between 1 and 16 bytes;
it appends a full 16-byte block exactly when the input length is already a
multiple of 16, so the overhead is not always at least 16 bytes. -/
theorem C7_padding (d : Bytes) (hd : d ≠ []) :
    (padToBlocks d).1.length % 16 = 0 ∧
    (padToBlocks d).1.take d.length = d ∧
    1 ≤ (padToBlocks d).1.length - d.length ∧
    (padToBlocks d).1.length - d.length ≤ 16 ∧
    ((padToBlocks d).1.length - d.length = 16 ↔ d.length % 16 = 0) := by
  have h1 := padToBlocks_length d hd
  have h2 := padToBlocks_mod d hd
  have h3 := padToBlocks_take d hd
  have h4 : d.length % 16 < 16 := Nat.mod_lt _ (by omega)
  exact ⟨h2, h3, by omega, by omega, by omega⟩

theorem C7_padding_counterexample :
    (padToBlocks [0]).1.length = 16 ∧ ([0] : Bytes).length = 1 ∧
    (padToBlocks [0]).1.length - ([0] : Bytes).length < 16 := by
  decide

theorem C7_padding_witness :
    ([0] : Bytes) ≠ [] ∧
    ((padToBlocks [0]).1.length % 16 = 0 ∧
      (padToBlocks [0]).1.take ([0] : Bytes).length = [0] ∧
      1 ≤ (padToBlocks [0]).1.length - ([0] : Bytes).length ∧
      (padToBlocks [0]).1.length - ([0] : Bytes).length ≤ 16 ∧
      ((padToBlocks [0]).1.length - ([0] : Bytes).length = 16
        ↔ ([0] : Bytes).length % 16 = 0)) :=
  ⟨by decide, C7_padding [0] (by decide)⟩

/-- C8: a packet produced under profile MAXIMUM, decrypted on an instance
configured with profile BALANCED, is auto-reconfigured to MAXIMUM from the
packet header and still returns exactly the original plaintext. -/
theorem C8_cross_profile (hC : C.Wf) (m mk n ct : Bytes) (hts fts : Nat)
    (fiv : Bytes) (l7ts : Nat)
    (hm : m ≠ []) (hmk : mk.length = 64) (hn : n.length = 32)
    (hbytes : ∀ b ∈ m, b < 256)
    (henc : masterEncrypt C Profile.MAXIMUM m mk n hts fts fiv l7ts = .ok ct) :
    masterDecrypt C Profile.BALANCED ct mk = .ok (Profile.MAXIMUM, m) :=
  master_roundtrip C hC Profile.MAXIMUM Profile.BALANCED m mk n ct
    hts fts fiv l7ts hbytes henc

set_option maxRecDepth 2000000 in
theorem C8_cross_profile_witness :
    (masterEncrypt Cd Profile.MAXIMUM [42] mkW nW 0 0 [] 0).bind
        (fun ct => masterDecrypt Cd Profile.BALANCED ct mkW)
      = .ok (Profile.MAXIMUM, [42]) := by
  rcases hct : masterEncrypt Cd Profile.MAXIMUM [42] mkW nW 0 0 [] 0 with e | ct
  · have hok := encM0_ok
    rw [hct] at hok
    exact Bool.noConfusion hok
  · simp only [Except.bind]
    exact C8_cross_profile Cd Cd_wf [42] mkW nW ct 0 0 [] 0
      (by decide) (by decide) (by decide) (by decide) hct

/-- C9: Layer 5 and Layer 6 decryption do not depend on the key and nonce
beyond their length validation: any key of at least 32 bytes and nonce of at
least 16 bytes inverts an encryption performed under any other key and
nonce, because inversion is driven by the permutation indices and noise map
stored in cleartext inside the ciphertext. -/
theorem C9_key_independence (hC : C.Wf) (mk2 n2 : Bytes)
    (hmk2 : 32 ≤ mk2.length) (hn2 : 16 ≤ n2.length) :
    (∀ pt mk n ct, swapperEncrypt C pt mk n = .ok ct →
      swapperDecrypt ct mk2 n2 = .ok pt) ∧
    (∀ pt mk n ct, noiseEncrypt C pt mk n = .ok ct →
      noiseDecrypt ct mk2 n2 = .ok pt) :=
  ⟨fun pt mk n ct h => swapper_roundtrip C pt mk n mk2 n2 ct hmk2 hn2 h,
    fun pt mk n ct h => noise_roundtrip C hC pt mk n mk2 n2 ct hmk2 hn2 h⟩

set_option maxRecDepth 2000000 in
theorem C9_key_independence_witness :
    ((swapperEncrypt Cd [1, 2, 3] mkW nW).bind
        (fun ct => swapperDecrypt ct (List.replicate 32 7) (List.replicate 16 9))
      = .ok [1, 2, 3]) ∧
    ((noiseEncrypt Cd [1, 2, 3] mkW nW).bind
        (fun ct => noiseDecrypt ct (List.replicate 32 7) (List.replicate 16 9))
      = .ok [1, 2, 3]) := by
  have h := C9_key_independence Cd Cd_wf (List.replicate 32 7) (List.replicate 16 9)
    (by decide) (by decide)
  constructor
  · rcases hct : swapperEncrypt Cd [1, 2, 3] mkW nW with e | ct
    · have hok := swapEnc_ok
      rw [hct] at hok
      exact Bool.noConfusion hok
    · simp only [Except.bind]
      exact h.1 [1, 2, 3] mkW nW ct hct
  · rcases hct : noiseEncrypt Cd [1, 2, 3] mkW nW with e | ct
    · have hok := noiseEnc_ok
      rw [hct] at hok
      exact Bool.noConfusion hok
    · simp only [Except.bind]
      exact h.2 [1, 2, 3] mkW nW ct hct

/-- C10: whenever 2 plus twice the derived round count times the padded
block count exceeds 65535 (with at most 65536 blocks, so the block indices
themselves still pack), Layer 5 encryption fails with the permutation-data
error, and such a Layer 5 failure propagates to a failure of the whole
`encrypt` pipeline. -/
theorem C10_perm_too_large (hC : C.Wf) (pt mk n : Bytes)
    (hmk : 32 ≤ mk.length) (hn : 16 ≤ n.length) (hpt : pt ≠ [])
    (hnb : (padToBlocks pt).1.length / 16 ≤ 65536)
    (hbig : 65535 < 2 + (deriveSwapParameters C mk n).1
      * ((padToBlocks pt).1.length / 16 * 2)) :
    swapperEncrypt C pt mk n = .error .permTooLarge ∧
    ∀ (profile : Profile) (m mk2 n2 : Bytes) (hts fts : Nat) (fiv : Bytes)
      (l7ts : Nat) (d1 d2 d3 d4 : Bytes),
      m ≠ [] → mk2.length = 64 → n2.length = 32 →
      hts < 18446744073709551616 →
      byteMaskEncrypt C m (layerKey C mk2 n2 1) (n2.take 16) = .ok d1 →
      fernetLayerEncrypt C d1 (layerKey C mk2 n2 2) (n2.take 16) fts fiv = .ok d2 →
      ctrLayerEncrypt C d2 (layerKey C mk2 n2 3) (n2.take 16) = .ok d3 →
      chaosLayerEncrypt C d3 (layerKey C mk2 n2 4) (n2.take 16) = .ok d4 →
      swapperEncrypt C d4 (layerKey C mk2 n2 5) (n2.take 16) = .error .permTooLarge →
      masterEncrypt C profile m mk2 n2 hts fts fiv l7ts = .error .permTooLarge :=
  ⟨swapperEncrypt_permTooLarge C pt mk n hmk hn hpt hnb hbig,
    fun profile m mk2 n2 hts fts fiv l7ts d1 d2 d3 d4 hm hk hn2 hts5 h1 h2 h3 h4 h5 =>
      masterEncrypt_err5 C profile m mk2 n2 hts fts fiv l7ts d1 d2 d3 d4
        Err.permTooLarge hm hk hn2 hts5 h1 h2 h3 h4 h5⟩

theorem C10_perm_too_large_witness :
    swapperEncrypt Cd (List.replicate 174752 0) mkW nW = .error .permTooLarge := by
  have hpt : (List.replicate 174752 0 : Bytes) ≠ [] := by
    apply List.ne_nil_of_length_pos
    rw [List.length_replicate]
    omega
  have hlen : (padToBlocks (List.replicate 174752 0 : Bytes)).1.length = 174768 := by
    rw [padToBlocks_length _ hpt, List.length_replicate]
  exact (C10_perm_too_large Cd Cd_wf (List.replicate 174752 0) mkW nW
    (by decide) (by decide) hpt
    (by rw [hlen]; decide)
    (by rw [hlen]
        have h3 : (deriveSwapParameters Cd mkW nW).1 = 3 := by decide
        rw [h3]
        decide)).1

end CryptTalk
